import Mathlib

/-!
Verification of the `tally` merchant rule engine (`src/tally/merchant_engine.py`)
and its rule cache (`src/tally/rule_cache.py`).

The expression language module (`expr_parser`) is not part of the sources under
verification; evaluation is therefore parameterized by an oracle
`EvalFn : String → Scope → Option Value` (`Option.none` models a raised
`ExpressionError`), and expression-parse validation by `parseOk : String → Bool`.
-/

namespace Tally

/-! ## Python string primitives used by the engine -/

/-- Whitespace test used by Python `str.strip` (ASCII subset; the engine's
rule files are ASCII). -/
def isPyWS (c : Char) : Bool := c = ' ' ∨ c = '\t' ∨ c = '\n' ∨ c = '\r' ∨ c = '\x0b' ∨ c = '\x0c'

def pyStripList (l : List Char) : List Char :=
  ((l.dropWhile isPyWS).reverse.dropWhile isPyWS).reverse

/-- Python `str.strip()`. -/
def pyStrip (s : String) : String := ⟨pyStripList s.data⟩

/-- Python `str.lower()` (ASCII subset). -/
def pyLower (s : String) : String := ⟨s.data.map Char.toLower⟩

/-- Non-overlapping substring count, as Python `str.count`. -/
def countOccs (pat : List Char) : List Char → Nat
  | [] => 0
  | c :: rest =>
    if pat.isPrefixOf (c :: rest) then
      1 + countOccs pat (rest.drop (pat.length - 1))
    else
      countOccs pat rest
termination_by l => l.length
decreasing_by
  · simp only [List.length_cons]
    have := List.length_drop (pat.length - 1) rest
    omega
  · simp

/-- Substring containment, as Python `in` on strings. -/
def hasSub (hay pat : String) : Bool :=
  hay.data.tails.any (fun t => pat.data.isPrefixOf t)

/-- Split off everything up to (exclusive) the first occurrence of `q`;
returns the part before and the part after, or `none` if `q` is absent. -/
def splitAtChar (q : Char) : List Char → Option (List Char × List Char)
  | [] => Option.none
  | c :: rest =>
    if c = q then some ([], rest)
    else (splitAtChar q rest).map (fun p => (c :: p.1, p.2))

theorem splitAtChar_length {q : Char} : ∀ {l a b : List Char},
    splitAtChar q l = some (a, b) → b.length < l.length := by
  intro l
  induction l with
  | nil => intro a b h; simp [splitAtChar] at h
  | cons c rest ih =>
    intro a b h
    simp only [splitAtChar] at h
    by_cases hc : c = q
    · simp [hc] at h
      simp [← h.2, List.length_cons]
    · simp only [hc, if_false, Option.map_eq_some'] at h
      obtain ⟨p, hp, hep⟩ := h
      have := ih (a := p.1) (b := p.2) (by rw [hp])
      have hb : b = p.2 := by
        have := congrArg Prod.snd hep
        simpa using this.symm
      subst hb
      simp only [List.length_cons]
      omega

/-- Sum of the lengths of the contents of successive `q`-quoted pairs,
as Python `re.findall(q([^q]*)q)` summed — quotes pair up left to right. -/
def quotedLens (q : Char) (l : List Char) : Nat :=
  match h1 : splitAtChar q l with
  | Option.none => 0
  | some (_, rest) =>
    match h2 : splitAtChar q rest with
    | Option.none => 0
    | some (content, rest') => content.length + quotedLens q rest'
termination_by l.length
decreasing_by
  have := splitAtChar_length h1
  have := splitAtChar_length h2
  omega

/-- Python `value.split(c, 1)` when `c` occurs: the text before the first `c`
and the text after it. `none` when `c` does not occur. -/
def splitFirst (c : Char) (s : String) : Option (String × String) :=
  (splitAtChar c s.data).map (fun p => (⟨p.1⟩, ⟨p.2⟩))

/-- Python `c in s` for a single character. -/
def hasChar (s : String) (c : Char) : Bool := s.data.contains c

/-- `s[1:-1]` on a string of length ≥ 2. -/
def innerSlice (s : String) : String := ⟨(s.data.drop 1).dropLast⟩

/-- Python `str.startswith`. -/
def strStarts (s p : String) : Bool := p.data.isPrefixOf s.data

/-- Python `str.endswith`. -/
def strEnds (s p : String) : Bool := p.data.reverse.isPrefixOf s.data.reverse

/-- Python `str.split(c)` for a one-character separator. -/
def splitOnChar (c : Char) : List Char → List (List Char)
  | [] => [[]]
  | x :: rest =>
    match splitOnChar c rest with
    | [] => [[]]
    | cur :: more => if x = c then [] :: cur :: more else (x :: cur) :: more

/-- Python string comparison: lexicographic by code point. -/
def charListLe : List Char → List Char → Bool
  | [], _ => true
  | _ :: _, [] => false
  | a :: as, b :: bs => if a < b then true else if b < a then false else charListLe as bs

def strLeb (a b : String) : Bool := charListLe a.data b.data

/-! ## Values, scopes and the evaluation oracle -/

/-- Runtime values of the expression language (shape sufficient for the
engine's observations: truthiness, `str()`, list flattening). -/
inductive Value where
  | none : Value
  | bool : Bool → Value
  | num : ℚ → Value
  | str : String → Value
  | list : List Value → Value

/-- Python truthiness of an evaluation result. -/
def truthy : Value → Bool
  | .none => false
  | .bool b => b
  | .num q => decide (q ≠ 0)
  | .str s => decide (s ≠ "")
  | .list l => !l.isEmpty

mutual

/-- Python `str()` on a value (numeric rendering and the nested-list
rendering are stand-ins: the engine's observable properties never depend on
the exact digits or quoting Python prints). -/
def valueStr : Value → String
  | .none => "None"
  | .bool b => cond b "True" "False"
  | .num q => toString q
  | .str s => s
  | .list l => "[" ++ String.intercalate ", " (valueStrList l) ++ "]"

def valueStrList : List Value → List String
  | [] => []
  | v :: rest => valueStr v :: valueStrList rest

end

/-- Variable scope: the `variables` dict passed to the evaluator. -/
def Scope : Type := String → Option Value

def Scope.empty : Scope := fun _ => Option.none

def Scope.set (s : Scope) (n : String) (v : Value) : Scope :=
  fun m => if m = n then some v else s m

/-- Evaluation oracle: `evaluate_transaction(expr, txn, variables, data_sources)`
specialized to a fixed transaction and data-source map. `Option.none` models a
raised `ExpressionError`. -/
def EvalFn : Type := String → Scope → Option Value

/-! ## Rule records (`MerchantRule` dataclass) -/

structure MerchantRule where
  name : String
  matchExpr : String
  category : String := ""
  subcategory : String := ""
  merchant : String := ""
  tags : List String := []
  priority : Int := 50
  lineNumber : Nat := 0
  letBindings : List (String × String) := []
  fields : List (String × String) := []
  transform : String := ""
deriving DecidableEq

/-- Dataclass construction including `__post_init__`: an empty merchant
display name defaults to the rule name. -/
def MerchantRule.make (name matchExpr category subcategory merchant : String)
    (tags : List String) (priority : Int) (lineNumber : Nat)
    (letBindings fields : List (String × String)) (transform : String) : MerchantRule :=
  { name := name, matchExpr := matchExpr, category := category,
    subcategory := subcategory,
    merchant := if merchant = "" then name else merchant,
    tags := tags, priority := priority, lineNumber := lineNumber,
    letBindings := letBindings, fields := fields, transform := transform }

def MerchantRule.isCategorizationRule (r : MerchantRule) : Bool := r.category ≠ ""

def MerchantRule.hasMerchant (r : MerchantRule) : Bool := r.merchant ≠ ""

def MerchantRule.hasSubcategory (r : MerchantRule) : Bool := r.subcategory ≠ ""

/-! ## Specificity (`calculate_specificity`) -/

/-- Specificity key `(priority, pattern_conditions, field_constraints, pattern_length)`. -/
abbrev Spec : Type := Int × Nat × Nat × Nat

def patternFuncs : List String :=
  ["contains(", "regex(", "normalized(", "startswith(", "fuzzy(", "anyof("]

def fieldKeywords : List String :=
  ["amount", "date", "month", "year", "day", "weekday", "source", "field."]

/-- Total length of double- and single-quoted literals in the raw text. -/
def extractPatternLength (matchExpr : String) : Nat :=
  quotedLens '"' matchExpr.data + quotedLens (Char.ofNat 39) matchExpr.data

def calculateSpecificity (rule : MerchantRule) : Spec :=
  let expr := pyLower rule.matchExpr
  let patternCount := (patternFuncs.map (fun f => countOccs f.data expr.data)).sum
  let fieldCount := (fieldKeywords.filter (fun kw => hasSub expr kw)).length
  let patternLength := extractPatternLength rule.matchExpr
  (rule.priority, patternCount, fieldCount, patternLength)

/-- Strict lexicographic comparison of specificity keys (Python tuple `>`). -/
def specGt (x y : Spec) : Bool :=
  x.1 > y.1 ∨ (x.1 = y.1 ∧ (x.2.1 > y.2.1 ∨ (x.2.1 = y.2.1 ∧
    (x.2.2.1 > y.2.2.1 ∨ (x.2.2.1 = y.2.2.1 ∧ x.2.2.2 > y.2.2.2)))))

/-- Python `max(xs, key=f)`: first maximal element wins ties. -/
def maxByFirst (f : α → Spec) : List α → Option α
  | [] => Option.none
  | x :: rest => some (rest.foldl (fun acc y => if specGt (f y) (f acc) then y else acc) x)

/-! ## Match result and engine state -/

structure MatchResult where
  matched : Bool := false
  merchant : String := ""
  category : String := ""
  subcategory : String := ""
  tags : List String := []
  matchedRuleIdx : Option Nat := Option.none
  merchantRuleIdx : Option Nat := Option.none
  subcategoryRuleIdx : Option Nat := Option.none
  allMatchingRules : List Nat := []
  tagRules : List Nat := []
  extraFields : List (String × Value) := []
  tagSources : List (String × String × String) := []
  transformDescription : String := ""

/-- `MerchantEngine` state after `parse`: ordered rules, file-level variables
(an insertion-ordered dict of expression texts), transform directives, mode. -/
structure MerchantEngine where
  rules : List MerchantRule := []
  fileVars : List (String × String) := []
  transforms : List (String × String) := []
  matchMode : String := "first_match"

/-- Insertion-ordered dict write (later assignment overwrites in place). -/
def setAssoc (l : List (String × α)) (k : String) (v : α) : List (String × α) :=
  match l with
  | [] => [(k, v)]
  | (k', v') :: rest => if k' = k then (k, v) :: rest else (k', v') :: setAssoc rest k v

/-! ## Evaluation plumbing (`_evaluate_variables`, `_evaluate_let_bindings`,
`_evaluate_fields`, `_evaluate_transform`, `_resolve_tags`) -/

/-- File-level variables are each evaluated against the bare transaction
(no variable scope is passed); failures drop the variable silently. -/
def evalGlobals (ev : EvalFn) (vars : List (String × String)) : Scope :=
  vars.foldl (fun sc p =>
    match ev p.2 Scope.empty with
    | some v => sc.set p.1 v
    | Option.none => sc) Scope.empty

/-- Rule-local let bindings, evaluated strictly in order; a failed binding
is set to `None` and evaluation continues. -/
def evalLets (ev : EvalFn) (sc : Scope) : List (String × String) → Scope
  | [] => sc
  | (n, e) :: rest => evalLets ev (sc.set n ((ev e sc).getD Value.none)) rest

/-- Scope in which a rule's match expression is evaluated. -/
def ruleScope (ev : EvalFn) (gvars : Scope) (r : MerchantRule) : Scope :=
  if r.letBindings.isEmpty then gvars else evalLets ev gvars r.letBindings

/-- Outcome of `matches_transaction` for one rule: `none` models a raised
`ExpressionError` (rule skipped); otherwise the truthiness of the evaluated
match expression. Modelled from the spec: a truthy evaluation result marks
the rule matching (`expr_parser.matches_transaction` is not under `src/`). -/
def ruleMatchQ (ev : EvalFn) (gvars : Scope) (r : MerchantRule) : Option Bool :=
  (ev r.matchExpr (ruleScope ev gvars r)).map truthy

/-- `field:` directives of the winning rule; failures omit the field. -/
def evalFields (ev : EvalFn) (r : MerchantRule) (sc : Scope) : List (String × Value) :=
  r.fields.foldl (fun acc p =>
    match ev p.2 sc with
    | some v => acc ++ [(p.1, v)]
    | Option.none => acc) []

/-- `transform:` expression of the winning rule; `""` on failure or `None`. -/
def evalTransform (ev : EvalFn) (r : MerchantRule) (sc : Scope) : String :=
  match ev r.transform sc with
  | some Value.none => ""
  | some v => valueStr v
  | Option.none => ""

/-- Set-insert preserving first-occurrence order (models Python `set.add`
at the level of membership). -/
def addUniq (l : List String) (x : String) : List String :=
  if x ∈ l then l else l ++ [x]

def lbrace : String := "\x7b"

def rbrace : String := "\x7d"

/-- Flattening of a list-valued dynamic tag result: each truthy item
contributes `str(item).strip().lower()` (with no emptiness re-check). -/
def resolveListItems (acc : List String) (items : List Value) : List String :=
  items.foldl (fun acc2 item =>
    if truthy item then addUniq acc2 (pyLower (pyStrip (valueStr item)))
    else acc2) acc

/-- Contribution of a successfully evaluated dynamic tag value: lists are
flattened item-wise; falsy values and whitespace-only scalars contribute
nothing; a scalar contributes `str(v).strip().lower()`. -/
def resolveDynValue (acc : List String) (v : Value) : List String :=
  if truthy v then
    match v with
    | Value.list items => resolveListItems acc items
    | _ =>
      let stripped := pyStrip (valueStr v)
      if stripped = "" then acc else addUniq acc (pyLower stripped)
  else acc

/-- One `_resolve_tags` loop iteration over a raw tag entry. -/
def resolveTagStep (ev : EvalFn) (sc : Scope) (acc : List String) (rawTag : String) : List String :=
  let t := pyStrip rawTag
  if t = "" then acc
  else if strStarts t lbrace ∧ strEnds t rbrace then
    let e := pyStrip (innerSlice t)
    if e = "" then acc
    else
      match ev e sc with
      | Option.none => acc
      | some v => resolveDynValue acc v
  else addUniq acc (pyLower t)

/-- `_resolve_tags`: resolve a rule's tag entries; `{expr}` entries are
evaluated in the rule's scope, list results flattened, falsy results dropped. -/
def resolveTags (ev : EvalFn) (r : MerchantRule) (sc : Scope) : List String :=
  r.tags.foldl (resolveTagStep ev sc) []

/-! ## The matching loop (`MerchantEngine.match`) -/

/-- The per-rule evaluation loop: rules whose match expression evaluates
truthy, with their index and resolved scope, in file order. -/
def matchingEntriesAux (ev : EvalFn) (gvars : Scope) :
    Nat → List MerchantRule → List (Nat × MerchantRule × Scope)
  | _, [] => []
  | i, r :: rest =>
    match ruleMatchQ ev gvars r with
    | some true => (i, r, ruleScope ev gvars r) :: matchingEntriesAux ev gvars (i + 1) rest
    | _ => matchingEntriesAux ev gvars (i + 1) rest

def matchingEntries (ev : EvalFn) (gvars : Scope) (rules : List MerchantRule) :
    List (Nat × MerchantRule × Scope) :=
  matchingEntriesAux ev gvars 0 rules

/-- Tag accumulation state: the `all_tags` set, the `tag_sources` provenance
dict (tag, rule name, pattern), the `tag_rules` list. -/
structure TagState where
  tags : List String := []
  sources : List (String × String × String) := []
  tagRules : List Nat := []

/-- Add one rule's resolved tags: each tag is recorded once, with provenance
claimed by its first contributor. -/
def addResolved (st : TagState) (resolved : List String) (rname rexpr : String) : TagState :=
  resolved.foldl (fun s t =>
    if t ∈ s.tags then s
    else { s with tags := s.tags ++ [t], sources := s.sources ++ [(t, rname, rexpr)] }) st

/-- Pass B: every matching rule with no category contributes its resolved
tags immediately. -/
def tagPass (ev : EvalFn) (ms : List (Nat × MerchantRule × Scope)) : TagState :=
  ms.foldl (fun st e =>
    if e.2.1.isCategorizationRule then st
    else
      let st' := addResolved st (resolveTags ev e.2.1 e.2.2) e.2.1.name e.2.1.matchExpr
      { st' with tagRules := st'.tagRules ++ [e.1] }) {}

/-- Winning-rule bookkeeping shared by both modes: evaluate `field:`
directives and `transform:`, and add the winner's tags. -/
def applyCategoryWinner (ev : EvalFn) (st : TagState) (i : Nat) (r : MerchantRule)
    (sc : Scope) (res : MatchResult) : MatchResult :=
  let res := { res with matched := true, category := r.category, matchedRuleIdx := some i }
  let res := if ¬ r.fields.isEmpty then { res with extraFields := evalFields ev r sc } else res
  let res := if r.transform ≠ "" then { res with transformDescription := evalTransform ev r sc } else res
  let st' := if ¬ r.tags.isEmpty then addResolved st (resolveTags ev r sc) r.name r.matchExpr else st
  let tagRules := if ¬ r.tags.isEmpty then res.tagRules ++ [i] else res.tagRules
  { res with tags := st'.tags, tagSources := st'.sources, tagRules := tagRules }

/-- `first_match` resolution: the first matching rule in file order that
declares a category wins all fields. -/
def firstMatchResolve (ev : EvalFn) (ms : List (Nat × MerchantRule × Scope))
    (st : TagState) (base : MatchResult) : MatchResult :=
  match ms.find? (fun e => e.2.1.isCategorizationRule) with
  | Option.none => base
  | some (i, r, sc) =>
    let res := { base with merchant := r.merchant, merchantRuleIdx := some i }
    let res :=
      if r.subcategory ≠ "" then
        { res with subcategory := r.subcategory, subcategoryRuleIdx := some i }
      else res
    applyCategoryWinner ev st i r sc res

/-- `most_specific` resolution: merchant, category and subcategory are each
resolved independently by maximal specificity, ties to the first in file
order (Python `max`). -/
def mostSpecificResolve (ev : EvalFn) (ms : List (Nat × MerchantRule × Scope))
    (st : TagState) (base : MatchResult) : MatchResult :=
  if ms.isEmpty then base
  else
    let res := base
    let res :=
      match maxByFirst (fun e => calculateSpecificity e.2.1) (ms.filter (fun e => e.2.1.hasMerchant)) with
      | some w => { res with merchant := w.2.1.merchant, merchantRuleIdx := some w.1 }
      | Option.none => res
    let res :=
      match maxByFirst (fun e => calculateSpecificity e.2.1) (ms.filter (fun e => e.2.1.isCategorizationRule)) with
      | some w => applyCategoryWinner ev st w.1 w.2.1 w.2.2 res
      | Option.none => res
    let res :=
      match maxByFirst (fun e => calculateSpecificity e.2.1) (ms.filter (fun e => e.2.1.hasSubcategory)) with
      | some w => { res with subcategory := w.2.1.subcategory, subcategoryRuleIdx := some w.1 }
      | Option.none => res
    res

/-- `MerchantEngine.match` for a fixed transaction and data-source map,
both abstracted into the evaluation oracle `ev`. -/
def engineMatch (ev : EvalFn) (eng : MerchantEngine) : MatchResult :=
  let gvars := evalGlobals ev eng.fileVars
  let ms := matchingEntries ev gvars eng.rules
  let st := tagPass ev ms
  let base : MatchResult :=
    { allMatchingRules := ms.map (fun e => e.1), tagRules := st.tagRules,
      tags := st.tags, tagSources := st.sources }
  if eng.matchMode = "first_match" then firstMatchResolve ev ms st base
  else mostSpecificResolve ev ms st base

/-! ## Rule-file parsing (`MerchantEngine.parse` and `_add_rule`) -/

structure MerchantParseError where
  message : String
  lineNumber : Nat
deriving DecidableEq

def isIdentStart (c : Char) : Bool := c.isAlpha ∨ c = '_'

def isIdentChar (c : Char) : Bool := c.isAlphanum ∨ c = '_'

/-- Match `^([a-zA-Z_][a-zA-Z0-9_]*)\s*=\s*(.+)$` against an end-stripped
line: the identifier and the (nonempty) right-hand side. The greedy
identifier is exact here: any shorter prefix is followed by a word
character, which can never satisfy `\s*=`. -/
def identAssignMatch (s : String) : Option (String × String) :=
  match s.data with
  | [] => Option.none
  | c :: rest =>
    if isIdentStart c then
      let ident := c :: rest.takeWhile isIdentChar
      let after := (rest.dropWhile isIdentChar).dropWhile isPyWS
      match after with
      | '=' :: tail =>
        let rhs := tail.dropWhile isPyWS
        if rhs.isEmpty then Option.none else some (⟨ident⟩, ⟨rhs⟩)
      | _ => Option.none
    else Option.none

/-- Match `^(field\.[a-zA-Z_][a-zA-Z0-9_]*|[a-zA-Z_][a-zA-Z0-9_]*)\s*=\s*(.+)$`:
the top-level assignment form, where the left-hand side may carry a
`field.` prefix. -/
def topAssignMatch (s : String) : Option (String × String) :=
  match s.data with
  | 'f' :: 'i' :: 'e' :: 'l' :: 'd' :: '.' :: c :: rest =>
    if isIdentStart c then
      let ident := c :: rest.takeWhile isIdentChar
      let after := (rest.dropWhile isIdentChar).dropWhile isPyWS
      match after with
      | '=' :: tail =>
        let rhs := tail.dropWhile isPyWS
        if rhs.isEmpty then Option.none
        else some (⟨'f' :: 'i' :: 'e' :: 'l' :: 'd' :: '.' :: ident⟩, ⟨rhs⟩)
      | _ => Option.none
    else identAssignMatch s
  | _ => identAssignMatch s

/-- Digit sequence continuation: decimal digits with single underscores
allowed only between digits (Python numeric literal grammar for `int()`). -/
def digitsTail : List Char → Bool
  | [] => true
  | '_' :: d :: t => d.isDigit && digitsTail t
  | ['_'] => false
  | d :: t => d.isDigit && digitsTail t

def digitsVal (l : List Char) : Nat :=
  l.foldl (fun acc c => acc * 10 + (c.toNat - '0'.toNat)) 0

def intDigits (l : List Char) : Option Nat :=
  match l with
  | [] => Option.none
  | c :: rest =>
    if c.isDigit && digitsTail rest then some (digitsVal (l.filter (fun x => x ≠ '_')))
    else Option.none

/-- Python `int(value)` on a stripped string: optional sign, then digits. -/
def parseIntPy (s : String) : Option Int :=
  match s.data with
  | '-' :: rest => (intDigits rest).map (fun n => -(n : Int))
  | '+' :: rest => (intDigits rest).map (fun n => (n : Int))
  | l => (intDigits l).map (fun n => (n : Int))

/-- `tags:` values are comma-split, but commas inside (possibly unbalanced)
parentheses are not split points; entries are stripped, empties dropped,
duplicates collapsed (Python builds a `set`). -/
def splitTagsAux (acc : List String) (cur : List Char) (depth : Int) :
    List Char → List String
  | [] =>
    let t := pyStrip ⟨cur.reverse⟩
    if t = "" then acc else addUniq acc t
  | c :: rest =>
    if c = '(' then splitTagsAux acc (c :: cur) (depth + 1) rest
    else if c = ')' then splitTagsAux acc (c :: cur) (depth - 1) rest
    else if c = ',' ∧ depth = 0 then
      let t := pyStrip ⟨cur.reverse⟩
      splitTagsAux (if t = "" then acc else addUniq acc t) [] depth rest
    else splitTagsAux acc (c :: cur) depth rest

def splitTags (value : String) : List String :=
  splitTagsAux [] [] 0 value.data

/-- The `current_rule` dict accumulated while parsing one `[Name]` block. -/
structure RuleData where
  name : String
  matchExpr : Option String := Option.none
  category : Option String := Option.none
  subcategory : Option String := Option.none
  merchant : Option String := Option.none
  transform : Option String := Option.none
  tags : Option (List String) := Option.none
  priority : Option Int := Option.none
  letBindings : List (String × String) := []
  fields : List (String × String) := []

/-- `_add_rule`: structural validation then construction of the rule record.
Expression validation (`expr_parser.parse_expression`) is abstracted by
`pOk`; the Python messages embed the underlying parser error text, which the
abstraction cannot reproduce, so messages here are the fixed prefixes. -/
def addRule (pOk : String → Bool) (rd : RuleData) (lineNumber : Nat) :
    Except MerchantParseError MerchantRule :=
  match rd.matchExpr with
  | Option.none =>
    Except.error ⟨"Rule '" ++ rd.name ++ "' missing 'match:' expression", lineNumber⟩
  | some me =>
    let hasCat := (rd.category.getD "") ≠ ""
    let hasTags := (rd.tags.getD []) ≠ []
    if ¬ hasCat ∧ ¬ hasTags then
      Except.error ⟨"Rule '" ++ rd.name ++ "' must have 'category:' or 'tags:'", lineNumber⟩
    else
      match rd.letBindings.find? (fun p => ¬ pOk p.2) with
      | some p =>
        Except.error ⟨"Invalid let expression '" ++ p.1 ++ "' in '" ++ rd.name ++ "'", lineNumber⟩
      | Option.none =>
        match rd.fields.find? (fun p => ¬ pOk p.2) with
        | some p =>
          Except.error ⟨"Invalid field expression '" ++ p.1 ++ "' in '" ++ rd.name ++ "'", lineNumber⟩
        | Option.none =>
          if ¬ pOk me then
            Except.error ⟨"Invalid match expression in '" ++ rd.name ++ "'", lineNumber⟩
          else
            Except.ok (MerchantRule.make rd.name me (rd.category.getD "")
              (rd.subcategory.getD "") (rd.merchant.getD "") (rd.tags.getD [])
              (rd.priority.getD 50) lineNumber rd.letBindings rd.fields
              (rd.transform.getD ""))

/-- Engine fields built up by `parse`. -/
structure EngAcc where
  rules : List MerchantRule := []
  fileVars : List (String × String) := []
  transforms : List (String × String) := []

/-- One `key: value` property line inside a rule block. -/
def applyProperty (key value : String) (rd : RuleData) (lineNum : Nat) (line : String) :
    Except MerchantParseError RuleData :=
  if key = "let" then
    match identAssignMatch value with
    | Option.none =>
      Except.error ⟨"Invalid let syntax. Expected: let: name = expression", lineNum⟩
    | some (n, e) => Except.ok { rd with letBindings := rd.letBindings ++ [(pyLower n, e)] }
  else if key = "field" then
    match identAssignMatch value with
    | Option.none =>
      Except.error ⟨"Invalid field syntax. Expected: field: name = expression", lineNum⟩
    | some (n, e) => Except.ok { rd with fields := setAssoc rd.fields (pyLower n) e }
  else if key = "match" then Except.ok { rd with matchExpr := some value }
  else if key = "category" then Except.ok { rd with category := some value }
  else if key = "subcategory" then Except.ok { rd with subcategory := some value }
  else if key = "merchant" then Except.ok { rd with merchant := some value }
  else if key = "transform" then Except.ok { rd with transform := some value }
  else if key = "tags" then Except.ok { rd with tags := some (splitTags value) }
  else if key = "priority" then
    match parseIntPy value with
    | some n => Except.ok { rd with priority := some n }
    | Option.none =>
      Except.error ⟨"Invalid priority value: " ++ value ++ " (must be integer)", lineNum⟩
  else Except.error ⟨"Unknown property: " ++ key, lineNum⟩

/-- The line-oriented state machine of `parse`, processing the remaining
lines; `cur` is the open rule block together with its header line number. -/
def runParse (pOk : String → Bool) :
    List String → Nat → Option (RuleData × Nat) → EngAcc →
    Except MerchantParseError EngAcc
  | [], _, cur, acc =>
    match cur with
    | Option.none => Except.ok acc
    | some (rd, startLine) => do
      let r ← addRule pOk rd startLine
      Except.ok { acc with rules := acc.rules ++ [r] }
  | line :: rest, lineNum, cur, acc => do
    let stripped := pyStrip line
    if stripped = "" ∨ strStarts stripped "#" then
      runParse pOk rest (lineNum + 1) cur acc
    else if strStarts stripped "[" ∧ strEnds stripped "]" then
      let acc ←
        match cur with
        | some (rd, startLine) => do
          let r ← addRule pOk rd startLine
          Except.ok { acc with rules := acc.rules ++ [r] }
        | Option.none => Except.ok acc
      let ruleName := pyStrip (innerSlice stripped)
      if ruleName = "" then
        Except.error ⟨"Empty rule name", lineNum⟩
      else
        runParse pOk rest (lineNum + 1) (some ({ name := ruleName }, lineNum)) acc
    else if hasChar stripped '=' ∧ cur.isNone then
      match topAssignMatch stripped with
      | some (lhs, rhs) =>
        if strStarts lhs "field." then
          runParse pOk rest (lineNum + 1) cur { acc with transforms := acc.transforms ++ [(lhs, rhs)] }
        else
          runParse pOk rest (lineNum + 1) cur { acc with fileVars := setAssoc acc.fileVars (pyLower lhs) rhs }
      | Option.none =>
        -- the regex failed: Python falls through; with no open rule both
        -- remaining branches are skipped and the line is ignored
        runParse pOk rest (lineNum + 1) cur acc
    else
      match cur with
      | some (rd, startLine) =>
        if hasChar stripped ':' then
          match splitFirst ':' stripped with
          | some (rawKey, rawValue) => do
            let key := pyLower (pyStrip rawKey)
            let value := pyStrip rawValue
            let rd' ← applyProperty key value rd lineNum line
            runParse pOk rest (lineNum + 1) (some (rd', startLine)) acc
          | Option.none => Except.error ⟨"Unexpected content in rule", lineNum⟩
        else
          Except.error ⟨"Unexpected content in rule", lineNum⟩
      | Option.none =>
        runParse pOk rest (lineNum + 1) cur acc

/-- `parse(content)`: split on newlines and run the state machine; on success
the engine holds the full rule list, file-level variables and transforms. -/
def parseRules (pOk : String → Bool) (content : String) :
    Except MerchantParseError EngAcc :=
  runParse pOk ((splitOnChar (Char.ofNat 10) content.data).map (fun l => (⟨l⟩ : String))) 1 Option.none {}

/-- `parse_merchants(content, match_mode)`. -/
def parseMerchants (pOk : String → Bool) (content : String) (mode : String) :
    Except MerchantParseError MerchantEngine :=
  (parseRules pOk content).map (fun acc =>
    { rules := acc.rules, fileVars := acc.fileVars,
      transforms := acc.transforms, matchMode := mode })

/-! ## Rule cache (`rule_cache.py`) -/

/-- `CachedRule`: rule metadata as stored in and read back from the
`rules` table (JSON round-trips of tags/let/fields are identities). -/
structure CachedRule where
  name : String
  matchExpr : String
  category : String
  subcategory : String
  merchant : String
  tags : List String
  priority : Int
  position : Nat
  sourceLine : Nat
  isComplex : Bool
  letBindings : List (String × String)
  fields : List (String × String)
deriving DecidableEq

/-- Stable ascending insert for `sorted(...)`. -/
def insertSorted (x : String) : List String → List String
  | [] => [x]
  | y :: ys => if strLeb y x then y :: insertSorted x ys else x :: y :: ys

/-- Python `sorted(...)` on strings (code-point lexicographic order; the
output of a correct sort is unique, so the algorithm is interchangeable). -/
def sortStrings (l : List String) : List String :=
  l.foldl (fun acc x => insertSorted x acc) []

/-- `_insert_rules` row for the rule at `position` (the row id is its
insertion position, as sqlite `lastrowid` increments from a cleared table). -/
def insertRuleRow (position : Nat) (r : MerchantRule) : CachedRule :=
  { name := r.name, matchExpr := r.matchExpr, category := r.category,
    subcategory := r.subcategory, merchant := r.merchant,
    tags := sortStrings r.tags, priority := r.priority, position := position,
    sourceLine := r.lineNumber,
    isComplex := ¬ (r.letBindings.isEmpty ∧ r.fields.isEmpty),
    letBindings := r.letBindings, fields := r.fields }

/-- `_row_to_rule` applied to a stored row: the `or`-defaults of the read
path (`merchant or name`, `int(priority or 50)` — note a stored priority of
`0` is falsy and reads back as `50`). -/
def rowToRule (row : CachedRule) : CachedRule :=
  { row with
    merchant := if row.merchant = "" then row.name else row.merchant,
    priority := if row.priority = 0 then 50 else row.priority }

/-- `rebuild`'s rules table for an engine. -/
def cacheRules (rules : List MerchantRule) : List CachedRule :=
  (List.range rules.length).zipWith insertRuleRow rules

/-- `get_rules()`: rows ordered by position, through `_row_to_rule`. -/
def getRules (db : List CachedRule) : List CachedRule := db.map rowToRule

/-- Python `sep.join(parts)` written recursively (equal to
`String.intercalate`, in a shape amenable to structural proofs). -/
def joinWith (sep : String) : List String → String
  | [] => ""
  | [l] => l
  | l :: rest => l ++ sep ++ joinWith sep rest

/-- `_store_preamble`: file-level variables then transform directives,
each rendered as `name = expr`. -/
def cachePreamble (eng : MerchantEngine) : List String :=
  eng.fileVars.map (fun p => p.1 ++ " = " ++ p.2) ++
    eng.transforms.map (fun p => p.1 ++ " = " ++ p.2)

/-- `_format_cached_rule`: the canonical text of one cached rule. -/
def formatCachedRule (rule : CachedRule) : String :=
  let lines := [("[" ++ rule.name ++ "]")]
  let lines := if rule.priority ≠ 50 then lines ++ ["priority: " ++ toString rule.priority] else lines
  let lines := lines ++ rule.letBindings.map (fun p => "let: " ++ p.1 ++ " = " ++ p.2)
  let lines := lines ++ ["match: " ++ rule.matchExpr]
  let lines := if rule.merchant ≠ "" ∧ rule.merchant ≠ rule.name
    then lines ++ ["merchant: " ++ rule.merchant] else lines
  let lines := if rule.category ≠ "" then lines ++ ["category: " ++ rule.category] else lines
  let lines := if rule.subcategory ≠ "" then lines ++ ["subcategory: " ++ rule.subcategory] else lines
  let lines := lines ++ rule.fields.map (fun p => "field: " ++ p.1 ++ " = " ++ p.2)
  let lines := if ¬ rule.tags.isEmpty
    then lines ++ ["tags: " ++ joinWith ", " (sortStrings rule.tags)] else lines
  joinWith "\n" lines

/-- `regenerate_rules_file`: preamble section then one section per rule,
joined by blank lines, right-stripped, with a final newline. -/
def regenerateRulesFile (eng : MerchantEngine) : String :=
  let pre := cachePreamble eng
  let sections := (if pre.isEmpty then [] else [joinWith "\n" pre]) ++
    (getRules (cacheRules eng.rules)).map formatCachedRule
  ⟨(joinWith "\n\n" sections).data.reverse.dropWhile isPyWS |>.reverse⟩ ++ "\n"

/-- First-row-wins dedup on a key, with the set of keys already taken:
`INSERT OR IGNORE` under a primary key. -/
def dedupAux (key : α → β) [DecidableEq β] (seen : List β) : List α → List α
  | [] => []
  | x :: rest =>
    if key x ∈ seen then dedupAux key seen rest
    else x :: dedupAux key (key x :: seen) rest

def dedupByKey (key : α → β) [DecidableEq β] (l : List α) : List α :=
  dedupAux key [] l

/-- `_insert_matches` rows before dedup: for each transaction in batch
order, one row per rule index in `all_matching_rules`, with its match type. -/
def matchRows (eng : MerchantEngine) (txns : List τ) (evf : τ → EvalFn)
    (txnId : τ → String) : List (Nat × String × String) :=
  txns.flatMap (fun t =>
    (engineMatch (evf t) eng).allMatchingRules.map (fun i =>
      (i, txnId t,
        if ((eng.rules.get? i).map MerchantRule.isCategorizationRule).getD false
        then "category" else "tag_only")))

/-- The `matches` table after `rebuild`: rows deduplicated on the primary
key `(rule_id, txn_id)`. -/
def matchesTable (eng : MerchantEngine) (txns : List τ) (evf : τ → EvalFn)
    (txnId : τ → String) : List (Nat × String × String) :=
  dedupByKey (fun r => (r.1, r.2.1)) (matchRows eng txns evf txnId)

/-- `get_match_counts()`: a dict from rule name to the count of match rows
for that rule's row id, built over rules in position order. -/
def getMatchCounts (rules : List CachedRule) (mrows : List (Nat × String × String)) :
    List (String × Nat) :=
  rules.foldl (fun acc r =>
    setAssoc acc r.name (mrows.filter (fun m => m.1 = r.position)).length) []

/-- `get_unused_rules()`: cached rules with no match rows, position order. -/
def getUnusedRules (rules : List CachedRule) (mrows : List (Nat × String × String)) :
    List CachedRule :=
  (rules.filter (fun r => mrows.all (fun m => m.1 ≠ r.position))).map rowToRule

/-! ## A concrete evaluator for scenario claims

Modelled from the spec: `expr_parser` is not under `src/`; §4.1 specifies
identifiers bound to transaction fields (`amount`, `month`, `year`, `day`)
and comparison operators `== != < <= > >=` over numbers. This small
evaluator covers exactly that fragment, enough to run the spec's scenarios. -/

structure TxnLite where
  amount : ℚ
  year : Nat
  month : Nat
  day : Nat

def tokenizeSimple (s : String) : List String :=
  ((splitOnChar ' ' s.data).map (fun l => (⟨l⟩ : String))).filter (fun t => t ≠ "")

def atomIsNum (t : String) : Bool := t.data ≠ [] ∧ t.data.all Char.isDigit

/-- Modelled from the spec: resolve an atom (field identifier or integer
literal) against the transaction. -/
def atomVal (txn : TxnLite) (t : String) : Option Value :=
  if t = "amount" then some (Value.num txn.amount)
  else if t = "month" then some (Value.num txn.month)
  else if t = "year" then some (Value.num txn.year)
  else if t = "day" then some (Value.num txn.day)
  else if atomIsNum t then some (Value.num (digitsVal t.data))
  else Option.none

def cmpOpApply (op : String) (x y : ℚ) : Option Value :=
  if op = "==" then some (Value.bool (x = y))
  else if op = "!=" then some (Value.bool (x ≠ y))
  else if op = "<" then some (Value.bool (x < y))
  else if op = "<=" then some (Value.bool (x ≤ y))
  else if op = ">" then some (Value.bool (x > y))
  else if op = ">=" then some (Value.bool (x ≥ y))
  else Option.none

/-- Modelled from the spec: evaluate `atom`, or `atom op atom` comparisons,
raising (`none`) on anything else. -/
def miniEval (txn : TxnLite) : EvalFn := fun expr _ =>
  match tokenizeSimple expr with
  | [a] => atomVal txn a
  | [a, op, b] =>
    match atomVal txn a, atomVal txn b with
    | some (Value.num x), some (Value.num y) => cmpOpApply op x y
    | _, _ => Option.none
  | _ => Option.none

/-- Modelled from the spec: load-time validation for the fragment above. -/
def miniParseOk (e : String) : Bool :=
  match tokenizeSimple e with
  | [a] => a ∈ ["amount", "month", "year", "day"] ∨ atomIsNum a
  | [a, op, b] =>
    (a ∈ ["amount", "month", "year", "day"] ∨ atomIsNum a) ∧
      (b ∈ ["amount", "month", "year", "day"] ∨ atomIsNum b) ∧
      op ∈ ["==", "!=", "<", "<=", ">", ">="]
  | _ => false

/-! ## Lemmas: the rule-evaluation loop -/

theorem mea_cons_pos {ev : EvalFn} {g : Scope} {r : MerchantRule} {rs : List MerchantRule}
    {n : Nat} (h : ruleMatchQ ev g r = some true) :
    matchingEntriesAux ev g n (r :: rs) =
      (n, r, ruleScope ev g r) :: matchingEntriesAux ev g (n + 1) rs := by
  simp [matchingEntriesAux, h]

theorem mea_cons_neg {ev : EvalFn} {g : Scope} {r : MerchantRule} {rs : List MerchantRule}
    {n : Nat} (h : ruleMatchQ ev g r ≠ some true) :
    matchingEntriesAux ev g n (r :: rs) = matchingEntriesAux ev g (n + 1) rs := by
  rcases hm : ruleMatchQ ev g r with _ | b
  · simp [matchingEntriesAux, hm]
  · cases b
    · simp [matchingEntriesAux, hm]
    · exact absurd hm h

theorem mem_mea {ev : EvalFn} {g : Scope} :
    ∀ {rules : List MerchantRule} {n : Nat} {e : Nat × MerchantRule × Scope},
    e ∈ matchingEntriesAux ev g n rules ↔
      ∃ j r, rules[j]? = some r ∧ ruleMatchQ ev g r = some true ∧
        e = (n + j, r, ruleScope ev g r) := by
  intro rules
  induction rules with
  | nil =>
    intro n e
    simp [matchingEntriesAux]
  | cons r rs ih =>
    intro n e
    by_cases h : ruleMatchQ ev g r = some true
    · rw [mea_cons_pos h]
      constructor
      · intro hm
        rcases List.mem_cons.mp hm with he | he
        · exact ⟨0, r, by simp, h, by simpa using he⟩
        · obtain ⟨j, r', hget, hq, heq⟩ := ih.mp he
          exact ⟨j + 1, r', by simpa using hget, hq, by simpa [Nat.add_assoc, Nat.add_comm 1 j] using heq⟩
      · rintro ⟨j, r', hget, hq, heq⟩
        cases j with
        | zero =>
          simp at hget
          subst hget
          simp [heq]
        | succ j =>
          simp at hget
          refine List.mem_cons.mpr (Or.inr (ih.mpr ⟨j, r', hget, hq, ?_⟩))
          simpa [Nat.add_assoc, Nat.add_comm 1 j] using heq
    · rw [mea_cons_neg h]
      constructor
      · intro hm
        obtain ⟨j, r', hget, hq, heq⟩ := ih.mp hm
        exact ⟨j + 1, r', by simpa using hget, hq, by simpa [Nat.add_assoc, Nat.add_comm 1 j] using heq⟩
      · rintro ⟨j, r', hget, hq, heq⟩
        cases j with
        | zero =>
          simp at hget
          subst hget
          exact absurd hq h
        | succ j =>
          simp at hget
          refine ih.mpr ⟨j, r', hget, hq, ?_⟩
          simpa [Nat.add_assoc, Nat.add_comm 1 j] using heq

theorem find_mea_none {ev : EvalFn} {g : Scope} {p : MerchantRule → Bool} :
    ∀ {rules : List MerchantRule} {n : Nat},
    (matchingEntriesAux ev g n rules).find? (fun e => p e.2.1) = Option.none ↔
      ∀ r ∈ rules, ¬ (ruleMatchQ ev g r = some true ∧ p r = true) := by
  intro rules
  induction rules with
  | nil => intro n; simp [matchingEntriesAux]
  | cons r rs ih =>
    intro n
    by_cases h : ruleMatchQ ev g r = some true
    · rw [mea_cons_pos h]
      by_cases hp : p r = true
      · simp [List.find?_cons, hp, h]
      · rw [List.find?_cons_of_neg _ (by simpa using hp)]
        rw [ih]
        constructor
        · intro hall r' hr'
          rcases List.mem_cons.mp hr' with rfl | hmem
          · exact fun hc => hp hc.2
          · exact hall r' hmem
        · intro hall r' hr'
          exact hall r' (List.mem_cons_of_mem _ hr')
    · rw [mea_cons_neg h]
      rw [ih]
      constructor
      · intro hall r' hr'
        rcases List.mem_cons.mp hr' with rfl | hmem
        · exact fun hc => h hc.1
        · exact hall r' hmem
      · intro hall r' hr'
        exact hall r' (List.mem_cons_of_mem _ hr')

theorem find_mea_some {ev : EvalFn} {g : Scope} {p : MerchantRule → Bool} :
    ∀ {rules : List MerchantRule} {n : Nat} {e : Nat × MerchantRule × Scope},
    (matchingEntriesAux ev g n rules).find? (fun e => p e.2.1) = some e →
      ∃ j, e = (n + j, e.2.1, e.2.2) ∧ rules[j]? = some e.2.1 ∧
        e.2.2 = ruleScope ev g e.2.1 ∧
        ruleMatchQ ev g e.2.1 = some true ∧ p e.2.1 = true ∧
        ∀ k r', k < j → rules[k]? = some r' →
          ruleMatchQ ev g r' = some true → p r' = false := by
  intro rules
  induction rules with
  | nil => intro n e h; simp [matchingEntriesAux] at h
  | cons r rs ih =>
    intro n e h
    by_cases hm : ruleMatchQ ev g r = some true
    · rw [mea_cons_pos hm] at h
      by_cases hp : p r = true
      · rw [List.find?_cons_of_pos _ (by simpa using hp)] at h
        injection h with h
        refine ⟨0, ?_, ?_, ?_, ?_, ?_, ?_⟩
        · simp [← h]
        · simp [← h]
        · simp [← h]
        · simp [← h, hm]
        · simp [← h, hp]
        · intro k r' hk
          omega
      · rw [List.find?_cons_of_neg _ (by simpa using hp)] at h
        obtain ⟨j, h1, h2, h3, h4, h5, h6⟩ := ih h
        refine ⟨j + 1, by simpa [Nat.add_assoc, Nat.add_comm 1 j] using h1, by simpa using h2, h3, h4, h5, ?_⟩
        intro k r' hk hget hq
        cases k with
        | zero =>
          simp at hget
          subst hget
          simpa using hp
        | succ k =>
          simp at hget
          exact h6 k r' (by omega) hget hq
    · rw [mea_cons_neg hm] at h
      obtain ⟨j, h1, h2, h3, h4, h5, h6⟩ := ih h
      refine ⟨j + 1, by simpa [Nat.add_assoc, Nat.add_comm 1 j] using h1, by simpa using h2, h3, h4, h5, ?_⟩
      intro k r' hk hget hq
      cases k with
      | zero =>
        simp at hget
        subst hget
        exact absurd hq hm
      | succ k =>
        simp at hget
        exact h6 k r' (by omega) hget hq

theorem find_mea_isSome {ev : EvalFn} {g : Scope} {p : MerchantRule → Bool}
    {rules : List MerchantRule} {n : Nat}
    (h : ∃ r ∈ rules, ruleMatchQ ev g r = some true ∧ p r = true) :
    ((matchingEntriesAux ev g n rules).find? (fun e => p e.2.1)).isSome := by
  rcases hf : (matchingEntriesAux ev g n rules).find? (fun e => p e.2.1) with _ | e
  · obtain ⟨r, hr, hq, hp⟩ := h
    exact absurd ⟨hq, hp⟩ (find_mea_none.mp hf r hr)
  · rw [hf]
    rfl

/-- The index-free part of a matching entry. -/
def entPair (e : Nat × MerchantRule × Scope) : MerchantRule × Scope := (e.2.1, e.2.2)

/-- The matching subsequence of a rule list: the rules whose match
expression evaluates truthy, in file order, with their resolved scopes. -/
def matchSeq (ev : EvalFn) (g : Scope) (rules : List MerchantRule) :
    List (MerchantRule × Scope) :=
  rules.filterMap (fun r =>
    if ruleMatchQ ev g r = some true then some (r, ruleScope ev g r) else Option.none)

theorem mea_map_pair {ev : EvalFn} {g : Scope} :
    ∀ {rules : List MerchantRule} {n : Nat},
    (matchingEntriesAux ev g n rules).map entPair = matchSeq ev g rules := by
  intro rules
  induction rules with
  | nil => intro n; simp [matchingEntriesAux, matchSeq]
  | cons r rs ih =>
    intro n
    by_cases h : ruleMatchQ ev g r = some true
    · rw [mea_cons_pos h]
      simp [matchSeq, h, List.filterMap_cons, entPair]
      exact ih
    · rw [mea_cons_neg h]
      simp [matchSeq, List.filterMap_cons, h]
      exact ih

theorem find_mea_pair {ev : EvalFn} {g : Scope} {p : MerchantRule → Bool}
    {rules : List MerchantRule} {n : Nat} :
    ((matchingEntriesAux ev g n rules).find? (fun e => p e.2.1)).map entPair =
      (matchSeq ev g rules).find? (fun x => p x.1) := by
  rw [← mea_map_pair (n := n), List.find?_map]
  rfl

/-! Projections of the tag-accumulation state that ignore rule indices. -/

abbrev TagAcc : Type := List String × List (String × String × String)

def addResolvedP (st : TagAcc) (resolved : List String) (rname rexpr : String) : TagAcc :=
  resolved.foldl (fun s t =>
    if t ∈ s.1 then s else (s.1 ++ [t], s.2 ++ [(t, rname, rexpr)])) st

def tagPassP (ev : EvalFn) (l : List (MerchantRule × Scope)) : TagAcc :=
  l.foldl (fun st e =>
    if e.1.isCategorizationRule then st
    else addResolvedP st (resolveTags ev e.1 e.2) e.1.name e.1.matchExpr) ([], [])

theorem addResolved_proj {rname rexpr : String} :
    ∀ (resolved : List String) (st : TagState),
    ((addResolved st resolved rname rexpr).tags, (addResolved st resolved rname rexpr).sources) =
      addResolvedP (st.tags, st.sources) resolved rname rexpr := by
  intro resolved
  induction resolved with
  | nil => intro st; rfl
  | cons t ts ih =>
    intro st
    have hstep : addResolved st (t :: ts) rname rexpr =
        addResolved (if t ∈ st.tags then st else { st with tags := st.tags ++ [t], sources := st.sources ++ [(t, rname, rexpr)] }) ts rname rexpr := rfl
    have hstepP : addResolvedP (st.tags, st.sources) (t :: ts) rname rexpr =
        addResolvedP (if t ∈ st.tags then (st.tags, st.sources)
          else (st.tags ++ [t], st.sources ++ [(t, rname, rexpr)])) ts rname rexpr := rfl
    rw [hstep, hstepP]
    by_cases h : t ∈ st.tags
    · rw [if_pos h, if_pos h, ih]
    · rw [if_neg h, if_neg h, ih]

theorem tagPass_proj (ev : EvalFn) :
    ∀ (ms : List (Nat × MerchantRule × Scope)) (st : TagState),
    (((ms.foldl (fun st e =>
        if e.2.1.isCategorizationRule then st
        else
          let st' := addResolved st (resolveTags ev e.2.1 e.2.2) e.2.1.name e.2.1.matchExpr
          { st' with tagRules := st'.tagRules ++ [e.1] }) st)).tags,
     ((ms.foldl (fun st e =>
        if e.2.1.isCategorizationRule then st
        else
          let st' := addResolved st (resolveTags ev e.2.1 e.2.2) e.2.1.name e.2.1.matchExpr
          { st' with tagRules := st'.tagRules ++ [e.1] }) st)).sources) =
      (ms.map entPair).foldl (fun st e =>
        if e.1.isCategorizationRule then st
        else addResolvedP st (resolveTags ev e.1 e.2) e.1.name e.1.matchExpr)
        (st.tags, st.sources) := by
  intro ms
  induction ms with
  | nil => intro st; rfl
  | cons e es ih =>
    intro st
    by_cases h : e.2.1.isCategorizationRule
    · simp only [List.foldl_cons, List.map_cons, entPair, h, ite_true]
      exact ih st
    · simp only [List.foldl_cons, List.map_cons, entPair, h, Bool.false_eq_true, ite_false]
      rw [ih, ← addResolved_proj (resolveTags ev e.2.1 e.2.2) st]

theorem tagPass_eq_tagPassP {ev : EvalFn} (ms : List (Nat × MerchantRule × Scope)) :
    ((tagPass ev ms).tags, (tagPass ev ms).sources) = tagPassP ev (ms.map entPair) := by
  have := tagPass_proj ev ms {}
  simpa [tagPass, tagPassP] using this

/-! Field lemmas for `applyCategoryWinner`. -/

theorem acw_matched (ev : EvalFn) (st : TagState) (i : Nat) (r : MerchantRule)
    (sc : Scope) (res : MatchResult) :
    (applyCategoryWinner ev st i r sc res).matched = true := by
  simp only [applyCategoryWinner]
  split_ifs <;> rfl

theorem acw_category (ev : EvalFn) (st : TagState) (i : Nat) (r : MerchantRule)
    (sc : Scope) (res : MatchResult) :
    (applyCategoryWinner ev st i r sc res).category = r.category := by
  simp only [applyCategoryWinner]
  split_ifs <;> rfl

theorem acw_matchedIdx (ev : EvalFn) (st : TagState) (i : Nat) (r : MerchantRule)
    (sc : Scope) (res : MatchResult) :
    (applyCategoryWinner ev st i r sc res).matchedRuleIdx = some i := by
  simp only [applyCategoryWinner]
  split_ifs <;> rfl

theorem acw_merchant (ev : EvalFn) (st : TagState) (i : Nat) (r : MerchantRule)
    (sc : Scope) (res : MatchResult) :
    (applyCategoryWinner ev st i r sc res).merchant = res.merchant := by
  simp only [applyCategoryWinner]
  split_ifs <;> rfl

theorem acw_merchantIdx (ev : EvalFn) (st : TagState) (i : Nat) (r : MerchantRule)
    (sc : Scope) (res : MatchResult) :
    (applyCategoryWinner ev st i r sc res).merchantRuleIdx = res.merchantRuleIdx := by
  simp only [applyCategoryWinner]
  split_ifs <;> rfl

theorem acw_subcategory (ev : EvalFn) (st : TagState) (i : Nat) (r : MerchantRule)
    (sc : Scope) (res : MatchResult) :
    (applyCategoryWinner ev st i r sc res).subcategory = res.subcategory := by
  simp only [applyCategoryWinner]
  split_ifs <;> rfl

theorem acw_subcategoryIdx (ev : EvalFn) (st : TagState) (i : Nat) (r : MerchantRule)
    (sc : Scope) (res : MatchResult) :
    (applyCategoryWinner ev st i r sc res).subcategoryRuleIdx = res.subcategoryRuleIdx := by
  simp only [applyCategoryWinner]
  split_ifs <;> rfl

theorem acw_tags (ev : EvalFn) (st : TagState) (i : Nat) (r : MerchantRule)
    (sc : Scope) (res : MatchResult) :
    (applyCategoryWinner ev st i r sc res).tags =
      (if ¬ r.tags.isEmpty then
        addResolved st (resolveTags ev r sc) r.name r.matchExpr
       else st).tags := by
  simp only [applyCategoryWinner]

theorem acw_sources (ev : EvalFn) (st : TagState) (i : Nat) (r : MerchantRule)
    (sc : Scope) (res : MatchResult) :
    (applyCategoryWinner ev st i r sc res).tagSources =
      (if ¬ r.tags.isEmpty then
        addResolved st (resolveTags ev r sc) r.name r.matchExpr
       else st).sources := by
  simp only [applyCategoryWinner]

theorem acw_extraFields (ev : EvalFn) (st : TagState) (i : Nat) (r : MerchantRule)
    (sc : Scope) (res : MatchResult) :
    (applyCategoryWinner ev st i r sc res).extraFields =
      (if ¬ r.fields.isEmpty then evalFields ev r sc else res.extraFields) := by
  simp only [applyCategoryWinner]
  split_ifs <;> rfl

theorem acw_transformDesc (ev : EvalFn) (st : TagState) (i : Nat) (r : MerchantRule)
    (sc : Scope) (res : MatchResult) :
    (applyCategoryWinner ev st i r sc res).transformDescription =
      (if r.transform ≠ "" then evalTransform ev r sc else res.transformDescription) := by
  simp only [applyCategoryWinner]
  split_ifs <;> rfl

/-! ## Claim C1: `first_match` winner semantics -/

/-- The global scope an engine evaluates a transaction under. -/
def engineGlobals (ev : EvalFn) (eng : MerchantEngine) : Scope :=
  evalGlobals ev eng.fileVars

/-- The matching entries of an engine for a transaction. -/
def engineEntries (ev : EvalFn) (eng : MerchantEngine) : List (Nat × MerchantRule × Scope) :=
  matchingEntries ev (engineGlobals ev eng) eng.rules

/-- The result record before mode-specific resolution. -/
def engineBase (ev : EvalFn) (eng : MerchantEngine) : MatchResult :=
  { allMatchingRules := (engineEntries ev eng).map (fun e => e.1),
    tagRules := (tagPass ev (engineEntries ev eng)).tagRules,
    tags := (tagPass ev (engineEntries ev eng)).tags,
    tagSources := (tagPass ev (engineEntries ev eng)).sources }

theorem engineMatch_first (ev : EvalFn) (eng : MerchantEngine)
    (hmode : eng.matchMode = "first_match") :
    engineMatch ev eng =
      firstMatchResolve ev (engineEntries ev eng) (tagPass ev (engineEntries ev eng))
        (engineBase ev eng) := by
  simp only [engineMatch, hmode, if_pos, engineEntries, engineBase, engineGlobals, ite_true]

theorem engineMatch_most (ev : EvalFn) (eng : MerchantEngine)
    (hmode : eng.matchMode ≠ "first_match") :
    engineMatch ev eng =
      mostSpecificResolve ev (engineEntries ev eng) (tagPass ev (engineEntries ev eng))
        (engineBase ev eng) := by
  simp only [engineMatch, hmode, engineEntries, engineBase, engineGlobals, ite_false]

theorem fmr_none (ev : EvalFn) (ms : List (Nat × MerchantRule × Scope))
    (st : TagState) (base : MatchResult)
    (hf : ms.find? (fun e => e.2.1.isCategorizationRule) = Option.none) :
    firstMatchResolve ev ms st base = base := by
  simp [firstMatchResolve, hf]

theorem fmr_some (ev : EvalFn) (ms : List (Nat × MerchantRule × Scope))
    (st : TagState) (base : MatchResult) {i : Nat} {r : MerchantRule} {sc : Scope}
    (hf : ms.find? (fun e => e.2.1.isCategorizationRule) = some (i, r, sc)) :
    (firstMatchResolve ev ms st base).matched = true ∧
    (firstMatchResolve ev ms st base).category = r.category ∧
    (firstMatchResolve ev ms st base).matchedRuleIdx = some i ∧
    (firstMatchResolve ev ms st base).merchant = r.merchant ∧
    (firstMatchResolve ev ms st base).merchantRuleIdx = some i ∧
    (firstMatchResolve ev ms st base).subcategory =
      (if r.subcategory ≠ "" then r.subcategory else base.subcategory) ∧
    (firstMatchResolve ev ms st base).subcategoryRuleIdx =
      (if r.subcategory ≠ "" then some i else base.subcategoryRuleIdx) := by
  simp only [firstMatchResolve, hf]
  refine ⟨acw_matched _ _ _ _ _ _, acw_category _ _ _ _ _ _, acw_matchedIdx _ _ _ _ _ _,
    ?_, ?_, ?_, ?_⟩
  · rw [acw_merchant]
    split_ifs <;> rfl
  · rw [acw_merchantIdx]
    split_ifs <;> rfl
  · rw [acw_subcategory]
    split_ifs <;> rfl
  · rw [acw_subcategoryIdx]
    split_ifs <;> rfl

/-- C1. In `first_match` mode, the winning rule is exactly the first
file-order rule whose match expression evaluates truthy and that declares a
category; it sets category, merchant, `matched_rule` and subcategory
(subcategory stays empty when the winner declares none); no other matching
category rule influences these fields, and replacing the rule list by any
list with the same matching subsequence (reordering or removing
non-matching rules) leaves the outcome unchanged. -/
theorem first_match_winner_semantics (ev : EvalFn) (eng : MerchantEngine)
    (hmode : eng.matchMode = "first_match") :
    (∀ i, (engineMatch ev eng).matchedRuleIdx = some i →
      ∃ r, eng.rules[i]? = some r ∧
        ruleMatchQ ev (engineGlobals ev eng) r = some true ∧
        r.category ≠ "" ∧
        (engineMatch ev eng).matched = true ∧
        (engineMatch ev eng).category = r.category ∧
        (engineMatch ev eng).merchant = r.merchant ∧
        (engineMatch ev eng).subcategory = r.subcategory ∧
        (engineMatch ev eng).merchantRuleIdx = some i ∧
        (engineMatch ev eng).subcategoryRuleIdx =
          (if r.subcategory = "" then Option.none else some i) ∧
        (∀ j r', j < i → eng.rules[j]? = some r' →
          ruleMatchQ ev (engineGlobals ev eng) r' = some true → r'.category = "")) ∧
    ((∃ r ∈ eng.rules, ruleMatchQ ev (engineGlobals ev eng) r = some true ∧ r.category ≠ "") →
      (engineMatch ev eng).matchedRuleIdx.isSome) ∧
    ((engineMatch ev eng).matchedRuleIdx = Option.none →
      (engineMatch ev eng).matched = false) ∧
    (∀ rules₂,
      matchSeq ev (engineGlobals ev eng) eng.rules =
        matchSeq ev (engineGlobals ev eng) rules₂ →
      (engineMatch ev eng).matched = (engineMatch ev { eng with rules := rules₂ }).matched ∧
      (engineMatch ev eng).category = (engineMatch ev { eng with rules := rules₂ }).category ∧
      (engineMatch ev eng).merchant = (engineMatch ev { eng with rules := rules₂ }).merchant ∧
      (engineMatch ev eng).subcategory = (engineMatch ev { eng with rules := rules₂ }).subcategory ∧
      ((engineMatch ev eng).matchedRuleIdx.bind (fun i => eng.rules[i]?)) =
        ((engineMatch ev { eng with rules := rules₂ }).matchedRuleIdx.bind (fun i => rules₂[i]?))) := by
  rw [engineMatch_first ev eng hmode]
  refine ⟨?_, ?_, ?_, ?_⟩
  · intro i hidx
    rcases hf : (engineEntries ev eng).find? (fun e => e.2.1.isCategorizationRule) with _ | e
    · rw [fmr_none ev _ (tagPass ev (engineEntries ev eng)) (engineBase ev eng) hf] at hidx
      simp [engineBase] at hidx
    · obtain ⟨i', r, sc⟩ := e
      obtain ⟨hm, hc, hmi, hmer, hmeri, hsub, hsubi⟩ := fmr_some ev _ (tagPass ev (engineEntries ev eng)) (engineBase ev eng) hf
      have hii : i = i' := by
        rw [hmi] at hidx
        injection hidx with h
        exact h.symm
      subst hii
      obtain ⟨j, he, hget, hsc, hq, hp, hfirst⟩ := find_mea_some hf
      have hij : i = j := by
        have := congrArg Prod.fst he
        simpa using this
      refine ⟨r, ?_, ?_, ?_, hm, hc, hmer, ?_, hmeri, ?_, ?_⟩
      · rw [hij]; simpa using hget
      · simpa using hq
      · simpa [MerchantRule.isCategorizationRule] using hp
      · rw [hsub]
        by_cases hs : r.subcategory = "" <;> simp [hs, engineBase]
      · rw [hsubi]
        by_cases hs : r.subcategory = "" <;> simp [hs, engineBase]
      · intro k r' hk hgetk hqk
        have := hfirst k r' (by omega) hgetk hqk
        simpa [MerchantRule.isCategorizationRule] using this
  · intro hex
    have hs := find_mea_isSome (n := 0)
      (p := fun r => r.isCategorizationRule) (g := engineGlobals ev eng)
      (by
        obtain ⟨r, hr, hq, hc⟩ := hex
        exact ⟨r, hr, hq, by simpa [MerchantRule.isCategorizationRule] using hc⟩)
    rcases hf : (engineEntries ev eng).find? (fun e => e.2.1.isCategorizationRule) with _ | e
    · rw [show (engineEntries ev eng) = matchingEntriesAux ev (engineGlobals ev eng) 0 eng.rules
        from rfl] at hf
      rw [hf] at hs
      simp at hs
    · obtain ⟨i', r, sc⟩ := e
      obtain ⟨_, _, hmi, _⟩ := fmr_some ev _ (tagPass ev (engineEntries ev eng)) (engineBase ev eng) hf
      rw [hmi]
      rfl
  · intro hnone
    rcases hf : (engineEntries ev eng).find? (fun e => e.2.1.isCategorizationRule) with _ | e
    · rw [fmr_none ev _ (tagPass ev (engineEntries ev eng)) (engineBase ev eng) hf]
      rfl
    · obtain ⟨i', r, sc⟩ := e
      obtain ⟨_, _, hmi, _⟩ := fmr_some ev _ (tagPass ev (engineEntries ev eng)) (engineBase ev eng) hf
      rw [hmi] at hnone
      simp at hnone
  · intro rules₂ hseq
    have hmode₂ : ({ eng with rules := rules₂ } : MerchantEngine).matchMode = "first_match" := hmode
    rw [engineMatch_first ev _ hmode₂]
    have hglob : engineGlobals ev { eng with rules := rules₂ } = engineGlobals ev eng := rfl
    have hpair : ((engineEntries ev eng).find? (fun e => e.2.1.isCategorizationRule)).map entPair =
        ((engineEntries ev { eng with rules := rules₂ }).find? (fun e => e.2.1.isCategorizationRule)).map entPair := by
      rw [show (engineEntries ev eng) = matchingEntriesAux ev (engineGlobals ev eng) 0 eng.rules from rfl]
      rw [show (engineEntries ev { eng with rules := rules₂ }) =
        matchingEntriesAux ev (engineGlobals ev eng) 0 rules₂ from rfl]
      rw [find_mea_pair, find_mea_pair, hseq]
    rcases hf1 : (engineEntries ev eng).find? (fun e => e.2.1.isCategorizationRule) with _ | e1 <;>
      rcases hf2 : (engineEntries ev { eng with rules := rules₂ }).find? (fun e => e.2.1.isCategorizationRule) with _ | e2
    · rw [fmr_none ev _ (tagPass ev (engineEntries ev eng)) (engineBase ev eng) hf1,
        fmr_none ev _ (tagPass ev (engineEntries ev { eng with rules := rules₂ })) (engineBase ev { eng with rules := rules₂ }) hf2]
      exact ⟨rfl, rfl, rfl, rfl, rfl⟩
    · rw [hf1, hf2] at hpair
      simp at hpair
    · rw [hf1, hf2] at hpair
      simp at hpair
    · rw [hf1, hf2] at hpair
      simp only [Option.map_some'] at hpair
      injection hpair with hpair
      obtain ⟨i1, r1, sc1⟩ := e1
      obtain ⟨i2, r2, sc2⟩ := e2
      have hr12 : r1 = r2 ∧ sc1 = sc2 := by
        have h1 := congrArg Prod.fst hpair
        have h2 := congrArg Prod.snd hpair
        exact ⟨by simpa [entPair] using h1, by simpa [entPair] using h2⟩
      obtain ⟨hr, hsc⟩ := hr12
      subst hr
      subst hsc
      obtain ⟨hm1, hc1, hmi1, hmer1, hmeri1, hsub1, hsubi1⟩ :=
        fmr_some ev _ (tagPass ev (engineEntries ev eng)) (engineBase ev eng) hf1
      obtain ⟨hm2, hc2, hmi2, hmer2, hmeri2, hsub2, hsubi2⟩ :=
        fmr_some ev _ (tagPass ev (engineEntries ev { eng with rules := rules₂ })) (engineBase ev { eng with rules := rules₂ }) hf2
      obtain ⟨j1, he1, hget1, _⟩ := find_mea_some hf1
      obtain ⟨j2, he2, hget2, _⟩ := find_mea_some hf2
      have hij1 : i1 = j1 := by simpa using congrArg Prod.fst he1
      have hij2 : i2 = j2 := by simpa using congrArg Prod.fst he2
      refine ⟨by rw [hm1, hm2], by rw [hc1, hc2], by rw [hmer1, hmer2], ?_, ?_⟩
      · rw [hsub1, hsub2]
        split_ifs <;> rfl
      · rw [hmi1, hmi2]
        simp only [Option.some_bind]
        rw [hij1, hij2]
        rw [show eng.rules[j1]? = some r1 by simpa using hget1]
        rw [show rules₂[j2]? = some r1 by simpa using hget2]

/-! ## Claim C2: specificity and `most_specific` winner semantics -/

theorem specGt_irrefl (x : Spec) : specGt x x = false := by
  obtain ⟨a, b, c, d⟩ := x
  simp [specGt]

theorem specGt_trans {a b c : Spec} (h1 : specGt a b = true) (h2 : specGt b c = true) :
    specGt a c = true := by
  obtain ⟨a1, a2, a3, a4⟩ := a
  obtain ⟨b1, b2, b3, b4⟩ := b
  obtain ⟨c1, c2, c3, c4⟩ := c
  simp only [specGt, decide_eq_true_eq] at h1 h2 ⊢
  omega

theorem specGt_ge_trans {a b c : Spec} (h1 : specGt b c = true) (h2 : specGt b a = false) :
    specGt a c = true := by
  obtain ⟨a1, a2, a3, a4⟩ := a
  obtain ⟨b1, b2, b3, b4⟩ := b
  obtain ⟨c1, c2, c3, c4⟩ := c
  simp only [specGt, decide_eq_true_eq, decide_eq_false_iff_not] at h1 h2 ⊢
  omega

theorem specGt_gt_nge {a b c : Spec} (h1 : specGt a b = true) (h2 : specGt c b = false) :
    specGt a c = true := by
  obtain ⟨a1, a2, a3, a4⟩ := a
  obtain ⟨b1, b2, b3, b4⟩ := b
  obtain ⟨c1, c2, c3, c4⟩ := c
  simp only [specGt, decide_eq_true_eq, decide_eq_false_iff_not] at h1 h2 ⊢
  omega

theorem specGt_antisymm {a b : Spec} (h1 : specGt a b = false) (h2 : specGt b a = false) :
    a = b := by
  obtain ⟨a1, a2, a3, a4⟩ := a
  obtain ⟨b1, b2, b3, b4⟩ := b
  simp only [specGt, decide_eq_false_iff_not] at h1 h2
  simp only [Prod.mk.injEq]
  omega

/-- Python `max(key=...)` characterization: the result is a member, no
member has a strictly greater key, and every member strictly before it has
a strictly smaller key (first occurrence of the maximum wins). -/
theorem maxByFirst_spec {f : α → Spec} :
    ∀ {l : List α} {w : α}, maxByFirst f l = some w →
      w ∈ l ∧ (∀ y ∈ l, specGt (f y) (f w) = false) ∧
      ∃ k : Nat, l[k]? = some w ∧
        ∀ (m : Nat) (y : α), m < k → l[m]? = some y → specGt (f w) (f y) = true := by
  intro l
  match l with
  | [] => intro w h; simp [maxByFirst] at h
  | x :: rest =>
    induction rest generalizing x with
    | nil =>
      intro w h
      simp only [maxByFirst, List.foldl_nil, Option.some.injEq] at h
      subst h
      refine ⟨List.mem_singleton.mpr rfl, ?_, 0, rfl, ?_⟩
      · intro y hy
        rw [List.mem_singleton.mp hy]
        exact specGt_irrefl _
      · intro m y hm
        omega
    | cons y ys ih =>
      intro w h
      simp only [maxByFirst, List.foldl_cons, Option.some.injEq] at h
      by_cases hxy : specGt (f y) (f x) = true
      · have h' : maxByFirst f (y :: ys) = some w := by
          simp only [maxByFirst, Option.some.injEq]
          rw [← h]
          congr 1
          simp [hxy]
        obtain ⟨hmem, hbound, k', hk', hfirst⟩ := ih y h'
        have hyw : specGt (f y) (f w) = false := hbound y (List.mem_cons_self _ _)
        refine ⟨?_, ?_, k' + 1, by simpa using hk', ?_⟩
        · rcases List.mem_cons.mp hmem with rfl | hm
          · exact List.mem_cons_of_mem _ (List.mem_cons_self _ _)
          · exact List.mem_cons_of_mem _ (List.mem_cons_of_mem _ hm)
        · intro z hz
          rcases List.mem_cons.mp hz with rfl | hz'
          · rcases hzw : specGt (f z) (f w) with _ | _
            · rfl
            · exact absurd (specGt_trans hxy hzw) (by simp [hyw])
          · exact hbound z hz'
        · intro m z hm hget
          cases m with
          | zero =>
            simp only [List.getElem?_cons_zero, Option.some.injEq] at hget
            subst hget
            exact specGt_ge_trans hxy hyw
          | succ m =>
            simp only [List.getElem?_cons_succ] at hget
            exact hfirst m z (by omega) hget
      · have h' : maxByFirst f (x :: ys) = some w := by
          simp only [maxByFirst, Option.some.injEq]
          rw [← h]
          congr 1
          simp [hxy]
        obtain ⟨hmem, hbound, k', hk', hfirst⟩ := ih x h'
        have hxw : specGt (f x) (f w) = false := hbound x (List.mem_cons_self _ _)
        have hyb : specGt (f y) (f w) = false := by
          rcases hyw : specGt (f y) (f w) with _ | _
          · rfl
          · exact absurd (specGt_ge_trans hyw (by simpa using hxy)) (by simp [hxw])
        refine ⟨?_, ?_, ?_⟩
        · rcases List.mem_cons.mp hmem with rfl | hm
          · exact List.mem_cons_self _ _
          · exact List.mem_cons_of_mem _ (List.mem_cons_of_mem _ hm)
        · intro z hz
          rcases List.mem_cons.mp hz with rfl | hz'
          · exact hxw
          · rcases List.mem_cons.mp hz' with rfl | hz''
            · exact hyb
            · exact hbound z (List.mem_cons_of_mem _ hz'')
        · cases k' with
          | zero =>
            simp only [List.getElem?_cons_zero, Option.some.injEq] at hk'
            subst hk'
            exact ⟨0, rfl, by intro m z hm; omega⟩
          | succ k0 =>
            simp only [List.getElem?_cons_succ] at hk'
            refine ⟨k0 + 2, by simpa using hk', ?_⟩
            intro m z hm hget
            have hwx : specGt (f w) (f x) = true :=
              hfirst 0 x (by omega) (by simp)
            cases m with
            | zero =>
              simp only [List.getElem?_cons_zero, Option.some.injEq] at hget
              subst hget
              exact hwx
            | succ m0 =>
              cases m0 with
              | zero =>
                simp only [List.getElem?_cons_succ, List.getElem?_cons_zero,
                  Option.some.injEq] at hget
                subst hget
                exact specGt_gt_nge hwx (by simpa using hxy)
              | succ m1 =>
                simp only [List.getElem?_cons_succ] at hget
                exact hfirst (m1 + 1) z (by omega) (by simpa using hget)

theorem maxByFirst_isSome {f : α → Spec} {l : List α} (h : l ≠ []) :
    (maxByFirst f l).isSome := by
  cases l with
  | nil => exact absurd rfl h
  | cons x rest => rfl

/-- Rule indices in the matching-entry list are strictly increasing. -/
theorem mea_sorted {ev : EvalFn} {g : Scope} :
    ∀ {rules : List MerchantRule} {n : Nat},
    (matchingEntriesAux ev g n rules).Pairwise (fun a b => a.1 < b.1) := by
  intro rules
  induction rules with
  | nil => intro n; simp [matchingEntriesAux]
  | cons r rs ih =>
    intro n
    by_cases h : ruleMatchQ ev g r = some true
    · rw [mea_cons_pos h]
      refine List.Pairwise.cons ?_ ih
      intro e he
      obtain ⟨j, r', _, _, heq⟩ := mem_mea.mp he
      have : e.1 = n + 1 + j := by rw [heq]
      simp only [this]
      omega
    · rw [mea_cons_neg h]
      exact ih

/-- In a list with strictly increasing indices, a member with a smaller
index than the element at position `k` sits at a position before `k`. -/
theorem pos_lt_of_idx_lt {l : List (Nat × MerchantRule × Scope)}
    (hsort : l.Pairwise (fun a b => a.1 < b.1)) {k : Nat} {w y : Nat × MerchantRule × Scope}
    (hk : l[k]? = some w) (hy : y ∈ l) (hlt : y.1 < w.1) :
    ∃ m : Nat, m < k ∧ l[m]? = some y := by
  obtain ⟨m, hm⟩ := List.getElem?_of_mem hy
  refine ⟨m, ?_, hm⟩
  obtain ⟨hmlen, hmval⟩ := List.getElem?_eq_some.mp hm
  obtain ⟨hklen, hkval⟩ := List.getElem?_eq_some.mp hk
  rcases Nat.lt_trichotomy m k with h | h | h
  · exact h
  · subst h
    rw [hmval] at hkval
    subst hkval
    omega
  · have := (List.pairwise_iff_getElem.mp hsort) k m hklen hmlen h
    rw [hkval, hmval] at this
    omega

/-- `most_specific` category resolution when a category winner exists. -/
theorem msr_cat_some (ev : EvalFn) (ms : List (Nat × MerchantRule × Scope))
    (st : TagState) (base : MatchResult) {w : Nat × MerchantRule × Scope}
    (hw : maxByFirst (fun e => calculateSpecificity e.2.1)
      (ms.filter (fun e => e.2.1.isCategorizationRule)) = some w) :
    (mostSpecificResolve ev ms st base).matched = true ∧
    (mostSpecificResolve ev ms st base).category = w.2.1.category ∧
    (mostSpecificResolve ev ms st base).matchedRuleIdx = some w.1 := by
  have hne : ms.isEmpty = false := by
    cases ms with
    | nil => simp [maxByFirst] at hw
    | cons a l => rfl
  simp only [mostSpecificResolve, hne, Bool.false_eq_true, if_false]
  rcases hmw : maxByFirst (fun e => calculateSpecificity e.2.1)
      (ms.filter (fun e => e.2.1.hasMerchant)) with _ | wm <;>
    rcases hsw : maxByFirst (fun e => calculateSpecificity e.2.1)
      (ms.filter (fun e => e.2.1.hasSubcategory)) with _ | ws <;>
    simp only [hmw, hw, hsw] <;>
    exact ⟨acw_matched _ _ _ _ _ _, acw_category _ _ _ _ _ _, acw_matchedIdx _ _ _ _ _ _⟩

/-- `most_specific` category resolution when no matching rule declares a
category: the `matched` flag and winner stay at their defaults. -/
theorem msr_cat_none (ev : EvalFn) (ms : List (Nat × MerchantRule × Scope))
    (st : TagState) (base : MatchResult)
    (hw : maxByFirst (fun e => calculateSpecificity e.2.1)
      (ms.filter (fun e => e.2.1.isCategorizationRule)) = Option.none) :
    (mostSpecificResolve ev ms st base).matched = base.matched ∧
    (mostSpecificResolve ev ms st base).matchedRuleIdx = base.matchedRuleIdx ∧
    (mostSpecificResolve ev ms st base).category = base.category := by
  by_cases hne : ms.isEmpty
  · simp [mostSpecificResolve, hne]
  · simp only [mostSpecificResolve, hne, Bool.false_eq_true, if_false]
    rcases hmw : maxByFirst (fun e => calculateSpecificity e.2.1)
        (ms.filter (fun e => e.2.1.hasMerchant)) with _ | wm <;>
      rcases hsw : maxByFirst (fun e => calculateSpecificity e.2.1)
        (ms.filter (fun e => e.2.1.hasSubcategory)) with _ | ws <;>
      simp [hmw, hw, hsw]

/-- C2. `calculate_specificity` is the 4-tuple
`(priority, pattern function occurrences, field keyword count, quoted
literal length)` read off the raw match-expression text; an explicit
priority dominates the other components; and in `most_specific` mode the
winning category rule is the matching category rule with the
lexicographically maximal tuple, ties resolved to the first in file order. -/
theorem specificity_and_most_specific_winner (ev : EvalFn) (eng : MerchantEngine)
    (hmode : eng.matchMode = "most_specific") :
    (∀ r : MerchantRule, calculateSpecificity r =
      (r.priority,
       (patternFuncs.map (fun f => countOccs f.data (pyLower r.matchExpr).data)).sum,
       (fieldKeywords.filter (fun kw => hasSub (pyLower r.matchExpr) kw)).length,
       quotedLens '"' r.matchExpr.data + quotedLens (Char.ofNat 39) r.matchExpr.data)) ∧
    (∀ s₁ s₂ : Spec, s₁.1 > s₂.1 → specGt s₁ s₂ = true) ∧
    (∀ i, (engineMatch ev eng).matchedRuleIdx = some i →
      ∃ r, eng.rules[i]? = some r ∧
        ruleMatchQ ev (engineGlobals ev eng) r = some true ∧
        r.category ≠ "" ∧
        (engineMatch ev eng).matched = true ∧
        (engineMatch ev eng).category = r.category ∧
        (∀ j r', eng.rules[j]? = some r' →
          ruleMatchQ ev (engineGlobals ev eng) r' = some true → r'.category ≠ "" →
          specGt (calculateSpecificity r') (calculateSpecificity r) = false ∧
          (j < i → specGt (calculateSpecificity r) (calculateSpecificity r') = true))) ∧
    ((∃ r ∈ eng.rules, ruleMatchQ ev (engineGlobals ev eng) r = some true ∧ r.category ≠ "") →
      (engineMatch ev eng).matchedRuleIdx.isSome) := by
  have hmode' : eng.matchMode ≠ "first_match" := by
    rw [hmode]
    decide
  refine ⟨fun r => rfl, ?_, ?_, ?_⟩
  · intro s₁ s₂ h
    obtain ⟨a1, a2, a3, a4⟩ := s₁
    obtain ⟨b1, b2, b3, b4⟩ := s₂
    simp only [specGt, decide_eq_true_eq]
    simp only at h
    omega
  · intro i hidx
    rw [engineMatch_most ev eng hmode'] at hidx ⊢
    rcases hw : maxByFirst (fun e => calculateSpecificity e.2.1)
        ((engineEntries ev eng).filter (fun e => e.2.1.isCategorizationRule)) with _ | w
    · obtain ⟨_, hni, _⟩ := msr_cat_none ev _
        (tagPass ev (engineEntries ev eng)) (engineBase ev eng) hw
      rw [hni] at hidx
      simp [engineBase] at hidx
    · obtain ⟨hm, hc, hmi⟩ := msr_cat_some ev _
        (tagPass ev (engineEntries ev eng)) (engineBase ev eng) hw
      rw [hmi] at hidx
      injection hidx with hidx
      obtain ⟨hmem, hbound, k, hk, hfirst⟩ := maxByFirst_spec hw
      obtain ⟨hmem', hcat⟩ := List.mem_filter.mp hmem
      obtain ⟨j, r, hget, hq, heq⟩ := mem_mea.mp hmem'
      have hwr : w.2.1 = r := by rw [heq]
      have hwi : w.1 = j := by rw [heq]; simp
      refine ⟨w.2.1, ?_, ?_, ?_, hm, hc, ?_⟩
      · rw [← hidx, hwi, hwr]
        exact hget
      · rw [hwr]
        exact hq
      · simpa [MerchantRule.isCategorizationRule] using hcat
      · intro j' r' hget' hq' hcat'
        have hmem2 : (j', r', ruleScope ev (engineGlobals ev eng) r') ∈ engineEntries ev eng := by
          apply mem_mea.mpr
          exact ⟨j', r', hget', hq', by simp⟩
        have hmemf : (j', r', ruleScope ev (engineGlobals ev eng) r') ∈
            (engineEntries ev eng).filter (fun e => e.2.1.isCategorizationRule) := by
          apply List.mem_filter.mpr
          refine ⟨hmem2, ?_⟩
          simpa [MerchantRule.isCategorizationRule] using hcat'
        constructor
        · exact hbound _ hmemf
        · intro hlt
          have hsort : ((engineEntries ev eng).filter
              (fun e => e.2.1.isCategorizationRule)).Pairwise (fun a b => a.1 < b.1) :=
            List.Pairwise.filter _ mea_sorted
          obtain ⟨m, hmk, hgetm⟩ := pos_lt_of_idx_lt hsort hk hmemf
            (by rw [hwi]; rw [← hidx] at hlt; rwa [hwi] at hlt)
          have := hfirst m _ hmk hgetm
          exact this
  · intro hex
    rw [engineMatch_most ev eng hmode']
    have hfl : (engineEntries ev eng).filter (fun e => e.2.1.isCategorizationRule) ≠ [] := by
      obtain ⟨r, hr, hq, hcat⟩ := hex
      obtain ⟨j, hget⟩ := List.getElem?_of_mem hr
      have hmem2 : (j, r, ruleScope ev (engineGlobals ev eng) r) ∈ engineEntries ev eng :=
        mem_mea.mpr ⟨j, r, hget, hq, by simp⟩
      have hmemf : (j, r, ruleScope ev (engineGlobals ev eng) r) ∈
          (engineEntries ev eng).filter (fun e => e.2.1.isCategorizationRule) :=
        List.mem_filter.mpr ⟨hmem2, by simpa [MerchantRule.isCategorizationRule] using hcat⟩
      exact List.ne_nil_of_mem hmemf
    have := maxByFirst_isSome (f := fun e => calculateSpecificity e.2.1) hfl
    rcases hw : maxByFirst (fun e => calculateSpecificity e.2.1)
        ((engineEntries ev eng).filter (fun e => e.2.1.isCategorizationRule)) with _ | w
    · rw [hw] at this
      simp at this
    · obtain ⟨_, _, hmi⟩ := msr_cat_some ev _
        (tagPass ev (engineEntries ev eng)) (engineBase ev eng) hw
      rw [hmi]
      rfl


/-! ## Claim C3: the tag protocol -/

theorem resolveTags_nil {ev : EvalFn} {r : MerchantRule} {sc : Scope}
    (h : r.tags = []) : resolveTags ev r sc = [] := by
  simp [resolveTags, h]

theorem mem_addUniq {l : List String} {x t : String} :
    t ∈ addUniq l x ↔ t ∈ l ∨ t = x := by
  by_cases h : x ∈ l
  · simp only [addUniq, h, ite_true]
    constructor
    · exact Or.inl
    · rintro (ht | rfl)
      · exact ht
      · exact h
  · simp [addUniq, h]

theorem mem_addResolved {t rname rexpr : String} :
    ∀ (resolved : List String) (st : TagState),
    t ∈ (addResolved st resolved rname rexpr).tags ↔ t ∈ st.tags ∨ t ∈ resolved := by
  intro resolved
  induction resolved with
  | nil => intro st; simp [addResolved]
  | cons a as ih =>
    intro st
    have hstep : addResolved st (a :: as) rname rexpr =
        addResolved (if a ∈ st.tags then st else { st with tags := st.tags ++ [a], sources := st.sources ++ [(a, rname, rexpr)] }) as rname rexpr := rfl
    rw [hstep]
    by_cases h : a ∈ st.tags
    · rw [if_pos h, ih]
      constructor
      · rintro (ht | ht)
        · exact Or.inl ht
        · exact Or.inr (List.mem_cons_of_mem _ ht)
      · rintro (ht | ht)
        · exact Or.inl ht
        · rcases List.mem_cons.mp ht with rfl | ht'
          · exact Or.inl h
          · exact Or.inr ht'
    · rw [if_neg h, ih]
      simp only [List.mem_append, List.mem_singleton, List.mem_cons]
      tauto

/-- Membership in the pass-B tag accumulation: a tag is collected iff some
matching tag-only rule resolves to it (or it was already present). -/
theorem mem_tagPass {ev : EvalFn} {t : String} :
    ∀ (ms : List (Nat × MerchantRule × Scope)) (st : TagState),
    (t ∈ (ms.foldl (fun st e =>
        if e.2.1.isCategorizationRule then st
        else
          let st' := addResolved st (resolveTags ev e.2.1 e.2.2) e.2.1.name e.2.1.matchExpr
          { st' with tagRules := st'.tagRules ++ [e.1] }) st).tags) ↔
      t ∈ st.tags ∨ ∃ e ∈ ms, e.2.1.category = "" ∧ t ∈ resolveTags ev e.2.1 e.2.2 := by
  intro ms
  induction ms with
  | nil => intro st; simp
  | cons e es ih =>
    intro st
    rw [List.foldl_cons]
    by_cases h : e.2.1.category = ""
    · have hcat : e.2.1.isCategorizationRule = false := by
        simp [MerchantRule.isCategorizationRule, h]
      rw [show (if e.2.1.isCategorizationRule then st
          else
            let st' := addResolved st (resolveTags ev e.2.1 e.2.2) e.2.1.name e.2.1.matchExpr
            { st' with tagRules := st'.tagRules ++ [e.1] }) =
          { (addResolved st (resolveTags ev e.2.1 e.2.2) e.2.1.name e.2.1.matchExpr) with
            tagRules := (addResolved st (resolveTags ev e.2.1 e.2.2) e.2.1.name e.2.1.matchExpr).tagRules ++ [e.1] }
          from by rw [hcat]; rfl]
      rw [ih]
      rw [show ({ (addResolved st (resolveTags ev e.2.1 e.2.2) e.2.1.name e.2.1.matchExpr) with
            tagRules := (addResolved st (resolveTags ev e.2.1 e.2.2) e.2.1.name e.2.1.matchExpr).tagRules ++ [e.1] } : TagState).tags =
          (addResolved st (resolveTags ev e.2.1 e.2.2) e.2.1.name e.2.1.matchExpr).tags from rfl]
      rw [mem_addResolved]
      constructor
      · rintro ((ht | ht) | ht)
        · exact Or.inl ht
        · exact Or.inr ⟨e, List.mem_cons_self _ _, h, ht⟩
        · obtain ⟨e', he', hc', ht'⟩ := ht
          exact Or.inr ⟨e', List.mem_cons_of_mem _ he', hc', ht'⟩
      · rintro (ht | ⟨e', he', hc', ht'⟩)
        · exact Or.inl (Or.inl ht)
        · rcases List.mem_cons.mp he' with rfl | hmem
          · exact Or.inl (Or.inr ht')
          · exact Or.inr ⟨e', hmem, hc', ht'⟩
    · have hcat : e.2.1.isCategorizationRule = true := by
        simp [MerchantRule.isCategorizationRule, h]
      rw [show (if e.2.1.isCategorizationRule then st
          else
            let st' := addResolved st (resolveTags ev e.2.1 e.2.2) e.2.1.name e.2.1.matchExpr
            { st' with tagRules := st'.tagRules ++ [e.1] }) = st from by rw [hcat]; rfl]
      rw [ih]
      constructor
      · rintro (ht | ⟨e', he', hc', ht'⟩)
        · exact Or.inl ht
        · exact Or.inr ⟨e', List.mem_cons_of_mem _ he', hc', ht'⟩
      · rintro (ht | ⟨e', he', hc', ht'⟩)
        · exact Or.inl ht
        · rcases List.mem_cons.mp he' with rfl | hmem
          · exact absurd hc' h
          · exact Or.inr ⟨e', hmem, hc', ht'⟩

theorem mem_tagPass_tags {ev : EvalFn} {t : String} {ms : List (Nat × MerchantRule × Scope)} :
    t ∈ (tagPass ev ms).tags ↔
      ∃ e ∈ ms, e.2.1.category = "" ∧ t ∈ resolveTags ev e.2.1 e.2.2 := by
  rw [show tagPass ev ms = ms.foldl (fun st e =>
      if e.2.1.isCategorizationRule then st
      else
        let st' := addResolved st (resolveTags ev e.2.1 e.2.2) e.2.1.name e.2.1.matchExpr
        { st' with tagRules := st'.tagRules ++ [e.1] }) {} from rfl]
  rw [mem_tagPass]
  simp

/-- The category winner an engine's mode selects for a transaction. -/
def categoryWinner (ev : EvalFn) (eng : MerchantEngine) : Option (Nat × MerchantRule × Scope) :=
  if eng.matchMode = "first_match" then
    (engineEntries ev eng).find? (fun e => e.2.1.isCategorizationRule)
  else
    maxByFirst (fun e => calculateSpecificity e.2.1)
      ((engineEntries ev eng).filter (fun e => e.2.1.isCategorizationRule))

theorem fmr_tags (ev : EvalFn) (ms : List (Nat × MerchantRule × Scope))
    (st : TagState) (base : MatchResult) {i : Nat} {r : MerchantRule} {sc : Scope}
    (hf : ms.find? (fun e => e.2.1.isCategorizationRule) = some (i, r, sc)) :
    (firstMatchResolve ev ms st base).tags =
      (if ¬ r.tags.isEmpty then addResolved st (resolveTags ev r sc) r.name r.matchExpr
       else st).tags := by
  simp only [firstMatchResolve, hf]
  rw [acw_tags]

theorem msr_tags_some (ev : EvalFn) (ms : List (Nat × MerchantRule × Scope))
    (st : TagState) (base : MatchResult) {w : Nat × MerchantRule × Scope}
    (hw : maxByFirst (fun e => calculateSpecificity e.2.1)
      (ms.filter (fun e => e.2.1.isCategorizationRule)) = some w) :
    (mostSpecificResolve ev ms st base).tags =
      (if ¬ w.2.1.tags.isEmpty then addResolved st (resolveTags ev w.2.1 w.2.2) w.2.1.name w.2.1.matchExpr
       else st).tags := by
  have hne : ms.isEmpty = false := by
    cases ms with
    | nil => simp [maxByFirst] at hw
    | cons a l => rfl
  simp only [mostSpecificResolve, hne, Bool.false_eq_true, if_false]
  rcases hmw : maxByFirst (fun e => calculateSpecificity e.2.1)
      (ms.filter (fun e => e.2.1.hasMerchant)) with _ | wm <;>
    rcases hsw : maxByFirst (fun e => calculateSpecificity e.2.1)
      (ms.filter (fun e => e.2.1.hasSubcategory)) with _ | ws <;>
    simp only [hmw, hw, hsw] <;>
    exact acw_tags _ _ _ _ _ _

theorem msr_tags_none (ev : EvalFn) (ms : List (Nat × MerchantRule × Scope))
    (st : TagState) (base : MatchResult)
    (hw : maxByFirst (fun e => calculateSpecificity e.2.1)
      (ms.filter (fun e => e.2.1.isCategorizationRule)) = Option.none) :
    (mostSpecificResolve ev ms st base).tags = base.tags := by
  by_cases hne : ms.isEmpty
  · simp [mostSpecificResolve, hne]
  · simp only [mostSpecificResolve, hne, Bool.false_eq_true, if_false]
    rcases hmw : maxByFirst (fun e => calculateSpecificity e.2.1)
        (ms.filter (fun e => e.2.1.hasMerchant)) with _ | wm <;>
      rcases hsw : maxByFirst (fun e => calculateSpecificity e.2.1)
        (ms.filter (fun e => e.2.1.hasSubcategory)) with _ | ws <;>
      simp [hmw, hw, hsw]


/-- C3 (amended). In either mode, the tag set is the union of the resolved
tags of all matching tag-only rules with the resolved tags of the mode's
winning category rule. (The two modes need not produce identical tag sets:
their winning category rules can differ — see the counterexample.) -/
theorem tags_union_characterization (ev : EvalFn) (eng : MerchantEngine) (t : String) :
    t ∈ (engineMatch ev eng).tags ↔
      ((∃ e ∈ engineEntries ev eng, e.2.1.category = "" ∧ t ∈ resolveTags ev e.2.1 e.2.2) ∨
       (∃ w, categoryWinner ev eng = some w ∧ t ∈ resolveTags ev w.2.1 w.2.2)) := by
  by_cases hmode : eng.matchMode = "first_match"
  · rw [engineMatch_first ev eng hmode]
    rw [show categoryWinner ev eng =
      (engineEntries ev eng).find? (fun e => e.2.1.isCategorizationRule)
      from by rw [categoryWinner, if_pos hmode]]
    rcases hf : (engineEntries ev eng).find? (fun e => e.2.1.isCategorizationRule) with _ | w
    · rw [fmr_none ev _ (tagPass ev (engineEntries ev eng)) (engineBase ev eng) hf]
      rw [show (engineBase ev eng).tags = (tagPass ev (engineEntries ev eng)).tags from rfl]
      rw [mem_tagPass_tags]
      simp [hf]
    · obtain ⟨i, r, sc⟩ := w
      rw [fmr_tags ev _ (tagPass ev (engineEntries ev eng)) (engineBase ev eng) hf]
      by_cases hemp : r.tags.isEmpty
      · have hnil : resolveTags ev r sc = [] := resolveTags_nil (List.isEmpty_iff.mp hemp)
        rw [if_neg (by simpa using hemp)]
        rw [mem_tagPass_tags]
        simp [hf, hnil]
      · rw [if_pos (by simpa using hemp)]
        rw [mem_addResolved, mem_tagPass_tags]
        simp [hf]
  · rw [engineMatch_most ev eng hmode]
    rw [show categoryWinner ev eng =
      maxByFirst (fun e => calculateSpecificity e.2.1)
        ((engineEntries ev eng).filter (fun e => e.2.1.isCategorizationRule))
      from by rw [categoryWinner, if_neg hmode]]
    rcases hw : maxByFirst (fun e => calculateSpecificity e.2.1)
        ((engineEntries ev eng).filter (fun e => e.2.1.isCategorizationRule)) with _ | w
    · rw [msr_tags_none ev _ (tagPass ev (engineEntries ev eng)) (engineBase ev eng) hw]
      rw [show (engineBase ev eng).tags = (tagPass ev (engineEntries ev eng)).tags from rfl]
      rw [mem_tagPass_tags]
      simp [hw]
    · rw [msr_tags_some ev _ (tagPass ev (engineEntries ev eng)) (engineBase ev eng) hw]
      by_cases hemp : w.2.1.tags.isEmpty
      · rw [if_neg (by simpa using hemp)]
        rw [mem_tagPass_tags]
        simp [hw, resolveTags_nil (List.isEmpty_iff.mp hemp)]
      · rw [if_pos (by simpa using hemp)]
        rw [mem_addResolved, mem_tagPass_tags]
        simp [hw]

/-! Concrete fixtures shared by the scenario witnesses and counterexamples. -/

/-- An evaluation oracle under which every expression is truthy. -/
def evalTrue : EvalFn := fun _ _ => some (Value.bool true)

def ruleC3A : MerchantRule :=
  { name := "A", matchExpr := "x", category := "CA", tags := ["a"] }

def ruleC3B : MerchantRule :=
  { name := "B", matchExpr := "x", category := "CB", tags := ["b"], priority := 60 }

def engC3F : MerchantEngine :=
  { rules := [ruleC3A, ruleC3B], matchMode := "first_match" }

def engC3S : MerchantEngine :=
  { rules := [ruleC3A, ruleC3B], matchMode := "most_specific" }

/-- C3 counterexample: the same rule set and transaction produce different
tag sets in the two modes — in `first_match` the first category rule `A`
(tags `a`) wins; in `most_specific` the higher-priority rule `B` (tags `b`)
wins, so `a` is in the first tag set but not the second. -/
theorem tags_differ_between_modes :
    "a" ∈ (engineMatch evalTrue engC3F).tags ∧
    "a" ∉ (engineMatch evalTrue engC3S).tags ∧
    "b" ∈ (engineMatch evalTrue engC3S).tags := by
  decide


/-- Witness for C1 at a concrete engine and oracle. -/
theorem first_match_winner_semantics_witness :
    (engineMatch evalTrue engC3F).matchedRuleIdx.isSome = true :=
  (first_match_winner_semantics evalTrue engC3F rfl).2.1
    ⟨ruleC3A, by decide, rfl, by decide⟩

/-- Witness for C2 at a concrete engine and oracle. -/
theorem specificity_and_most_specific_winner_witness :
    (engineMatch evalTrue engC3S).matchedRuleIdx.isSome = true :=
  (specificity_and_most_specific_winner evalTrue engC3S rfl).2.2.2
    ⟨ruleC3A, by decide, rfl, by decide⟩

/-! ## Claim C4: unmatched transactions keep their accumulated tags -/

def txn750 : TxnLite := { amount := 750, year := 2025, month := 12, day := 25 }

def contentC4 : String :=
  "[Large]\nmatch: amount > 500\ntags: large\n\n[Holiday]\nmatch: month == 12\ntags: holiday"

/-- The engine the C4 scenario rule file parses to. -/
def engC4 : MerchantEngine :=
  { rules :=
      [{ name := "Large", matchExpr := "amount > 500", merchant := "Large",
         tags := ["large"], lineNumber := 1 },
       { name := "Holiday", matchExpr := "month == 12", merchant := "Holiday",
         tags := ["holiday"], lineNumber := 5 }],
    matchMode := "first_match" }

/-- C4. When no category-declaring rule matches, the result is unmatched and
its tag set is exactly the union of the matching tag-only rules' resolved
tags; concretely, the `[Large]`/`[Holiday]` rule file on the transaction
`{amount: 750, date: 2025-12-25}` parses and yields `matched = false` with
tags `{large, holiday}`. -/
theorem unmatched_accumulates_tags (ev : EvalFn) (eng : MerchantEngine)
    (h : ∀ e ∈ engineEntries ev eng, e.2.1.category = "") :
    ((engineMatch ev eng).matched = false ∧
     (∀ t, t ∈ (engineMatch ev eng).tags ↔
        ∃ e ∈ engineEntries ev eng, t ∈ resolveTags ev e.2.1 e.2.2)) ∧
    parseMerchants miniParseOk contentC4 "first_match" = Except.ok engC4 ∧
    (engineMatch (miniEval txn750) engC4).matched = false ∧
    (engineMatch (miniEval txn750) engC4).tags = ["large", "holiday"] := by
  refine ⟨?_, by rfl, by rfl, by rfl⟩
  have hfindnone : (engineEntries ev eng).find? (fun e => e.2.1.isCategorizationRule) =
      Option.none := by
    apply List.find?_eq_none.mpr
    intro e he
    simp [MerchantRule.isCategorizationRule, h e he]
  have hfilnil : (engineEntries ev eng).filter (fun e => e.2.1.isCategorizationRule) = [] := by
    rw [List.filter_eq_nil_iff]
    intro e he
    simp [MerchantRule.isCategorizationRule, h e he]
  by_cases hmode : eng.matchMode = "first_match"
  · rw [engineMatch_first ev eng hmode]
    rw [fmr_none ev _ (tagPass ev (engineEntries ev eng)) (engineBase ev eng) hfindnone]
    refine ⟨rfl, ?_⟩
    intro t
    rw [show (engineBase ev eng).tags = (tagPass ev (engineEntries ev eng)).tags from rfl]
    rw [mem_tagPass_tags]
    constructor
    · rintro ⟨e, he, _, ht⟩
      exact ⟨e, he, ht⟩
    · rintro ⟨e, he, ht⟩
      exact ⟨e, he, h e he, ht⟩
  · rw [engineMatch_most ev eng hmode]
    have hmax : maxByFirst (fun e => calculateSpecificity e.2.1)
        ((engineEntries ev eng).filter (fun e => e.2.1.isCategorizationRule)) = Option.none := by
      rw [hfilnil]
      rfl
    obtain ⟨hm, _, _⟩ := msr_cat_none ev _ (tagPass ev (engineEntries ev eng)) (engineBase ev eng) hmax
    have htags := msr_tags_none ev _ (tagPass ev (engineEntries ev eng)) (engineBase ev eng) hmax
    refine ⟨by rw [hm]; rfl, ?_⟩
    intro t
    rw [htags]
    rw [show (engineBase ev eng).tags = (tagPass ev (engineEntries ev eng)).tags from rfl]
    rw [mem_tagPass_tags]
    constructor
    · rintro ⟨e, he, _, ht⟩
      exact ⟨e, he, ht⟩
    · rintro ⟨e, he, ht⟩
      exact ⟨e, he, h e he, ht⟩

/-- Witness for C4 at the scenario's own engine and transaction. -/
theorem unmatched_accumulates_tags_witness :
    (engineMatch (miniEval txn750) engC4).matched = false ∧
    "large" ∈ (engineMatch (miniEval txn750) engC4).tags :=
  ⟨(unmatched_accumulates_tags (miniEval txn750) engC4 (by decide)).1.1,
   ((unmatched_accumulates_tags (miniEval txn750) engC4 (by decide)).1.2 "large").mpr
     (by decide)⟩


/-! ## Claim C7: failed let-bindings resolve to null and never abort the rule -/

theorem evalLets_append (ev : EvalFn) :
    ∀ (pre post : List (String × String)) (sc : Scope),
    evalLets ev sc (pre ++ post) = evalLets ev (evalLets ev sc pre) post := by
  intro pre
  induction pre with
  | nil => intro post sc; rfl
  | cons b bs ih =>
    intro post sc
    obtain ⟨n, e⟩ := b
    show evalLets ev (sc.set n ((ev e sc).getD Value.none)) (bs ++ post) = _
    rw [ih]
    rfl

/-- C7. If a let-binding `(n, e)` fails to evaluate (in the scope built from
the bindings before it), the rule-local scope binds `n` to null and the
remaining bindings are still evaluated in order; the match expression is
then evaluated in that completed scope, so the failure alone never skips
the rule — only a failure of the match expression itself can. -/
theorem let_binding_failure_is_null (ev : EvalFn) (g : Scope)
    (pre : List (String × String)) (n e : String) (post : List (String × String))
    (r : MerchantRule) (hlets : r.letBindings = pre ++ (n, e) :: post)
    (hfail : ev e (evalLets ev g pre) = Option.none) :
    ruleScope ev g r = evalLets ev ((evalLets ev g pre).set n Value.none) post ∧
    ruleMatchQ ev g r =
      (ev r.matchExpr (evalLets ev ((evalLets ev g pre).set n Value.none) post)).map truthy := by
  have hne : r.letBindings.isEmpty = false := by
    rw [hlets]
    cases pre <;> rfl
  have hscope : ruleScope ev g r = evalLets ev ((evalLets ev g pre).set n Value.none) post := by
    rw [ruleScope, hne]
    rw [show (if (false : Bool) then g else evalLets ev g r.letBindings) =
      evalLets ev g r.letBindings from rfl]
    rw [hlets, evalLets_append]
    show evalLets ev ((evalLets ev g pre).set n ((ev e (evalLets ev g pre)).getD Value.none)) post = _
    rw [hfail]
    rfl
  exact ⟨hscope, by rw [ruleMatchQ, hscope]⟩

def evalC7 : EvalFn := fun expr _ =>
  if expr = "boom" then Option.none else some (Value.bool true)

def ruleC7 : MerchantRule :=
  { name := "R", matchExpr := "x", tags := ["t"],
    letBindings := [("a", "boom"), ("b", "ok")] }

/-- Witness for C7: a rule whose first binding fails still evaluates its
match expression (in a scope where the binding is null) and matches. -/
theorem let_binding_failure_is_null_witness :
    ruleMatchQ evalC7 Scope.empty ruleC7 = some true := by
  have h := let_binding_failure_is_null evalC7 Scope.empty [] "a" "boom" [("b", "ok")]
    ruleC7 rfl rfl
  rw [h.2]
  rfl

/-! ## Claim C10: the merchant field default -/

/-- C10 counterexample: a rule constructed with an empty name and no
explicit merchant has an empty merchant display name — `__post_init__`
only copies the (empty) name. Such rules are constructible through the CSV
conversion path (`csv_rule_to_merchant_rule` with an empty merchant
column), so not every `MerchantRule` has a non-empty merchant. -/
theorem empty_name_gives_empty_merchant :
    (MerchantRule.make "" "x" "" "" "" [] 50 0 [] [] "").merchant = "" := by
  rfl

theorem msr_merchant_some (ev : EvalFn) (ms : List (Nat × MerchantRule × Scope))
    (st : TagState) (base : MatchResult) {w : Nat × MerchantRule × Scope}
    (hw : maxByFirst (fun e => calculateSpecificity e.2.1)
      (ms.filter (fun e => e.2.1.hasMerchant)) = some w) :
    (mostSpecificResolve ev ms st base).merchant = w.2.1.merchant ∧
    (mostSpecificResolve ev ms st base).merchantRuleIdx = some w.1 := by
  have hne : ms.isEmpty = false := by
    cases ms with
    | nil => simp [maxByFirst] at hw
    | cons a l => rfl
  simp only [mostSpecificResolve, hne, Bool.false_eq_true, if_false]
  rcases hcw : maxByFirst (fun e => calculateSpecificity e.2.1)
      (ms.filter (fun e => e.2.1.isCategorizationRule)) with _ | wc <;>
    rcases hsw : maxByFirst (fun e => calculateSpecificity e.2.1)
      (ms.filter (fun e => e.2.1.hasSubcategory)) with _ | ws <;>
    simp only [hw, hcw, hsw]
  · constructor <;> trivial
  · constructor <;> trivial
  · exact ⟨by rw [acw_merchant], by rw [acw_merchantIdx]⟩
  · exact ⟨by rw [acw_merchant], by rw [acw_merchantIdx]⟩

def ruleC10 : MerchantRule := MerchantRule.make "T" "x" "" "" "" ["t"] 50 0 [] [] ""

def engC10 : MerchantEngine := { rules := [ruleC10], matchMode := "most_specific" }

/-- C10 (amended). `__post_init__` defaults the merchant to the rule name,
so every rule with a non-empty name (in particular every parsed rule) has a
non-empty merchant; consequently in `most_specific` mode every matching
rule competes for the merchant field, and when any rule matches (and all
rules carry non-empty merchants) the merchant and merchant_rule are set —
possibly by a tag-only rule while `matched` stays false, as in the
concrete engine `engC10`. -/
theorem merchant_default_semantics :
    (∀ name matchExpr category subcategory merchant tags priority lineNumber lets fields transform,
      (MerchantRule.make name matchExpr category subcategory merchant tags priority
        lineNumber lets fields transform).merchant =
          (if merchant = "" then name else merchant)) ∧
    (∀ name matchExpr category subcategory merchant tags priority lineNumber lets fields transform,
      name ≠ "" →
      (MerchantRule.make name matchExpr category subcategory merchant tags priority
        lineNumber lets fields transform).merchant ≠ "") ∧
    (∀ (ev : EvalFn) (eng : MerchantEngine), eng.matchMode ≠ "first_match" →
      (∀ r ∈ eng.rules, r.merchant ≠ "") →
      engineEntries ev eng ≠ [] →
      (engineMatch ev eng).merchantRuleIdx.isSome ∧ (engineMatch ev eng).merchant ≠ "") ∧
    ((engineMatch evalTrue engC10).merchantRuleIdx.isSome ∧
      (engineMatch evalTrue engC10).merchant = "T" ∧
      (engineMatch evalTrue engC10).matched = false) := by
  refine ⟨fun _ _ _ _ _ _ _ _ _ _ _ => rfl, ?_, ?_, by decide⟩
  · intro name matchExpr category subcategory merchant tags priority lineNumber lets fields transform hn
    simp only [MerchantRule.make]
    by_cases hm : merchant = "" <;> simp [hm, hn]
  · intro ev eng hmode hmer hne
    rw [engineMatch_most ev eng hmode]
    have hfil : (engineEntries ev eng).filter (fun e => e.2.1.hasMerchant) =
        engineEntries ev eng := by
      apply List.filter_eq_self.mpr
      intro e he
      obtain ⟨j, r, hget, _, heq⟩ := mem_mea.mp he
      have : e.2.1 = r := by rw [heq]
      rw [this]
      simpa [MerchantRule.hasMerchant] using hmer r (List.getElem?_mem hget)
    have hsome := maxByFirst_isSome (f := fun e => calculateSpecificity e.2.1)
      (l := (engineEntries ev eng).filter (fun e => e.2.1.hasMerchant)) (by rw [hfil]; exact hne)
    rcases hw : maxByFirst (fun e => calculateSpecificity e.2.1)
        ((engineEntries ev eng).filter (fun e => e.2.1.hasMerchant)) with _ | w
    · rw [hw] at hsome
      simp at hsome
    · obtain ⟨hm, hmi⟩ := msr_merchant_some ev _
        (tagPass ev (engineEntries ev eng)) (engineBase ev eng) hw
      refine ⟨by rw [hmi]; rfl, ?_⟩
      rw [hm]
      have hwmem := (maxByFirst_spec hw).1
      obtain ⟨hwms, hwp⟩ := List.mem_filter.mp hwmem
      simpa [MerchantRule.hasMerchant] using hwp


/-- Witness for C10's amended statement at a concrete engine. -/
theorem merchant_default_semantics_witness :
    (engineMatch evalTrue engC10).merchantRuleIdx.isSome = true ∧
    (engineMatch evalTrue engC10).merchant ≠ "" :=
  merchant_default_semantics.2.2.1 evalTrue engC10 (by decide) (by decide)
    (List.ne_nil_of_length_pos
      (by rw [show (engineEntries evalTrue engC10).length = 1 from rfl]; omega))


/-! ## Claim C9: normalization of resolved tags -/

theorem charOfNat_toNat_32 (n : Nat) (h1 : 65 ≤ n) (h2 : n ≤ 90) :
    (Char.ofNat (n + 32)).toNat = n + 32 := by
  have hv : Nat.isValidChar (n + 32) := by
    left
    omega
  rw [Char.ofNat, dif_pos hv]
  simp only [Char.toNat, Char.ofNatAux, UInt32.toNat, UInt32.toBitVec, BitVec.toNat_ofNatLt]

theorem toLower_toNat (c : Char) :
    c.toLower.toNat = if c.toNat ≥ 65 ∧ c.toNat ≤ 90 then c.toNat + 32 else c.toNat := by
  simp only [Char.toLower]
  by_cases h : c.toNat ≥ 65 ∧ c.toNat ≤ 90
  · rw [if_pos h, if_pos h]
    exact charOfNat_toNat_32 c.toNat h.1 h.2
  · rw [if_neg h, if_neg h]

theorem char_eq_of_toNat {a b : Char} (h : a.toNat = b.toNat) : a = b :=
  Char.eq_of_val_eq (UInt32.ext h)

theorem toLower_toLower (c : Char) : c.toLower.toLower = c.toLower := by
  apply char_eq_of_toNat
  rw [toLower_toNat, toLower_toNat]
  split_ifs <;> omega

theorem isPyWS_toNat (c : Char) :
    isPyWS c = decide (c.toNat = 32 ∨ c.toNat = 9 ∨ c.toNat = 10 ∨ c.toNat = 13 ∨
      c.toNat = 11 ∨ c.toNat = 12) := by
  apply Bool.eq_iff_iff.mpr
  simp only [isPyWS, decide_eq_true_eq, Bool.or_eq_true]
  constructor
  · intro h
    rcases h with rfl | rfl | rfl | rfl | rfl | rfl <;> decide
  · intro h
    rcases h with h | h | h | h | h | h
    · exact Or.inl (char_eq_of_toNat h)
    · exact Or.inr (Or.inl (char_eq_of_toNat h))
    · exact Or.inr (Or.inr (Or.inl (char_eq_of_toNat h)))
    · exact Or.inr (Or.inr (Or.inr (Or.inl (char_eq_of_toNat h))))
    · exact Or.inr (Or.inr (Or.inr (Or.inr (Or.inl (char_eq_of_toNat h)))))
    · exact Or.inr (Or.inr (Or.inr (Or.inr (Or.inr (char_eq_of_toNat h)))))

theorem isPyWS_toLower (c : Char) : isPyWS c.toLower = isPyWS c := by
  rw [isPyWS_toNat, isPyWS_toNat, toLower_toNat]
  rcases h : decide (c.toNat ≥ 65 ∧ c.toNat ≤ 90) with _ | _
  · simp only [decide_eq_false_iff_not] at h
    rw [if_neg h]
  · simp only [decide_eq_true_eq] at h
    rw [if_pos h]
    apply Bool.eq_iff_iff.mpr
    simp only [decide_eq_true_eq]
    omega

theorem pyStripList_eq (l : List Char) :
    pyStripList l = List.rdropWhile isPyWS (l.dropWhile isPyWS) := rfl

theorem dropWhile_rdropWhile_dropWhile (p : Char → Bool) (m : List Char) :
    List.dropWhile p (List.rdropWhile p (m.dropWhile p)) =
      List.rdropWhile p (m.dropWhile p) := by
  rw [List.dropWhile_eq_self_iff]
  intro hl
  have hpre := List.rdropWhile_prefix p (m.dropWhile p)
  have hlen : 0 < (m.dropWhile p).length := Nat.lt_of_lt_of_le hl hpre.length_le
  have hget : (List.rdropWhile p (m.dropWhile p)).get ⟨0, hl⟩ =
      (m.dropWhile p).get ⟨0, hlen⟩ := by
    have := List.IsPrefix.getElem hpre hl
    simpa [List.get_eq_getElem] using this
  rw [hget]
  exact List.dropWhile_get_zero_not p m hlen

theorem pyStrip_idem (s : String) : pyStrip (pyStrip s) = pyStrip s := by
  show (⟨pyStripList (pyStripList s.data)⟩ : String) = ⟨pyStripList s.data⟩
  rw [pyStripList_eq (pyStripList s.data), pyStripList_eq s.data]
  rw [dropWhile_rdropWhile_dropWhile, List.rdropWhile_idempotent]

theorem pyStripList_map_toLower (l : List Char) :
    pyStripList (l.map Char.toLower) = (pyStripList l).map Char.toLower := by
  have hcomp : isPyWS ∘ Char.toLower = isPyWS := funext isPyWS_toLower
  simp only [pyStripList]
  rw [List.dropWhile_map, hcomp, ← List.map_reverse, List.dropWhile_map, hcomp,
    ← List.map_reverse]

theorem pyStrip_pyLower (s : String) : pyStrip (pyLower s) = pyLower (pyStrip s) := by
  show (⟨pyStripList (s.data.map Char.toLower)⟩ : String) = ⟨(pyStripList s.data).map Char.toLower⟩
  rw [pyStripList_map_toLower]

theorem pyLower_idem (s : String) : pyLower (pyLower s) = pyLower s := by
  show (⟨(s.data.map Char.toLower).map Char.toLower⟩ : String) = _
  rw [List.map_map]
  congr 1
  apply List.map_congr_left
  intro c _
  exact toLower_toLower c

/-- The normal form reached by `.strip().lower()` is a fixpoint: stripping
and lowercasing again changes nothing. -/
theorem normTag_fixpoint (s : String) :
    pyLower (pyStrip (pyLower (pyStrip s))) = pyLower (pyStrip s) := by
  rw [pyStrip_pyLower, pyStrip_idem, pyLower_idem]

theorem pyLower_empty_iff (s : String) : pyLower s = "" ↔ s = "" := by
  constructor
  · intro h
    have : s.data.map Char.toLower = [] := congrArg String.data h
    have hd : s.data = [] := by
      cases hs : s.data with
      | nil => rfl
      | cons c cs => rw [hs] at this; simp at this
    cases s
    simp at hd
    simp [hd]
  · intro h
    rw [h]
    rfl


theorem mem_resolveListItems {t : String} :
    ∀ (items : List Value) (acc : List String),
    t ∈ resolveListItems acc items →
      t ∈ acc ∨ ∃ item ∈ items, truthy item = true ∧ t = pyLower (pyStrip (valueStr item)) := by
  intro items
  induction items with
  | nil => intro acc h; exact Or.inl h
  | cons v vs ih =>
    intro acc h
    have hstep : resolveListItems acc (v :: vs) =
        resolveListItems (if truthy v then addUniq acc (pyLower (pyStrip (valueStr v))) else acc) vs := rfl
    rw [hstep] at h
    rcases ih _ h with hin | ⟨item, hi, ht, he⟩
    · by_cases hv : truthy v
      · rw [if_pos hv] at hin
        rcases mem_addUniq.mp hin with hin' | rfl
        · exact Or.inl hin'
        · exact Or.inr ⟨v, List.mem_cons_self _ _, hv, rfl⟩
      · rw [if_neg hv] at hin
        exact Or.inl hin
    · exact Or.inr ⟨item, List.mem_cons_of_mem _ hi, ht, he⟩

theorem mem_resolveDynValue {acc : List String} {v : Value} {t : String}
    (h : t ∈ resolveDynValue acc v) :
    t ∈ acc ∨ ∃ s, t = pyLower (pyStrip s) := by
  unfold resolveDynValue at h
  rcases hv : truthy v with _ | _
  · rw [hv] at h
    simp only [Bool.false_eq_true, if_false] at h
    exact Or.inl h
  · rw [hv] at h
    simp only [if_true] at h
    cases v with
    | list items =>
      rcases mem_resolveListItems items acc h with hin | ⟨item, _, _, he⟩
      · exact Or.inl hin
      · exact Or.inr ⟨valueStr item, he⟩
    | none => simp [truthy] at hv
    | bool b =>
      revert h
      by_cases h4 : pyStrip (valueStr (Value.bool b)) = "" <;> intro h
      · rw [if_pos h4] at h
        exact Or.inl h
      · rw [if_neg h4] at h
        rcases mem_addUniq.mp h with hin | rfl
        · exact Or.inl hin
        · exact Or.inr ⟨valueStr (Value.bool b), rfl⟩
    | num q =>
      revert h
      by_cases h4 : pyStrip (valueStr (Value.num q)) = "" <;> intro h
      · rw [if_pos h4] at h
        exact Or.inl h
      · rw [if_neg h4] at h
        rcases mem_addUniq.mp h with hin | rfl
        · exact Or.inl hin
        · exact Or.inr ⟨valueStr (Value.num q), rfl⟩
    | str s =>
      revert h
      by_cases h4 : pyStrip (valueStr (Value.str s)) = "" <;> intro h
      · rw [if_pos h4] at h
        exact Or.inl h
      · rw [if_neg h4] at h
        rcases mem_addUniq.mp h with hin | rfl
        · exact Or.inl hin
        · exact Or.inr ⟨valueStr (Value.str s), rfl⟩

theorem empty_resolveDynValue {acc : List String} {v : Value}
    (h : "" ∈ resolveDynValue acc v) :
    "" ∈ acc ∨ ∃ items, v = Value.list items ∧
      ∃ item ∈ items, truthy item = true ∧ pyStrip (valueStr item) = "" := by
  unfold resolveDynValue at h
  rcases hv : truthy v with _ | _
  · rw [hv] at h
    simp only [Bool.false_eq_true, if_false] at h
    exact Or.inl h
  · rw [hv] at h
    simp only [if_true] at h
    cases v with
    | list items =>
      rcases mem_resolveListItems items acc h with hin | ⟨item, hi, ht, he⟩
      · exact Or.inl hin
      · exact Or.inr ⟨items, rfl, item, hi, ht, (pyLower_empty_iff _).mp he.symm⟩
    | none => simp [truthy] at hv
    | bool b =>
      revert h
      by_cases h4 : pyStrip (valueStr (Value.bool b)) = "" <;> intro h
      · rw [if_pos h4] at h
        exact Or.inl h
      · rw [if_neg h4] at h
        rcases mem_addUniq.mp h with hin | he
        · exact Or.inl hin
        · exact absurd ((pyLower_empty_iff _).mp he.symm) h4
    | num q =>
      revert h
      by_cases h4 : pyStrip (valueStr (Value.num q)) = "" <;> intro h
      · rw [if_pos h4] at h
        exact Or.inl h
      · rw [if_neg h4] at h
        rcases mem_addUniq.mp h with hin | he
        · exact Or.inl hin
        · exact absurd ((pyLower_empty_iff _).mp he.symm) h4
    | str s =>
      revert h
      by_cases h4 : pyStrip (valueStr (Value.str s)) = "" <;> intro h
      · rw [if_pos h4] at h
        exact Or.inl h
      · rw [if_neg h4] at h
        rcases mem_addUniq.mp h with hin | he
        · exact Or.inl hin
        · exact absurd ((pyLower_empty_iff _).mp he.symm) h4

theorem mem_resolveTagStep {ev : EvalFn} {sc : Scope} {acc : List String} {raw t : String}
    (h : t ∈ resolveTagStep ev sc acc raw) :
    t ∈ acc ∨ ∃ s, t = pyLower (pyStrip s) := by
  unfold resolveTagStep at h
  by_cases h1 : pyStrip raw = ""
  · rw [if_pos h1] at h
    exact Or.inl h
  · rw [if_neg h1] at h
    by_cases h2 : strStarts (pyStrip raw) lbrace ∧ strEnds (pyStrip raw) rbrace
    · rw [if_pos h2] at h
      by_cases h3 : pyStrip (innerSlice (pyStrip raw)) = ""
      · rw [if_pos h3] at h
        exact Or.inl h
      · rw [if_neg h3] at h
        rcases hev : ev (pyStrip (innerSlice (pyStrip raw))) sc with _ | v
        · rw [hev] at h
          exact Or.inl h
        · rw [hev] at h
          replace h : t ∈ resolveDynValue acc v := h
          exact mem_resolveDynValue h
    · rw [if_neg h2] at h
      rcases mem_addUniq.mp h with hin | rfl
      · exact Or.inl hin
      · exact Or.inr ⟨raw, rfl⟩

theorem empty_resolveTagStep {ev : EvalFn} {sc : Scope} {acc : List String} {raw : String}
    (h : "" ∈ resolveTagStep ev sc acc raw) :
    "" ∈ acc ∨ ∃ items, ev (pyStrip (innerSlice (pyStrip raw))) sc = some (Value.list items) ∧
      ∃ item ∈ items, truthy item = true ∧ pyStrip (valueStr item) = "" := by
  unfold resolveTagStep at h
  by_cases h1 : pyStrip raw = ""
  · rw [if_pos h1] at h
    exact Or.inl h
  · rw [if_neg h1] at h
    by_cases h2 : strStarts (pyStrip raw) lbrace ∧ strEnds (pyStrip raw) rbrace
    · rw [if_pos h2] at h
      by_cases h3 : pyStrip (innerSlice (pyStrip raw)) = ""
      · rw [if_pos h3] at h
        exact Or.inl h
      · rw [if_neg h3] at h
        rcases hev : ev (pyStrip (innerSlice (pyStrip raw))) sc with _ | v
        · rw [hev] at h
          exact Or.inl h
        · rw [hev] at h
          replace h : "" ∈ resolveDynValue acc v := h
          rcases empty_resolveDynValue h with hin | ⟨items, hv, item, hi, ht, he⟩
          · exact Or.inl hin
          · subst hv
            exact Or.inr ⟨items, rfl, item, hi, ht, he⟩
    · rw [if_neg h2] at h
      rcases mem_addUniq.mp h with hin | he
      · exact Or.inl hin
      · exact absurd ((pyLower_empty_iff _).mp he.symm) h1

theorem mem_resolveTags_shaped {ev : EvalFn} {r : MerchantRule} {sc : Scope} {t : String}
    (h : t ∈ resolveTags ev r sc) : ∃ s, t = pyLower (pyStrip s) := by
  have haux : ∀ (l : List String) (acc : List String),
      t ∈ l.foldl (resolveTagStep ev sc) acc → t ∈ acc ∨ ∃ s, t = pyLower (pyStrip s) := by
    intro l
    induction l with
    | nil => intro acc h'; exact Or.inl h'
    | cons x xs ih =>
      intro acc h'
      rcases ih _ h' with hin | hs
      · exact mem_resolveTagStep hin
      · exact Or.inr hs
  rcases haux r.tags [] h with hin | hs
  · simp at hin
  · exact hs

theorem empty_resolveTags {ev : EvalFn} {r : MerchantRule} {sc : Scope}
    (h : "" ∈ resolveTags ev r sc) :
    ∃ raw ∈ r.tags, ∃ items,
      ev (pyStrip (innerSlice (pyStrip raw))) sc = some (Value.list items) ∧
      ∃ item ∈ items, truthy item = true ∧ pyStrip (valueStr item) = "" := by
  have haux : ∀ (l : List String) (acc : List String),
      "" ∈ l.foldl (resolveTagStep ev sc) acc → "" ∈ acc ∨
        ∃ raw ∈ l, ∃ items,
          ev (pyStrip (innerSlice (pyStrip raw))) sc = some (Value.list items) ∧
          ∃ item ∈ items, truthy item = true ∧ pyStrip (valueStr item) = "" := by
    intro l
    induction l with
    | nil => intro acc h'; exact Or.inl h'
    | cons x xs ih =>
      intro acc h'
      rcases ih _ h' with hin | ⟨raw, hr, rest⟩
      · rcases empty_resolveTagStep hin with hin' | ⟨items, hev, item, hi, ht, he⟩
        · exact Or.inl hin'
        · exact Or.inr ⟨x, List.mem_cons_self _ _, items, hev, item, hi, ht, he⟩
      · exact Or.inr ⟨raw, List.mem_cons_of_mem _ hr, rest⟩
  rcases haux r.tags [] h with hin | hs
  · simp at hin
  · exact hs


theorem mem_addResolved_sources {rname rexpr : String} {p : String × String × String} :
    ∀ (resolved : List String) (st : TagState),
    p ∈ (addResolved st resolved rname rexpr).sources →
      p ∈ st.sources ∨ p.1 ∈ resolved := by
  intro resolved
  induction resolved with
  | nil => intro st h; exact Or.inl h
  | cons a as ih =>
    intro st h
    have hstep : addResolved st (a :: as) rname rexpr =
        addResolved (if a ∈ st.tags then st else { st with tags := st.tags ++ [a], sources := st.sources ++ [(a, rname, rexpr)] }) as rname rexpr := rfl
    rw [hstep] at h
    by_cases hm : a ∈ st.tags
    · rw [if_pos hm] at h
      rcases ih _ h with hin | hr
      · exact Or.inl hin
      · exact Or.inr (List.mem_cons_of_mem _ hr)
    · rw [if_neg hm] at h
      rcases ih _ h with hin | hr
      · rcases List.mem_append.mp hin with hin' | hin'
        · exact Or.inl hin'
        · rw [List.mem_singleton.mp hin']
          exact Or.inr (List.mem_cons_self _ _)
      · exact Or.inr (List.mem_cons_of_mem _ hr)

theorem mem_tagPass_sources {ev : EvalFn} {p : String × String × String} :
    ∀ (ms : List (Nat × MerchantRule × Scope)) (st : TagState),
    p ∈ (ms.foldl (fun st e =>
        if e.2.1.isCategorizationRule then st
        else
          let st' := addResolved st (resolveTags ev e.2.1 e.2.2) e.2.1.name e.2.1.matchExpr
          { st' with tagRules := st'.tagRules ++ [e.1] }) st).sources →
      p ∈ st.sources ∨ ∃ e ∈ ms, p.1 ∈ resolveTags ev e.2.1 e.2.2 := by
  intro ms
  induction ms with
  | nil => intro st h; exact Or.inl h
  | cons e es ih =>
    intro st h
    rw [List.foldl_cons] at h
    by_cases hcat : e.2.1.isCategorizationRule
    · rw [show (if e.2.1.isCategorizationRule then st
          else
            let st' := addResolved st (resolveTags ev e.2.1 e.2.2) e.2.1.name e.2.1.matchExpr
            { st' with tagRules := st'.tagRules ++ [e.1] }) = st from by rw [hcat]; rfl] at h
      rcases ih _ h with hin | ⟨e', he', hr⟩
      · exact Or.inl hin
      · exact Or.inr ⟨e', List.mem_cons_of_mem _ he', hr⟩
    · rw [show (if e.2.1.isCategorizationRule then st
          else
            let st' := addResolved st (resolveTags ev e.2.1 e.2.2) e.2.1.name e.2.1.matchExpr
            { st' with tagRules := st'.tagRules ++ [e.1] }) =
          { (addResolved st (resolveTags ev e.2.1 e.2.2) e.2.1.name e.2.1.matchExpr) with
            tagRules := (addResolved st (resolveTags ev e.2.1 e.2.2) e.2.1.name e.2.1.matchExpr).tagRules ++ [e.1] }
          from by rw [show e.2.1.isCategorizationRule = false from by simpa using hcat]; rfl] at h
      rcases ih _ h with hin | ⟨e', he', hr⟩
      · rcases mem_addResolved_sources _ _ hin with hin' | hr'
        · exact Or.inl hin'
        · exact Or.inr ⟨e, List.mem_cons_self _ _, hr'⟩
      · exact Or.inr ⟨e', List.mem_cons_of_mem _ he', hr⟩

theorem fmr_sources (ev : EvalFn) (ms : List (Nat × MerchantRule × Scope))
    (st : TagState) (base : MatchResult) {i : Nat} {r : MerchantRule} {sc : Scope}
    (hf : ms.find? (fun e => e.2.1.isCategorizationRule) = some (i, r, sc)) :
    (firstMatchResolve ev ms st base).tagSources =
      (if ¬ r.tags.isEmpty then addResolved st (resolveTags ev r sc) r.name r.matchExpr
       else st).sources := by
  simp only [firstMatchResolve, hf]
  rw [acw_sources]

theorem msr_sources_some (ev : EvalFn) (ms : List (Nat × MerchantRule × Scope))
    (st : TagState) (base : MatchResult) {w : Nat × MerchantRule × Scope}
    (hw : maxByFirst (fun e => calculateSpecificity e.2.1)
      (ms.filter (fun e => e.2.1.isCategorizationRule)) = some w) :
    (mostSpecificResolve ev ms st base).tagSources =
      (if ¬ w.2.1.tags.isEmpty then addResolved st (resolveTags ev w.2.1 w.2.2) w.2.1.name w.2.1.matchExpr
       else st).sources := by
  have hne : ms.isEmpty = false := by
    cases ms with
    | nil => simp [maxByFirst] at hw
    | cons a l => rfl
  simp only [mostSpecificResolve, hne, Bool.false_eq_true, if_false]
  rcases hmw : maxByFirst (fun e => calculateSpecificity e.2.1)
      (ms.filter (fun e => e.2.1.hasMerchant)) with _ | wm <;>
    rcases hsw : maxByFirst (fun e => calculateSpecificity e.2.1)
      (ms.filter (fun e => e.2.1.hasSubcategory)) with _ | ws <;>
    simp only [hmw, hw, hsw] <;>
    exact acw_sources _ _ _ _ _ _

theorem msr_sources_none (ev : EvalFn) (ms : List (Nat × MerchantRule × Scope))
    (st : TagState) (base : MatchResult)
    (hw : maxByFirst (fun e => calculateSpecificity e.2.1)
      (ms.filter (fun e => e.2.1.isCategorizationRule)) = Option.none) :
    (mostSpecificResolve ev ms st base).tagSources = base.tagSources := by
  by_cases hne : ms.isEmpty
  · simp [mostSpecificResolve, hne]
  · simp only [mostSpecificResolve, hne, Bool.false_eq_true, if_false]
    rcases hmw : maxByFirst (fun e => calculateSpecificity e.2.1)
        (ms.filter (fun e => e.2.1.hasMerchant)) with _ | wm <;>
      rcases hsw : maxByFirst (fun e => calculateSpecificity e.2.1)
        (ms.filter (fun e => e.2.1.hasSubcategory)) with _ | ws <;>
      simp [hmw, hw, hsw]

/-- Every tag of a match result is the result of some `_resolve_tags` call. -/
theorem result_tag_from_resolve {ev : EvalFn} {eng : MerchantEngine} {t : String}
    (h : t ∈ (engineMatch ev eng).tags) :
    ∃ (r : MerchantRule) (sc : Scope), t ∈ resolveTags ev r sc := by
  by_cases hmode : eng.matchMode = "first_match"
  · rw [engineMatch_first ev eng hmode] at h
    rcases hf : (engineEntries ev eng).find? (fun e => e.2.1.isCategorizationRule) with _ | w
    · rw [fmr_none ev _ (tagPass ev (engineEntries ev eng)) (engineBase ev eng) hf] at h
      replace h : t ∈ (tagPass ev (engineEntries ev eng)).tags := h
      obtain ⟨e, _, _, ht⟩ := mem_tagPass_tags.mp h
      exact ⟨e.2.1, e.2.2, ht⟩
    · obtain ⟨i, r, sc⟩ := w
      rw [fmr_tags ev _ (tagPass ev (engineEntries ev eng)) (engineBase ev eng) hf] at h
      revert h
      split_ifs with hemp <;> intro h
      · obtain ⟨e, _, _, ht⟩ := mem_tagPass_tags.mp h
        exact ⟨e.2.1, e.2.2, ht⟩
      · rcases (mem_addResolved _ _).mp h with hin | hr
        · obtain ⟨e, _, _, ht⟩ := mem_tagPass_tags.mp hin
          exact ⟨e.2.1, e.2.2, ht⟩
        · exact ⟨r, sc, hr⟩
  · rw [engineMatch_most ev eng hmode] at h
    rcases hw : maxByFirst (fun e => calculateSpecificity e.2.1)
        ((engineEntries ev eng).filter (fun e => e.2.1.isCategorizationRule)) with _ | w
    · rw [msr_tags_none ev _ (tagPass ev (engineEntries ev eng)) (engineBase ev eng) hw] at h
      replace h : t ∈ (tagPass ev (engineEntries ev eng)).tags := h
      obtain ⟨e, _, _, ht⟩ := mem_tagPass_tags.mp h
      exact ⟨e.2.1, e.2.2, ht⟩
    · rw [msr_tags_some ev _ (tagPass ev (engineEntries ev eng)) (engineBase ev eng) hw] at h
      revert h
      split_ifs with hemp <;> intro h
      · obtain ⟨e, _, _, ht⟩ := mem_tagPass_tags.mp h
        exact ⟨e.2.1, e.2.2, ht⟩
      · rcases (mem_addResolved _ _).mp h with hin | hr
        · obtain ⟨e, _, _, ht⟩ := mem_tagPass_tags.mp hin
          exact ⟨e.2.1, e.2.2, ht⟩
        · exact ⟨w.2.1, w.2.2, hr⟩

/-- Every `tag_sources` key of a match result comes from `_resolve_tags`. -/
theorem result_source_from_resolve {ev : EvalFn} {eng : MerchantEngine}
    {p : String × String × String}
    (h : p ∈ (engineMatch ev eng).tagSources) :
    ∃ (r : MerchantRule) (sc : Scope), p.1 ∈ resolveTags ev r sc := by
  have hbase : ∀ q ∈ (tagPass ev (engineEntries ev eng)).sources,
      ∃ (r : MerchantRule) (sc : Scope), q.1 ∈ resolveTags ev r sc := by
    intro q hq
    replace hq : q ∈ ((engineEntries ev eng).foldl
        (fun (st : TagState) (e : Nat × MerchantRule × Scope) =>
        if e.2.1.isCategorizationRule then st
        else
          let st' := addResolved st (resolveTags ev e.2.1 e.2.2) e.2.1.name e.2.1.matchExpr
          { st' with tagRules := st'.tagRules ++ [e.1] }) {}).sources := hq
    rcases mem_tagPass_sources _ _ hq with hin | ⟨e, _, hr⟩
    · simp [TagState] at hin
    · exact ⟨e.2.1, e.2.2, hr⟩
  by_cases hmode : eng.matchMode = "first_match"
  · rw [engineMatch_first ev eng hmode] at h
    rcases hf : (engineEntries ev eng).find? (fun e => e.2.1.isCategorizationRule) with _ | w
    · rw [fmr_none ev _ (tagPass ev (engineEntries ev eng)) (engineBase ev eng) hf] at h
      exact hbase p h
    · obtain ⟨i, r, sc⟩ := w
      rw [fmr_sources ev _ (tagPass ev (engineEntries ev eng)) (engineBase ev eng) hf] at h
      revert h
      split_ifs with hemp <;> intro h
      · exact hbase p h
      · rcases mem_addResolved_sources _ _ h with hin | hr
        · exact hbase p hin
        · exact ⟨r, sc, hr⟩
  · rw [engineMatch_most ev eng hmode] at h
    rcases hw : maxByFirst (fun e => calculateSpecificity e.2.1)
        ((engineEntries ev eng).filter (fun e => e.2.1.isCategorizationRule)) with _ | w
    · rw [msr_sources_none ev _ (tagPass ev (engineEntries ev eng)) (engineBase ev eng) hw] at h
      exact hbase p h
    · rw [msr_sources_some ev _ (tagPass ev (engineEntries ev eng)) (engineBase ev eng) hw] at h
      revert h
      split_ifs with hemp <;> intro h
      · exact hbase p h
      · rcases mem_addResolved_sources _ _ h with hin | hr
        · exact hbase p hin
        · exact ⟨w.2.1, w.2.2, hr⟩

/-- C9 (amended). Every tag in the result's tag set, and every key of its
`tag_sources` map, is stripped of surrounding whitespace and lowercased (a
fixpoint of `.strip().lower()`); an empty tag can only arise from a
list-valued dynamic tag result containing a truthy item whose string form
strips to nothing — static tags and scalar dynamic results are checked for
non-emptiness, list items are not. -/
theorem tag_normal_form (ev : EvalFn) (eng : MerchantEngine) :
    (∀ t ∈ (engineMatch ev eng).tags, pyLower (pyStrip t) = t) ∧
    (∀ p ∈ (engineMatch ev eng).tagSources, pyLower (pyStrip p.1) = p.1) ∧
    (∀ (r : MerchantRule) (sc : Scope), "" ∈ resolveTags ev r sc →
      ∃ raw ∈ r.tags, ∃ items,
        ev (pyStrip (innerSlice (pyStrip raw))) sc = some (Value.list items) ∧
        ∃ item ∈ items, truthy item = true ∧ pyStrip (valueStr item) = "") := by
  refine ⟨?_, ?_, fun r sc h => empty_resolveTags h⟩
  · intro t ht
    obtain ⟨r, sc, hr⟩ := result_tag_from_resolve ht
    obtain ⟨s, rfl⟩ := mem_resolveTags_shaped hr
    exact normTag_fixpoint s
  · intro p hp
    obtain ⟨r, sc, hr⟩ := result_source_from_resolve hp
    obtain ⟨s, heq⟩ := mem_resolveTags_shaped hr
    rw [heq]
    exact normTag_fixpoint s

def evalListWS : EvalFn := fun _ _ => some (Value.list [Value.str " "])

def ruleC9 : MerchantRule := { name := "R", matchExpr := "x", tags := ["\x7be\x7d"] }

def engC9 : MerchantEngine := { rules := [ruleC9], matchMode := "first_match" }

/-- C9 counterexample: a dynamic tag evaluating to the list `[" "]` yields
the empty string as a tag — the truthiness check passes on the raw item,
but its stripped string form is empty, so the tag set contains `""`,
refuting the claim that every tag is non-empty. -/
theorem empty_tag_in_result : "" ∈ (engineMatch evalListWS engC9).tags := by
  decide

/-- Witness for C9's amended statement at a concrete engine. -/
theorem tag_normal_form_witness : pyLower (pyStrip "a") = "a" :=
  (tag_normal_form evalTrue engC3F).1 "a" (by decide)


/-! ## Claim C5: fail-closed parsing with line numbers -/

/-- The structural guarantees `_add_rule` enforces on every rule it emits. -/
def ruleWF (pOk : String → Bool) (r : MerchantRule) : Prop :=
  r.name ≠ "" ∧ (r.category ≠ "" ∨ r.tags ≠ []) ∧ pOk r.matchExpr = true ∧
    (∀ p ∈ r.letBindings, pOk p.2 = true) ∧ (∀ p ∈ r.fields, pOk p.2 = true)

theorem except_bind_ok {α β ε : Type} (x : α) (k : α → Except ε β) :
    (bind (Except.ok x) k : Except ε β) = k x := rfl

theorem except_bind_err {α β ε : Type} (e : ε) (k : α → Except ε β) :
    (bind (Except.error e) k : Except ε β) = Except.error e := rfl

theorem applyProperty_name {key value : String} {rd : RuleData} {ln : Nat}
    {line : String} {rd' : RuleData}
    (h : applyProperty key value rd ln line = Except.ok rd') : rd'.name = rd.name := by
  unfold applyProperty at h
  split_ifs at h <;> (try split at h) <;> (cases h; try rfl)

theorem addRule_ok {pOk : String → Bool} {rd : RuleData} {ln : Nat} {r : MerchantRule}
    (h : addRule pOk rd ln = Except.ok r) :
    r.name = rd.name ∧ (r.category ≠ "" ∨ r.tags ≠ []) ∧ pOk r.matchExpr = true ∧
      (∀ p ∈ r.letBindings, pOk p.2 = true) ∧ (∀ p ∈ r.fields, pOk p.2 = true) := by
  unfold addRule at h
  split at h
  · cases h
  rename_i me hm
  simp only at h
  split at h
  · cases h
  rename_i hct
  split at h
  · cases h
  rename_i hl
  split at h
  · cases h
  rename_i hf
  split at h
  · cases h
  rename_i hme
  cases h
  push_neg at hme
  have hor : (rd.category.getD "") ≠ "" ∨ (rd.tags.getD []) ≠ [] := by tauto
  refine ⟨rfl, ?_, ?_, ?_, ?_⟩
  · rcases hor with hc | ht
    · left
      simpa [MerchantRule.make] using hc
    · right
      simpa [MerchantRule.make] using ht
  · simpa [MerchantRule.make] using hme
  · intro p hp
    have := List.find?_eq_none.mp hl p (by simpa [MerchantRule.make] using hp)
    simpa using this
  · intro p hp
    have := List.find?_eq_none.mp hf p (by simpa [MerchantRule.make] using hp)
    simpa using this

theorem runParse_wf {pOk : String → Bool} :
    ∀ {lines : List String} {n : Nat} {cur : Option (RuleData × Nat)} {acc out : EngAcc},
    runParse pOk lines n cur acc = Except.ok out →
    (∀ r ∈ acc.rules, ruleWF pOk r) →
    (∀ rd sl, cur = some (rd, sl) → rd.name ≠ "") →
    ∀ r ∈ out.rules, ruleWF pOk r := by
  intro lines
  induction lines with
  | nil =>
    intro n cur acc out h hacc hcur
    rcases cur with _ | ⟨rd, sl⟩
    · replace h : Except.ok acc = Except.ok out := h
      cases h
      exact hacc
    · replace h : (bind (addRule pOk rd sl) (fun r =>
          Except.ok { acc with rules := acc.rules ++ [r] })) = Except.ok out := h
      rcases ha : addRule pOk rd sl with e | r0 <;> rw [ha] at h
      · rw [except_bind_err] at h
        cases h
      · rw [except_bind_ok] at h
        cases h
        intro r hr
        rcases List.mem_append.mp hr with hin | hin
        · exact hacc r hin
        · rcases List.mem_singleton.mp hin with rfl
          obtain ⟨hn, hrest⟩ := addRule_ok ha
          exact ⟨hn ▸ hcur rd sl rfl, hrest⟩
  | cons line rest ih =>
    intro n cur acc out h hacc hcur
    simp only [runParse] at h
    split at h
    · exact ih h hacc hcur
    split at h
    · -- rule header line
      rcases cur with _ | ⟨rd, sl⟩
      · replace h : (if pyStrip (innerSlice (pyStrip line)) = "" then
            (Except.error ⟨"Empty rule name", n⟩ : Except MerchantParseError EngAcc)
          else runParse pOk rest (n + 1)
            (some ({ name := pyStrip (innerSlice (pyStrip line)) }, n)) acc) =
            Except.ok out := h
        split at h
        · cases h
        · rename_i hname
          refine ih h hacc ?_
          intro rd0 sl0 he
          cases he
          simpa using hname
      · replace h : (bind (addRule pOk rd sl) (fun r =>
            bind (Except.ok { acc with rules := acc.rules ++ [r] }) (fun y =>
            if pyStrip (innerSlice (pyStrip line)) = "" then
              Except.error ⟨"Empty rule name", n⟩
            else runParse pOk rest (n + 1)
              (some ({ name := pyStrip (innerSlice (pyStrip line)) }, n)) y))) =
            Except.ok out := h
        rcases ha : addRule pOk rd sl with e | r0 <;> rw [ha] at h
        · replace h : (Except.error e : Except MerchantParseError EngAcc) =
              Except.ok out := h
          cases h
        · replace h : (if pyStrip (innerSlice (pyStrip line)) = "" then
              (Except.error ⟨"Empty rule name", n⟩ : Except MerchantParseError EngAcc)
            else runParse pOk rest (n + 1)
              (some ({ name := pyStrip (innerSlice (pyStrip line)) }, n))
              { acc with rules := acc.rules ++ [r0] }) = Except.ok out := h
          split at h
          · cases h
          · rename_i hname
            refine ih h ?_ ?_
            · intro r hr
              rcases List.mem_append.mp hr with hin | hin
              · exact hacc r hin
              · rcases List.mem_singleton.mp hin with rfl
                obtain ⟨hn, hrest⟩ := addRule_ok ha
                exact ⟨hn ▸ hcur rd sl rfl, hrest⟩
            · intro rd0 sl0 he
              cases he
              simpa using hname
    split at h
    · -- top-level assignment line
      rcases ht : topAssignMatch (pyStrip line) with _ | ⟨lhs, rhs⟩ <;> rw [ht] at h
      · exact ih h hacc hcur
      · replace h : (if strStarts lhs "field." then
            runParse pOk rest (n + 1) cur
              { acc with transforms := acc.transforms ++ [(lhs, rhs)] }
          else runParse pOk rest (n + 1) cur
              { acc with fileVars := setAssoc acc.fileVars (pyLower lhs) rhs }) =
            Except.ok out := h
        split at h <;> exact ih h hacc hcur
    · -- property line or stray content
      rcases cur with _ | ⟨rd, sl⟩
      · exact ih h hacc hcur
      · replace h : (if hasChar (pyStrip line) (Char.ofNat 58) then
            match splitFirst (Char.ofNat 58) (pyStrip line) with
            | some (rawKey, rawValue) =>
              bind (applyProperty (pyLower (pyStrip rawKey)) (pyStrip rawValue) rd n line)
                (fun rd' => runParse pOk rest (n + 1) (some (rd', sl)) acc)
            | Option.none => Except.error ⟨"Unexpected content in rule", n⟩
          else (Except.error ⟨"Unexpected content in rule", n⟩ :
            Except MerchantParseError EngAcc)) = Except.ok out := h
        split at h
        · rcases hs : splitFirst (Char.ofNat 58) (pyStrip line) with _ | ⟨rk, rv⟩ <;>
            rw [hs] at h
          · cases h
          · replace h : (bind (applyProperty (pyLower (pyStrip rk)) (pyStrip rv) rd n line)
                (fun rd' => runParse pOk rest (n + 1) (some (rd', sl)) acc)) =
                Except.ok out := h
            rcases hap : applyProperty (pyLower (pyStrip rk)) (pyStrip rv) rd n line
              with e | rd' <;> rw [hap] at h
            · replace h : (Except.error e : Except MerchantParseError EngAcc) =
                  Except.ok out := h
              cases h
            · replace h : runParse pOk rest (n + 1) (some (rd', sl)) acc =
                  Except.ok out := h
              refine ih h hacc ?_
              intro rd0 sl0 he
              cases he
              rw [applyProperty_name hap]
              exact hcur rd sl rfl
        · cases h

def contentC5Good : String := "[A]\nmatch: amount > 10\ncategory: X"

def accC5 : EngAcc :=
  { rules := [MerchantRule.make "A" "amount > 10" "X" "" "" [] 50 1 [] [] ""] }

def contentEmptyName : String := "# header\n[  ]"

def contentUnknownProp : String := "[A]\nfoo: bar"

def contentNoMatch : String := "[A]\ncategory: X\n[B]\nmatch: amount > 10\ncategory: Y"

def contentNoCatTags : String := "[A]\nmatch: amount > 10"

def contentBadLet : String := "[A]\nlet: 5x = y"

def contentBadField : String := "[A]\nfield: = y"

def contentBadExpr : String := "[A]\nmatch: amount >\ncategory: X"

/-- C5. `parse` fails closed: a successful parse delivers only rules with a
nonempty name, a validated `match:` expression, a category or tags, and
validated `let`/`field` expressions; structurally invalid input aborts the
whole parse with a `MerchantParseError` carrying the offending line number
(the rule header's line for the `_add_rule` checks), illustrated on each
invalid element: an empty rule name, an unknown property, a rule with no
`match:` (aborting even though the following rule is valid), a rule with
neither category nor tags, malformed `let:`/`field:` syntax, and a match
expression the expression parser rejects. -/
theorem parse_fail_closed (pOk : String → Bool) (content : String) (acc : EngAcc)
    (h : parseRules pOk content = Except.ok acc) :
    (∀ r ∈ acc.rules, ruleWF pOk r) ∧
    parseRules miniParseOk contentEmptyName = Except.error ⟨"Empty rule name", 2⟩ ∧
    parseRules miniParseOk contentUnknownProp =
      Except.error ⟨"Unknown property: foo", 2⟩ ∧
    parseRules miniParseOk contentNoMatch =
      Except.error ⟨"Rule 'A' missing 'match:' expression", 1⟩ ∧
    parseRules miniParseOk contentNoCatTags =
      Except.error ⟨"Rule 'A' must have 'category:' or 'tags:'", 1⟩ ∧
    parseRules miniParseOk contentBadLet =
      Except.error ⟨"Invalid let syntax. Expected: let: name = expression", 2⟩ ∧
    parseRules miniParseOk contentBadField =
      Except.error ⟨"Invalid field syntax. Expected: field: name = expression", 2⟩ ∧
    parseRules miniParseOk contentBadExpr =
      Except.error ⟨"Invalid match expression in 'A'", 1⟩ := by
  refine ⟨?_, rfl, rfl, rfl, rfl, rfl, rfl, rfl⟩
  exact runParse_wf h (by simp [EngAcc]) (by simp)

theorem parse_fail_closed_witness :
    parseRules miniParseOk contentC5Good = Except.ok accC5 ∧
      (∀ r ∈ accC5.rules, ruleWF miniParseOk r) :=
  ⟨rfl, (parse_fail_closed miniParseOk contentC5Good accC5 rfl).1⟩

/-! ## Claim C8: match counts and unused rules -/

/-- Dict lookup on an insertion-ordered assoc list. -/
def lookupAssoc (l : List (String × α)) (s : String) : Option α :=
  (l.find? (fun p => p.1 = s)).map Prod.snd

theorem mem_dedupAux (key : α → β) [DecidableEq β] :
    ∀ (seen : List β) (l : List α) (r : α), r ∈ dedupAux key seen l → r ∈ l := by
  intro seen l
  induction l generalizing seen with
  | nil =>
    intro r h
    simp [dedupAux] at h
  | cons x rest ih =>
    intro r h
    simp only [dedupAux] at h
    split_ifs at h with hx
    · exact List.mem_cons_of_mem _ (ih seen r h)
    · rcases List.mem_cons.mp h with rfl | hr
      · exact List.mem_cons_self _ _
      · exact List.mem_cons_of_mem _ (ih _ r hr)

theorem dedupAux_nodup_fresh (key : α → β) [DecidableEq β] :
    ∀ (seen : List β) (l : List α),
      ((dedupAux key seen l).map key).Nodup ∧
        ∀ r ∈ dedupAux key seen l, key r ∉ seen := by
  intro seen l
  induction l generalizing seen with
  | nil => simp [dedupAux]
  | cons x rest ih =>
    simp only [dedupAux]
    split_ifs with hx
    · exact ih seen
    · obtain ⟨ihn, ihf⟩ := ih (key x :: seen)
      refine ⟨?_, ?_⟩
      · simp only [List.map_cons, List.nodup_cons]
        refine ⟨?_, ihn⟩
        intro hmem
        rcases List.mem_map.mp hmem with ⟨r, hr, hkr⟩
        exact ihf r hr (hkr ▸ List.mem_cons_self (key x) seen)
      · intro r hr
        rcases List.mem_cons.mp hr with rfl | hr1
        · exact hx
        · intro hseen
          exact ihf r hr1 (List.mem_cons_of_mem _ hseen)

theorem dedupAux_covers (key : α → β) [DecidableEq β] :
    ∀ (seen : List β) (l : List α) (x : α), x ∈ l → key x ∉ seen →
      ∃ r ∈ dedupAux key seen l, key r = key x := by
  intro seen l
  induction l generalizing seen with
  | nil =>
    intro x h
    simp at h
  | cons y rest ih =>
    intro x hx hs
    simp only [dedupAux]
    split_ifs with hy
    · rcases List.mem_cons.mp hx with rfl | hx1
      · exact absurd hy hs
      · exact ih seen x hx1 hs
    · rcases List.mem_cons.mp hx with rfl | hx1
      · exact ⟨x, List.mem_cons_self _ _, rfl⟩
      · by_cases hk : key x = key y
        · exact ⟨y, List.mem_cons_self _ _, hk.symm⟩
        · obtain ⟨r, hr, hkr⟩ := ih (key y :: seen) x hx1 (by
            intro hmem
            rcases List.mem_cons.mp hmem with he | hseen
            · exact hk he
            · exact hs hseen)
          exact ⟨r, List.mem_cons_of_mem _ hr, hkr⟩

theorem mem_matchRows_key {τ : Type} {eng : MerchantEngine} {txns : List τ}
    {evf : τ → EvalFn} {txnId : τ → String} {i : Nat} {idv : String} :
    (∃ m ∈ matchRows eng txns evf txnId, m.1 = i ∧ m.2.1 = idv) ↔
      ∃ t ∈ txns, txnId t = idv ∧
        i ∈ (engineMatch (evf t) eng).allMatchingRules := by
  simp only [matchRows, List.mem_flatMap, List.mem_map]
  constructor
  · rintro ⟨m, ⟨t, ht, j, hj, he⟩, h1, h2⟩
    subst he
    have h1a : j = i := h1
    have h2a : txnId t = idv := h2
    exact ⟨t, ht, h2a, h1a ▸ hj⟩
  · rintro ⟨t, ht, hid, hj⟩
    exact ⟨(i, txnId t,
      if ((eng.rules.get? i).map MerchantRule.isCategorizationRule).getD false
      then "category" else "tag_only"), ⟨t, ht, i, hj, rfl⟩, rfl, hid⟩

theorem matchesTable_count {τ : Type} (eng : MerchantEngine) (txns : List τ)
    (evf : τ → EvalFn) (txnId : τ → String) (i : Nat) :
    ((matchesTable eng txns evf txnId).filter (fun m => m.1 = i)).length =
      ((txns.filter (fun t =>
        i ∈ (engineMatch (evf t) eng).allMatchingRules)).map txnId).dedup.length := by
  classical
  have hkeys : ((matchesTable eng txns evf txnId).map
      (fun r => (r.1, r.2.1))).Nodup :=
    (dedupAux_nodup_fresh (fun r : Nat × String × String => (r.1, r.2.1)) []
      (matchRows eng txns evf txnId)).1
  have hFsub : List.Sublist
      (((matchesTable eng txns evf txnId).filter
        (fun m => m.1 = i)).map (fun r => (r.1, r.2.1)))
      ((matchesTable eng txns evf txnId).map (fun r => (r.1, r.2.1))) :=
    (List.filter_sublist _).map _
  have hFkeys := hkeys.sublist hFsub
  have hshape : ((matchesTable eng txns evf txnId).filter
      (fun m => m.1 = i)).map (fun r => (r.1, r.2.1)) =
      (((matchesTable eng txns evf txnId).filter
        (fun m => m.1 = i)).map (fun r => r.2.1)).map (fun s => (i, s)) := by
    rw [List.map_map]
    refine List.map_congr_left ?_
    intro m hm
    have h1 : m.1 = i := by simpa using (List.mem_filter.mp hm).2
    simp [h1]
  rw [hshape] at hFkeys
  have hI := hFkeys.of_map _
  have hG := (((txns.filter (fun t =>
    i ∈ (engineMatch (evf t) eng).allMatchingRules)).map txnId)).nodup_dedup
  have hmem : ∀ s : String,
      s ∈ ((matchesTable eng txns evf txnId).filter
        (fun m => m.1 = i)).map (fun r => r.2.1) ↔
      s ∈ ((txns.filter (fun t =>
        i ∈ (engineMatch (evf t) eng).allMatchingRules)).map txnId).dedup := by
    intro s
    rw [List.mem_dedup]
    constructor
    · intro hs
      rcases List.mem_map.mp hs with ⟨m, hmF, rfl⟩
      have hm := List.mem_filter.mp hmF
      have hmr : m ∈ matchRows eng txns evf txnId :=
        mem_dedupAux (fun r : Nat × String × String => (r.1, r.2.1)) []
          (matchRows eng txns evf txnId) m hm.1
      have h1 : m.1 = i := by simpa using hm.2
      obtain ⟨t, ht, hid, hjm⟩ := mem_matchRows_key.mp ⟨m, hmr, h1, rfl⟩
      exact List.mem_map.mpr ⟨t, List.mem_filter.mpr ⟨ht, by simpa using hjm⟩, hid⟩
    · intro hs
      rcases List.mem_map.mp hs with ⟨t, htF, rfl⟩
      have ht := List.mem_filter.mp htF
      have hjm : i ∈ (engineMatch (evf t) eng).allMatchingRules := by
        simpa using ht.2
      obtain ⟨m, hmD, hkey⟩ := dedupAux_covers
        (fun r : Nat × String × String => (r.1, r.2.1)) []
        (matchRows eng txns evf txnId)
        (i, txnId t,
          if ((eng.rules.get? i).map MerchantRule.isCategorizationRule).getD false
          then "category" else "tag_only")
        (by
          simp only [matchRows, List.mem_flatMap, List.mem_map]
          exact ⟨t, ht.1, i, hjm, rfl⟩)
        (by simp)
      have hk1 : m.1 = i := congrArg Prod.fst hkey
      have hk2 : m.2.1 = txnId t := congrArg (fun p => p.2) hkey
      refine List.mem_map.mpr ⟨m, List.mem_filter.mpr ⟨hmD, by simpa using hk1⟩, hk2⟩
  have hfin : (((matchesTable eng txns evf txnId).filter
      (fun m => m.1 = i)).map (fun r => r.2.1)).toFinset =
      (((txns.filter (fun t =>
        i ∈ (engineMatch (evf t) eng).allMatchingRules)).map txnId).dedup).toFinset := by
    apply Finset.ext
    intro s
    simpa [List.mem_toFinset] using hmem s
  have hperm := List.perm_of_nodup_nodup_toFinset_eq hI hG hfin
  calc ((matchesTable eng txns evf txnId).filter (fun m => m.1 = i)).length
      = (((matchesTable eng txns evf txnId).filter
          (fun m => m.1 = i)).map (fun r => r.2.1)).length := (List.length_map _ _).symm
    _ = _ := hperm.length_eq

theorem setAssoc_fresh {α : Type} (l : List (String × α)) (k : String) (v : α)
    (h : k ∉ l.map Prod.fst) : setAssoc l k v = l ++ [(k, v)] := by
  induction l with
  | nil => rfl
  | cons p rest ih =>
    obtain ⟨k1, v1⟩ := p
    simp only [List.map_cons, List.mem_cons] at h
    push_neg at h
    simp only [setAssoc]
    rw [if_neg (fun he => h.1 he.symm), ih h.2]
    rfl

theorem foldl_setAssoc_map (cnt : CachedRule → Nat) :
    ∀ (rules : List CachedRule) (acc : List (String × Nat)),
      (rules.map CachedRule.name).Nodup →
      (∀ r ∈ rules, r.name ∉ acc.map Prod.fst) →
      rules.foldl (fun a r => setAssoc a r.name (cnt r)) acc =
        acc ++ rules.map (fun r => (r.name, cnt r)) := by
  intro rules
  induction rules with
  | nil =>
    intro acc _ _
    simp
  | cons r rest ih =>
    intro acc hnd hfresh
    simp only [List.foldl_cons]
    rw [setAssoc_fresh acc r.name (cnt r) (hfresh r (List.mem_cons_self r rest))]
    rw [ih (acc ++ [(r.name, cnt r)]) (List.nodup_cons.mp hnd).2 ?_]
    · simp
    · intro r1 hr1
      simp only [List.map_append, List.mem_append, List.map_cons, List.map_nil,
        List.mem_cons, List.not_mem_nil, or_false]
      push_neg
      refine ⟨hfresh r1 (List.mem_cons_of_mem r hr1), ?_⟩
      intro he
      exact (List.nodup_cons.mp hnd).1 (he ▸ List.mem_map.mpr ⟨r1, hr1, rfl⟩)

theorem find_map_name (cnt : CachedRule → Nat) :
    ∀ (rules : List CachedRule) (r0 : CachedRule),
      (rules.map CachedRule.name).Nodup → r0 ∈ rules →
      (rules.map (fun r => (r.name, cnt r))).find? (fun p => p.1 = r0.name) =
        some (r0.name, cnt r0) := by
  intro rules
  induction rules with
  | nil =>
    intro r0 _ h
    simp at h
  | cons r rest ih =>
    intro r0 hnd hmem
    rcases List.mem_cons.mp hmem with rfl | hmem1
    · simp [List.find?_cons]
    · have hne : r.name ≠ r0.name := by
        intro he
        exact (List.nodup_cons.mp hnd).1 (he ▸ List.mem_map.mpr ⟨r0, hmem1, rfl⟩)
      simp only [List.map_cons, List.find?_cons]
      have hd : (decide (r.name = r0.name)) = false := by simpa using hne
      rw [hd]
      exact ih r0 (List.nodup_cons.mp hnd).2 hmem1

theorem length_cacheRules (rs : List MerchantRule) :
    (cacheRules rs).length = rs.length := by
  simp [cacheRules]

theorem get_cacheRules (rs : List MerchantRule) (j : Nat)
    (h1 : j < (cacheRules rs).length) (h2 : j < rs.length) :
    (cacheRules rs).get ⟨j, h1⟩ = insertRuleRow j (rs.get ⟨j, h2⟩) := by
  simp [cacheRules, List.get_eq_getElem, List.getElem_zipWith]

theorem map_name_cacheRules (rs : List MerchantRule) :
    (cacheRules rs).map CachedRule.name = rs.map MerchantRule.name := by
  refine List.ext_getElem (by simp [cacheRules]) ?_
  intro j h1 h2
  simp [cacheRules, List.getElem_zipWith, insertRuleRow]

theorem getUnusedRules_spec {τ : Type} (eng : MerchantEngine) (txns : List τ)
    (evf : τ → EvalFn) (txnId : τ → String) :
    getUnusedRules (cacheRules eng.rules) (matchesTable eng txns evf txnId) =
      ((cacheRules eng.rules).filter (fun r =>
        txns.all (fun t =>
          r.position ∉ (engineMatch (evf t) eng).allMatchingRules))).map rowToRule := by
  unfold getUnusedRules
  congr 1
  refine List.filter_congr ?_
  intro r hr
  rw [Bool.eq_iff_iff]
  simp only [List.all_eq_true, decide_eq_true_eq]
  constructor
  · intro h t ht hmem
    obtain ⟨m, hmD, hkey⟩ := dedupAux_covers
      (fun x : Nat × String × String => (x.1, x.2.1)) []
      (matchRows eng txns evf txnId)
      (r.position, txnId t,
        if ((eng.rules.get? r.position).map MerchantRule.isCategorizationRule).getD false
        then "category" else "tag_only")
      (by
        simp only [matchRows, List.mem_flatMap, List.mem_map]
        exact ⟨t, ht, r.position, hmem, rfl⟩)
      (by simp)
    have hk1 : m.1 = r.position := congrArg Prod.fst hkey
    exact h m hmD hk1
  · intro h m hm he
    have hmr : m ∈ matchRows eng txns evf txnId :=
      mem_dedupAux (fun x : Nat × String × String => (x.1, x.2.1)) []
        (matchRows eng txns evf txnId) m hm
    obtain ⟨t, ht, _, hjm⟩ := mem_matchRows_key.mp ⟨m, hmr, he, rfl⟩
    exact h t ht hjm

/-- C8. After `rebuild` over an engine and a batch of transactions (the
`matches` table deduplicated on its `(rule_id, txn_id)` primary key), and
with rule names unique as the spec requires of display keys:
`get_match_counts` maps each rule's name to the number of distinct
transaction ids for which that rule appears in `all_matching_rules`, and
`get_unused_rules` returns exactly the cached rules with no such match, in
original file (position) order. -/
theorem match_counts_and_unused_rules {τ : Type} (eng : MerchantEngine)
    (txns : List τ) (evf : τ → EvalFn) (txnId : τ → String)
    (hn : (eng.rules.map MerchantRule.name).Nodup)
    (i : Nat) (hi : i < eng.rules.length) :
    lookupAssoc (getMatchCounts (cacheRules eng.rules) (matchesTable eng txns evf txnId))
        ((eng.rules.get ⟨i, hi⟩).name) =
      some (((txns.filter (fun t =>
          i ∈ (engineMatch (evf t) eng).allMatchingRules)).map txnId).dedup.length) ∧
    getUnusedRules (cacheRules eng.rules) (matchesTable eng txns evf txnId) =
      ((cacheRules eng.rules).filter (fun r =>
        txns.all (fun t =>
          r.position ∉ (engineMatch (evf t) eng).allMatchingRules))).map rowToRule := by
  have hnd : ((cacheRules eng.rules).map CachedRule.name).Nodup := by
    rw [map_name_cacheRules]
    exact hn
  refine ⟨?_, getUnusedRules_spec eng txns evf txnId⟩
  have hi1 : i < (cacheRules eng.rules).length := by
    rw [length_cacheRules]
    exact hi
  have hr0 : (cacheRules eng.rules).get ⟨i, hi1⟩ =
      insertRuleRow i (eng.rules.get ⟨i, hi⟩) := get_cacheRules eng.rules i hi1 hi
  have hgmc : getMatchCounts (cacheRules eng.rules) (matchesTable eng txns evf txnId) =
      (cacheRules eng.rules).map (fun r =>
        (r.name, ((matchesTable eng txns evf txnId).filter
          (fun m => m.1 = r.position)).length)) := by
    have := foldl_setAssoc_map (fun r =>
        ((matchesTable eng txns evf txnId).filter (fun m => m.1 = r.position)).length)
      (cacheRules eng.rules) [] hnd (by simp)
    simpa [getMatchCounts] using this
  rw [hgmc]
  unfold lookupAssoc
  have hfind := find_map_name (fun r =>
      ((matchesTable eng txns evf txnId).filter (fun m => m.1 = r.position)).length)
    (cacheRules eng.rules) ((cacheRules eng.rules).get ⟨i, hi1⟩) hnd
    (List.get_mem (cacheRules eng.rules) i hi1)
  rw [hr0] at hfind
  beta_reduce at hfind
  have hname : (insertRuleRow i (eng.rules.get ⟨i, hi⟩)).name =
      (eng.rules.get ⟨i, hi⟩).name := rfl
  have hpos : (insertRuleRow i (eng.rules.get ⟨i, hi⟩)).position = i := rfl
  rw [hname, hpos] at hfind
  rw [hfind]
  rw [← matchesTable_count eng txns evf txnId i]
  rfl

theorem match_counts_and_unused_rules_witness :
    (engC3F.rules.map MerchantRule.name).Nodup ∧
      (lookupAssoc (getMatchCounts (cacheRules engC3F.rules)
          (matchesTable engC3F ["x", "y"] (fun _ => evalTrue) (fun s => s)))
          ((engC3F.rules.get ⟨0, by decide⟩).name) =
        some (((["x", "y"].filter (fun t =>
            0 ∈ (engineMatch ((fun (_ : String) => evalTrue) t) engC3F).allMatchingRules)).map
            (fun s => s)).dedup.length) ∧
      getUnusedRules (cacheRules engC3F.rules)
          (matchesTable engC3F ["x", "y"] (fun _ => evalTrue) (fun s => s)) =
        ((cacheRules engC3F.rules).filter (fun r =>
          ["x", "y"].all (fun t =>
            r.position ∉ (engineMatch ((fun (_ : String) => evalTrue) t) engC3F).allMatchingRules))).map
          rowToRule) :=
  ⟨by decide, match_counts_and_unused_rules engC3F ["x", "y"] (fun _ => evalTrue)
    (fun s => s) (by decide) 0 (by decide)⟩

/-! ## Claim C6: cache round trip — behavioural congruence -/

/-- Rules that agree on every field the matcher reads, except that the tag
list may be reordered (and the line number, which the matcher never reads,
may differ). -/
def ruleBeh (r r2 : MerchantRule) : Prop :=
  r2.name = r.name ∧ r2.matchExpr = r.matchExpr ∧ r2.category = r.category ∧
    r2.subcategory = r.subcategory ∧ r2.merchant = r.merchant ∧
    r2.priority = r.priority ∧ r2.letBindings = r.letBindings ∧
    r2.fields = r.fields ∧ r2.transform = r.transform ∧
    (∀ t, t ∈ r2.tags ↔ t ∈ r.tags)

/-- Matching entries related pointwise: same index and scope, related rules. -/
def entBeh (e e2 : Nat × MerchantRule × Scope) : Prop :=
  e2.1 = e.1 ∧ ruleBeh e.2.1 e2.2.1 ∧ e2.2.2 = e.2.2

/-- Tag states with the same rule list and the same tag set. -/
def stRel (st st2 : TagState) : Prop :=
  st2.tagRules = st.tagRules ∧ (∀ t, t ∈ st2.tags ↔ t ∈ st.tags)

/-- Match results equal on every observable except that the tag list is only
required to carry the same set of tags. -/
def resultRel (res res2 : MatchResult) : Prop :=
  res2.matched = res.matched ∧ res2.merchant = res.merchant ∧
    res2.category = res.category ∧ res2.subcategory = res.subcategory ∧
    res2.matchedRuleIdx = res.matchedRuleIdx ∧
    res2.merchantRuleIdx = res.merchantRuleIdx ∧
    res2.subcategoryRuleIdx = res.subcategoryRuleIdx ∧
    res2.allMatchingRules = res.allMatchingRules ∧
    res2.tagRules = res.tagRules ∧ res2.extraFields = res.extraFields ∧
    res2.transformDescription = res.transformDescription ∧
    (∀ t, t ∈ res2.tags ↔ t ∈ res.tags)

theorem isEmpty_eq_of_mem_iff {l l2 : List String} (h : ∀ t, t ∈ l2 ↔ t ∈ l) :
    l2.isEmpty = l.isEmpty := by
  cases l with
  | nil =>
    cases l2 with
    | nil => rfl
    | cons x xs => exact absurd ((h x).mp (List.mem_cons_self _ _)) (List.not_mem_nil x)
  | cons x xs =>
    cases l2 with
    | nil => exact absurd ((h x).mpr (List.mem_cons_self _ _)) (List.not_mem_nil x)
    | cons y ys => rfl

theorem ruleBeh_scope (ev : EvalFn) (g : Scope) {r r2 : MerchantRule}
    (h : ruleBeh r r2) : ruleScope ev g r2 = ruleScope ev g r := by
  unfold ruleScope
  rw [h.2.2.2.2.2.2.1]

theorem ruleBeh_matchQ (ev : EvalFn) (g : Scope) {r r2 : MerchantRule}
    (h : ruleBeh r r2) : ruleMatchQ ev g r2 = ruleMatchQ ev g r := by
  unfold ruleMatchQ
  rw [h.2.1, ruleBeh_scope ev g h]

theorem ruleBeh_spec {r r2 : MerchantRule} (h : ruleBeh r r2) :
    calculateSpecificity r2 = calculateSpecificity r := by
  unfold calculateSpecificity
  rw [h.2.1, h.2.2.2.2.2.1]

theorem ruleBeh_cat {r r2 : MerchantRule} (h : ruleBeh r r2) :
    r2.isCategorizationRule = r.isCategorizationRule := by
  unfold MerchantRule.isCategorizationRule
  rw [h.2.2.1]

theorem ruleBeh_hasMerchant {r r2 : MerchantRule} (h : ruleBeh r r2) :
    r2.hasMerchant = r.hasMerchant := by
  unfold MerchantRule.hasMerchant
  rw [h.2.2.2.2.1]

theorem ruleBeh_hasSub {r r2 : MerchantRule} (h : ruleBeh r r2) :
    r2.hasSubcategory = r.hasSubcategory := by
  unfold MerchantRule.hasSubcategory
  rw [h.2.2.2.1]

theorem ruleBeh_fieldsEval (ev : EvalFn) (sc : Scope) {r r2 : MerchantRule}
    (h : ruleBeh r r2) : evalFields ev r2 sc = evalFields ev r sc := by
  unfold evalFields
  rw [h.2.2.2.2.2.2.2.1]

theorem ruleBeh_transformEval (ev : EvalFn) (sc : Scope) {r r2 : MerchantRule}
    (h : ruleBeh r r2) : evalTransform ev r2 sc = evalTransform ev r sc := by
  unfold evalTransform
  rw [h.2.2.2.2.2.2.2.2.1]

theorem mem_resolveListItems_iff :
    ∀ (items : List Value) (acc : List String) (t : String),
    t ∈ resolveListItems acc items ↔ t ∈ acc ∨ t ∈ resolveListItems [] items := by
  intro items
  induction items with
  | nil =>
    intro acc t
    simp [resolveListItems]
  | cons item rest ih =>
    intro acc t
    have hstep : ∀ a : List String, resolveListItems a (item :: rest) =
        resolveListItems
          (if truthy item then addUniq a (pyLower (pyStrip (valueStr item))) else a)
          rest := fun a => rfl
    rw [hstep, hstep]
    by_cases ht : truthy item = true
    · rw [if_pos ht, if_pos ht]
      rw [ih (addUniq acc (pyLower (pyStrip (valueStr item)))) t,
        ih (addUniq [] (pyLower (pyStrip (valueStr item)))) t]
      simp only [mem_addUniq, List.not_mem_nil, false_or]
      tauto
    · rw [if_neg ht, if_neg ht]
      rw [ih acc t, ih [] t]

theorem mem_resolveDynValue_iff (v : Value) (acc : List String) (t : String) :
    t ∈ resolveDynValue acc v ↔ t ∈ acc ∨ t ∈ resolveDynValue [] v := by
  unfold resolveDynValue
  by_cases ht : truthy v = true
  · rw [if_pos ht, if_pos ht]
    cases v with
    | list items => exact mem_resolveListItems_iff items acc t
    | none => simp [truthy] at ht
    | bool b =>
      show (t ∈ if pyStrip (valueStr (Value.bool b)) = "" then acc
          else addUniq acc (pyLower (pyStrip (valueStr (Value.bool b))))) ↔
        t ∈ acc ∨ t ∈ (if pyStrip (valueStr (Value.bool b)) = "" then ([] : List String)
          else addUniq [] (pyLower (pyStrip (valueStr (Value.bool b)))))
      split_ifs with hs
      · simp
      · simp [mem_addUniq]
    | num q =>
      show (t ∈ if pyStrip (valueStr (Value.num q)) = "" then acc
          else addUniq acc (pyLower (pyStrip (valueStr (Value.num q))))) ↔
        t ∈ acc ∨ t ∈ (if pyStrip (valueStr (Value.num q)) = "" then ([] : List String)
          else addUniq [] (pyLower (pyStrip (valueStr (Value.num q)))))
      split_ifs with hs
      · simp
      · simp [mem_addUniq]
    | str z =>
      show (t ∈ if pyStrip (valueStr (Value.str z)) = "" then acc
          else addUniq acc (pyLower (pyStrip (valueStr (Value.str z))))) ↔
        t ∈ acc ∨ t ∈ (if pyStrip (valueStr (Value.str z)) = "" then ([] : List String)
          else addUniq [] (pyLower (pyStrip (valueStr (Value.str z)))))
      split_ifs with hs
      · simp
      · simp [mem_addUniq]
  · rw [if_neg ht, if_neg ht]
    simp

theorem mem_resolveTagStep_iff (ev : EvalFn) (sc : Scope) (acc : List String)
    (raw t : String) :
    t ∈ resolveTagStep ev sc acc raw ↔ t ∈ acc ∨ t ∈ resolveTagStep ev sc [] raw := by
  show (t ∈ (if pyStrip raw = "" then acc
      else if strStarts (pyStrip raw) lbrace ∧ strEnds (pyStrip raw) rbrace then
        (if pyStrip (innerSlice (pyStrip raw)) = "" then acc
         else match ev (pyStrip (innerSlice (pyStrip raw))) sc with
           | Option.none => acc
           | some v => resolveDynValue acc v)
      else addUniq acc (pyLower (pyStrip raw)))) ↔
    t ∈ acc ∨ (t ∈ (if pyStrip raw = "" then ([] : List String)
      else if strStarts (pyStrip raw) lbrace ∧ strEnds (pyStrip raw) rbrace then
        (if pyStrip (innerSlice (pyStrip raw)) = "" then ([] : List String)
         else match ev (pyStrip (innerSlice (pyStrip raw))) sc with
           | Option.none => ([] : List String)
           | some v => resolveDynValue [] v)
      else addUniq [] (pyLower (pyStrip raw))))
  split_ifs with h1 h2 h3
  · simp
  · simp
  · rcases hev : ev (pyStrip (innerSlice (pyStrip raw))) sc with _ | v
    · show t ∈ acc ↔ t ∈ acc ∨ t ∈ ([] : List String)
      simp
    · exact mem_resolveDynValue_iff v acc t
  · simp [mem_addUniq]

theorem mem_resolveTags_fold (ev : EvalFn) (sc : Scope) :
    ∀ (l : List String) (acc : List String) (t : String),
    t ∈ l.foldl (resolveTagStep ev sc) acc ↔
      t ∈ acc ∨ ∃ raw ∈ l, t ∈ resolveTagStep ev sc [] raw := by
  intro l
  induction l with
  | nil =>
    intro acc t
    simp
  | cons raw rest ih =>
    intro acc t
    rw [List.foldl_cons, ih]
    rw [mem_resolveTagStep_iff]
    constructor
    · rintro ((ha | hr) | ⟨w, hw, hs⟩)
      · exact Or.inl ha
      · exact Or.inr ⟨raw, List.mem_cons_self _ _, hr⟩
      · exact Or.inr ⟨w, List.mem_cons_of_mem _ hw, hs⟩
    · rintro (ha | ⟨w, hw, hs⟩)
      · exact Or.inl (Or.inl ha)
      · rcases List.mem_cons.mp hw with rfl | hw2
        · exact Or.inl (Or.inr hs)
        · exact Or.inr ⟨w, hw2, hs⟩

theorem ruleBeh_resolveTags (ev : EvalFn) (sc : Scope) {r r2 : MerchantRule}
    (h : ruleBeh r r2) (t : String) :
    t ∈ resolveTags ev r2 sc ↔ t ∈ resolveTags ev r sc := by
  unfold resolveTags
  rw [mem_resolveTags_fold, mem_resolveTags_fold]
  simp only [List.not_mem_nil, false_or]
  constructor
  · rintro ⟨raw, hr, hs⟩
    exact ⟨raw, (h.2.2.2.2.2.2.2.2.2 raw).mp hr, hs⟩
  · rintro ⟨raw, hr, hs⟩
    exact ⟨raw, (h.2.2.2.2.2.2.2.2.2 raw).mpr hr, hs⟩

theorem mea_beh (ev : EvalFn) (g : Scope) :
    ∀ {rules rules2 : List MerchantRule}, List.Forall₂ ruleBeh rules rules2 →
    ∀ i, List.Forall₂ entBeh (matchingEntriesAux ev g i rules)
      (matchingEntriesAux ev g i rules2) := by
  intro rules rules2 h
  induction h with
  | nil =>
    intro i
    exact List.Forall₂.nil
  | cons hr hrest ih =>
    rename_i r r2 rest rest2
    intro i
    simp only [matchingEntriesAux]
    rw [ruleBeh_matchQ ev g hr]
    rcases hq : ruleMatchQ ev g r with _ | b
    · exact ih (i + 1)
    · cases b
      · exact ih (i + 1)
      · exact List.Forall₂.cons ⟨rfl, hr, ruleBeh_scope ev g hr⟩ (ih (i + 1))

theorem addResolved_tagRules (rname rexpr : String) :
    ∀ (resolved : List String) (st : TagState),
    (addResolved st resolved rname rexpr).tagRules = st.tagRules := by
  intro resolved
  induction resolved with
  | nil =>
    intro st
    rfl
  | cons x rest ih =>
    intro st
    have hstep : ∀ s : TagState, addResolved s (x :: rest) rname rexpr =
        addResolved (if x ∈ s.tags then s
          else { s with tags := s.tags ++ [x], sources := s.sources ++ [(x, rname, rexpr)] })
          rest rname rexpr := fun s => rfl
    rw [hstep, ih]
    split_ifs <;> rfl

theorem tagPass_fold_beh (ev : EvalFn) :
    ∀ {ms ms2 : List (Nat × MerchantRule × Scope)}, List.Forall₂ entBeh ms ms2 →
    ∀ (st st2 : TagState), stRel st st2 →
    stRel (ms.foldl (fun st e =>
        if e.2.1.isCategorizationRule then st
        else
          let st1 := addResolved st (resolveTags ev e.2.1 e.2.2) e.2.1.name e.2.1.matchExpr
          { st1 with tagRules := st1.tagRules ++ [e.1] }) st)
      (ms2.foldl (fun st e =>
        if e.2.1.isCategorizationRule then st
        else
          let st1 := addResolved st (resolveTags ev e.2.1 e.2.2) e.2.1.name e.2.1.matchExpr
          { st1 with tagRules := st1.tagRules ++ [e.1] }) st2) := by
  intro ms ms2 h
  induction h with
  | nil =>
    intro st st2 hst
    exact hst
  | cons he hrest ih =>
    rename_i e e2 rest rest2
    intro st st2 hst
    rw [List.foldl_cons, List.foldl_cons]
    rw [ruleBeh_cat he.2.1]
    by_cases hc : e.2.1.isCategorizationRule = true
    · rw [if_pos hc, if_pos hc]
      exact ih st st2 hst
    · rw [if_neg hc, if_neg hc]
      refine ih _ _ ⟨?_, ?_⟩
      · simp only [addResolved_tagRules, hst.1, he.1]
      · intro t
        simp only [mem_addResolved]
        rw [he.2.2, ruleBeh_resolveTags ev e.2.2 he.2.1 t]
        exact or_congr (hst.2 t) Iff.rfl

theorem tagPass_beh (ev : EvalFn) {ms ms2 : List (Nat × MerchantRule × Scope)}
    (h : List.Forall₂ entBeh ms ms2) : stRel (tagPass ev ms) (tagPass ev ms2) :=
  tagPass_fold_beh ev h {} {} ⟨rfl, fun _ => Iff.rfl⟩

theorem find_cat_beh : ∀ {ms ms2 : List (Nat × MerchantRule × Scope)},
    List.Forall₂ entBeh ms ms2 →
    (ms.find? (fun e => e.2.1.isCategorizationRule) = Option.none ∧
      ms2.find? (fun e => e.2.1.isCategorizationRule) = Option.none) ∨
    ∃ e e2, ms.find? (fun e => e.2.1.isCategorizationRule) = some e ∧
      ms2.find? (fun e => e.2.1.isCategorizationRule) = some e2 ∧ entBeh e e2 := by
  intro ms ms2 h
  induction h with
  | nil =>
    left
    exact ⟨rfl, rfl⟩
  | cons he hrest ih =>
    rename_i e e2 rest rest2
    have hcat : e2.2.1.isCategorizationRule = e.2.1.isCategorizationRule :=
      ruleBeh_cat he.2.1
    by_cases hc : e.2.1.isCategorizationRule
    · right
      exact ⟨e, e2, List.find?_cons_of_pos _ (by simpa using hc),
        List.find?_cons_of_pos _ (by simp [hcat, hc]), he⟩
    · rw [List.find?_cons_of_neg _ (by simpa using hc),
        List.find?_cons_of_neg _ (by simp [hcat, hc])]
      exact ih

theorem forall2_filter {α : Type} {R : α → α → Prop} {p : α → Bool}
    (hp : ∀ a b, R a b → p b = p a) :
    ∀ {l l2 : List α}, List.Forall₂ R l l2 →
    List.Forall₂ R (l.filter p) (l2.filter p) := by
  intro l l2 h
  induction h with
  | nil => exact List.Forall₂.nil
  | cons hab hrest ih =>
    rename_i a b rest rest2
    rw [List.filter_cons, List.filter_cons, hp a b hab]
    by_cases hpa : p a
    · simp only [hpa, if_true]
      exact List.Forall₂.cons hab ih
    · simp only [hpa, if_false]
      exact ih

theorem foldl_max_beh {α : Type} {R : α → α → Prop} {f : α → Spec}
    (hf : ∀ a b, R a b → f b = f a) :
    ∀ {l l2 : List α}, List.Forall₂ R l l2 → ∀ {a b : α}, R a b →
    R (l.foldl (fun acc y => if specGt (f y) (f acc) then y else acc) a)
      (l2.foldl (fun acc y => if specGt (f y) (f acc) then y else acc) b) := by
  intro l l2 h
  induction h with
  | nil =>
    intro a b hab
    exact hab
  | cons hxy hrest ih =>
    rename_i x y rest rest2
    intro a b hab
    rw [List.foldl_cons, List.foldl_cons, hf x y hxy, hf a b hab]
    by_cases hgt : specGt (f x) (f a)
    · simp only [hgt, if_true]
      exact ih hxy
    · simp only [hgt, if_false]
      exact ih hab

theorem maxByFirst_beh {α : Type} {R : α → α → Prop} {f : α → Spec}
    (hf : ∀ a b, R a b → f b = f a) {l l2 : List α} (h : List.Forall₂ R l l2) :
    (maxByFirst f l = Option.none ∧ maxByFirst f l2 = Option.none) ∨
    ∃ a b, maxByFirst f l = some a ∧ maxByFirst f l2 = some b ∧ R a b := by
  cases h with
  | nil =>
    left
    exact ⟨rfl, rfl⟩
  | cons hab hrest =>
    right
    exact ⟨_, _, rfl, rfl, foldl_max_beh hf hrest hab⟩

theorem acw_allMatching (ev : EvalFn) (st : TagState) (i : Nat) (r : MerchantRule)
    (sc : Scope) (res : MatchResult) :
    (applyCategoryWinner ev st i r sc res).allMatchingRules = res.allMatchingRules := by
  simp only [applyCategoryWinner]
  split_ifs <;> rfl

theorem acw_tagRules (ev : EvalFn) (st : TagState) (i : Nat) (r : MerchantRule)
    (sc : Scope) (res : MatchResult) :
    (applyCategoryWinner ev st i r sc res).tagRules =
      (if ¬ r.tags.isEmpty then res.tagRules ++ [i] else res.tagRules) := by
  simp only [applyCategoryWinner]
  split_ifs <;> rfl

theorem acw_beh (ev : EvalFn) {st st2 : TagState} {i : Nat} {r r2 : MerchantRule}
    {sc : Scope} {res res2 : MatchResult}
    (hst : stRel st st2) (hr : ruleBeh r r2) (hres : resultRel res res2) :
    resultRel (applyCategoryWinner ev st i r sc res)
      (applyCategoryWinner ev st2 i r2 sc res2) := by
  have htags : r2.tags.isEmpty = r.tags.isEmpty :=
    isEmpty_eq_of_mem_iff hr.2.2.2.2.2.2.2.2.2
  have hfields : r2.fields = r.fields := hr.2.2.2.2.2.2.2.1
  have htr : r2.transform = r.transform := hr.2.2.2.2.2.2.2.2.1
  refine ⟨?_, ?_, ?_, ?_, ?_, ?_, ?_, ?_, ?_, ?_, ?_, ?_⟩
  · rw [acw_matched, acw_matched]
  · rw [acw_merchant, acw_merchant]
    exact hres.2.1
  · rw [acw_category, acw_category]
    exact hr.2.2.1
  · rw [acw_subcategory, acw_subcategory]
    exact hres.2.2.2.1
  · rw [acw_matchedIdx, acw_matchedIdx]
  · rw [acw_merchantIdx, acw_merchantIdx]
    exact hres.2.2.2.2.2.1
  · rw [acw_subcategoryIdx, acw_subcategoryIdx]
    exact hres.2.2.2.2.2.2.1
  · rw [acw_allMatching, acw_allMatching]
    exact hres.2.2.2.2.2.2.2.1
  · rw [acw_tagRules, acw_tagRules, htags, hres.2.2.2.2.2.2.2.2.1]
  · rw [acw_extraFields, acw_extraFields, hfields,
      ruleBeh_fieldsEval ev sc hr, hres.2.2.2.2.2.2.2.2.2.1]
  · rw [acw_transformDesc, acw_transformDesc, htr,
      ruleBeh_transformEval ev sc hr, hres.2.2.2.2.2.2.2.2.2.2.1]
  · intro t
    rw [acw_tags, acw_tags, htags]
    by_cases he : r.tags.isEmpty = true
    · rw [if_neg (by simp [he]), if_neg (by simp [he])]
      exact hst.2 t
    · rw [if_pos (by simp [he]), if_pos (by simp [he])]
      rw [mem_addResolved, mem_addResolved]
      exact or_congr (hst.2 t) (ruleBeh_resolveTags ev sc hr t)

theorem fmr_beh (ev : EvalFn) {ms ms2 : List (Nat × MerchantRule × Scope)}
    {st st2 : TagState} {base base2 : MatchResult}
    (h : List.Forall₂ entBeh ms ms2) (hst : stRel st st2)
    (hb : resultRel base base2) :
    resultRel (firstMatchResolve ev ms st base)
      (firstMatchResolve ev ms2 st2 base2) := by
  rcases find_cat_beh h with ⟨h1, h2⟩ | ⟨e, e2, h1, h2, he⟩
  · unfold firstMatchResolve
    rw [h1, h2]
    exact hb
  · obtain ⟨i, r, sc⟩ := e
    obtain ⟨i2, r2, sc2⟩ := e2
    have hii : i2 = i := he.1
    have hss : sc2 = sc := he.2.2
    have hrr : ruleBeh r r2 := he.2.1
    unfold firstMatchResolve
    simp only [h1, h2]
    rw [hii, hss, hrr.2.2.2.2.1, hrr.2.2.2.1]
    have hb1 : resultRel { base with merchant := r.merchant, merchantRuleIdx := some i }
        { base2 with merchant := r.merchant, merchantRuleIdx := some i } :=
      ⟨hb.1, rfl, hb.2.2.1, hb.2.2.2.1, hb.2.2.2.2.1, rfl, hb.2.2.2.2.2.2.1,
        hb.2.2.2.2.2.2.2.1, hb.2.2.2.2.2.2.2.2.1, hb.2.2.2.2.2.2.2.2.2.1,
        hb.2.2.2.2.2.2.2.2.2.2.1, hb.2.2.2.2.2.2.2.2.2.2.2⟩
    by_cases hsub : r.subcategory ≠ ""
    · rw [if_pos hsub, if_pos hsub]
      refine acw_beh ev hst hrr ?_
      exact ⟨hb1.1, hb1.2.1, hb1.2.2.1, rfl, hb1.2.2.2.2.1, hb1.2.2.2.2.2.1, rfl,
        hb1.2.2.2.2.2.2.2.1, hb1.2.2.2.2.2.2.2.2.1, hb1.2.2.2.2.2.2.2.2.2.1,
        hb1.2.2.2.2.2.2.2.2.2.2.1, hb1.2.2.2.2.2.2.2.2.2.2.2⟩
    · rw [if_neg hsub, if_neg hsub]
      exact acw_beh ev hst hrr hb1

theorem entBeh_spec : ∀ (a b : Nat × MerchantRule × Scope), entBeh a b →
    calculateSpecificity b.2.1 = calculateSpecificity a.2.1 :=
  fun _ _ h => ruleBeh_spec h.2.1

theorem msr_beh (ev : EvalFn) {ms ms2 : List (Nat × MerchantRule × Scope)}
    {st st2 : TagState} {base base2 : MatchResult}
    (h : List.Forall₂ entBeh ms ms2) (hst : stRel st st2)
    (hb : resultRel base base2) :
    resultRel (mostSpecificResolve ev ms st base)
      (mostSpecificResolve ev ms2 st2 base2) := by
  have hemp : ms2.isEmpty = ms.isEmpty := by
    cases h <;> rfl
  unfold mostSpecificResolve
  rw [hemp]
  by_cases he : ms.isEmpty = true
  · rw [if_pos he, if_pos he]
    exact hb
  · rw [if_neg he, if_neg he]
    simp only
    have hmerch := maxByFirst_beh entBeh_spec
      (forall2_filter (p := fun e => e.2.1.hasMerchant)
        (fun a b hab => by exact ruleBeh_hasMerchant hab.2.1) h)
    have hcat := maxByFirst_beh entBeh_spec
      (forall2_filter (p := fun e => e.2.1.isCategorizationRule)
        (fun a b hab => by exact ruleBeh_cat hab.2.1) h)
    have hsubm := maxByFirst_beh entBeh_spec
      (forall2_filter (p := fun e => e.2.1.hasSubcategory)
        (fun a b hab => by exact ruleBeh_hasSub hab.2.1) h)
    have step1 : ∀ {r1 r1b : MatchResult}, resultRel r1 r1b →
        resultRel
          (match maxByFirst (fun e => calculateSpecificity e.2.1)
              (ms.filter (fun e => e.2.1.hasMerchant)) with
            | some w => { r1 with merchant := w.2.1.merchant, merchantRuleIdx := some w.1 }
            | Option.none => r1)
          (match maxByFirst (fun e => calculateSpecificity e.2.1)
              (ms2.filter (fun e => e.2.1.hasMerchant)) with
            | some w => { r1b with merchant := w.2.1.merchant, merchantRuleIdx := some w.1 }
            | Option.none => r1b) := by
      intro r1 r1b hr1
      rcases hmerch with ⟨hm1, hm2⟩ | ⟨w, w2, hm1, hm2, hw⟩
      · simp only [hm1, hm2]
        exact hr1
      · simp only [hm1, hm2]
        rw [hw.2.1.2.2.2.2.1, hw.1]
        exact ⟨hr1.1, rfl, hr1.2.2.1, hr1.2.2.2.1, hr1.2.2.2.2.1, rfl,
          hr1.2.2.2.2.2.2.1, hr1.2.2.2.2.2.2.2.1, hr1.2.2.2.2.2.2.2.2.1,
          hr1.2.2.2.2.2.2.2.2.2.1, hr1.2.2.2.2.2.2.2.2.2.2.1,
          hr1.2.2.2.2.2.2.2.2.2.2.2⟩
    have step2 : ∀ {r1 r1b : MatchResult}, resultRel r1 r1b →
        resultRel
          (match maxByFirst (fun e => calculateSpecificity e.2.1)
              (ms.filter (fun e => e.2.1.isCategorizationRule)) with
            | some w => applyCategoryWinner ev st w.1 w.2.1 w.2.2 r1
            | Option.none => r1)
          (match maxByFirst (fun e => calculateSpecificity e.2.1)
              (ms2.filter (fun e => e.2.1.isCategorizationRule)) with
            | some w => applyCategoryWinner ev st2 w.1 w.2.1 w.2.2 r1b
            | Option.none => r1b) := by
      intro r1 r1b hr1
      rcases hcat with ⟨hc1, hc2⟩ | ⟨v, v2, hc1, hc2, hv⟩
      · simp only [hc1, hc2]
        exact hr1
      · simp only [hc1, hc2]
        rw [hv.1, hv.2.2]
        exact acw_beh ev hst hv.2.1 hr1
    have step3 : ∀ {r1 r1b : MatchResult}, resultRel r1 r1b →
        resultRel
          (match maxByFirst (fun e => calculateSpecificity e.2.1)
              (ms.filter (fun e => e.2.1.hasSubcategory)) with
            | some w => { r1 with subcategory := w.2.1.subcategory, subcategoryRuleIdx := some w.1 }
            | Option.none => r1)
          (match maxByFirst (fun e => calculateSpecificity e.2.1)
              (ms2.filter (fun e => e.2.1.hasSubcategory)) with
            | some w => { r1b with subcategory := w.2.1.subcategory, subcategoryRuleIdx := some w.1 }
            | Option.none => r1b) := by
      intro r1 r1b hr1
      rcases hsubm with ⟨hs1, hs2⟩ | ⟨u, u2, hs1, hs2, hu⟩
      · simp only [hs1, hs2]
        exact hr1
      · simp only [hs1, hs2]
        rw [hu.2.1.2.2.2.1, hu.1]
        exact ⟨hr1.1, hr1.2.1, hr1.2.2.1, rfl, hr1.2.2.2.2.1, hr1.2.2.2.2.2.1, rfl,
          hr1.2.2.2.2.2.2.2.1, hr1.2.2.2.2.2.2.2.2.1, hr1.2.2.2.2.2.2.2.2.2.1,
          hr1.2.2.2.2.2.2.2.2.2.2.1, hr1.2.2.2.2.2.2.2.2.2.2.2⟩
    exact step3 (step2 (step1 hb))

theorem map_fst_beh : ∀ {ms ms2 : List (Nat × MerchantRule × Scope)},
    List.Forall₂ entBeh ms ms2 →
    ms2.map (fun e => e.1) = ms.map (fun e => e.1) := by
  intro ms ms2 h
  induction h with
  | nil => rfl
  | cons he hrest ih =>
    simp only [List.map_cons, ih, he.1]

/-- Engines related pointwise by behavioural rule equivalence. -/
def engBeh (eng eng2 : MerchantEngine) : Prop :=
  eng2.fileVars = eng.fileVars ∧ eng2.matchMode = eng.matchMode ∧
    List.Forall₂ ruleBeh eng.rules eng2.rules

theorem engineMatch_beh (ev : EvalFn) {eng eng2 : MerchantEngine}
    (h : engBeh eng eng2) :
    resultRel (engineMatch ev eng) (engineMatch ev eng2) := by
  have hg : engineGlobals ev eng2 = engineGlobals ev eng := by
    unfold engineGlobals
    rw [h.1]
  have hms : List.Forall₂ entBeh (engineEntries ev eng) (engineEntries ev eng2) := by
    unfold engineEntries matchingEntries
    rw [hg]
    exact mea_beh ev (engineGlobals ev eng) h.2.2 0
  have hst : stRel (tagPass ev (engineEntries ev eng))
      (tagPass ev (engineEntries ev eng2)) := tagPass_beh ev hms
  have hbase : resultRel (engineBase ev eng) (engineBase ev eng2) := by
    refine ⟨rfl, rfl, rfl, rfl, rfl, rfl, rfl, ?_, ?_, rfl, rfl, ?_⟩
    · exact map_fst_beh hms
    · exact hst.1
    · exact hst.2
  by_cases hmode : eng.matchMode = "first_match"
  · rw [engineMatch_first ev eng hmode,
      engineMatch_first ev eng2 (by rw [h.2.1]; exact hmode)]
    exact fmr_beh ev hms hst hbase
  · rw [engineMatch_most ev eng hmode,
      engineMatch_most ev eng2 (by rw [h.2.1]; exact hmode)]
    exact msr_beh ev hms hst hbase

/-! ### C6 parse side: line-splitting of the regenerated file -/

/-- No newline character occurs in the string. -/
def noNL (s : String) : Bool := ¬ hasChar s (Char.ofNat 10)

/-- The first character exists and is not whitespace. -/
def startNonWS (s : String) : Prop :=
  match s.data with
  | [] => False
  | c :: _ => isPyWS c = false

/-- The last character exists and is not whitespace. -/
def endsNonWS (s : String) : Prop :=
  match s.data.reverse with
  | [] => False
  | c :: _ => isPyWS c = false

theorem splitOnChar_ne_nil (c : Char) : ∀ (l : List Char), splitOnChar c l ≠ [] := by
  intro l
  induction l with
  | nil => simp [splitOnChar]
  | cons x rest ih =>
    simp only [splitOnChar]
    rcases hs : splitOnChar c rest with _ | ⟨cur, more⟩
    · simp
    · split_ifs <;> simp

theorem splitOnChar_no_sep (c : Char) :
    ∀ (l : List Char), c ∉ l → splitOnChar c l = [l] := by
  intro l
  induction l with
  | nil => intro _; rfl
  | cons x rest ih =>
    intro h
    simp only [List.mem_cons] at h
    push_neg at h
    simp only [splitOnChar, ih h.2]
    rw [if_neg (fun he => h.1 he.symm)]

theorem splitOnChar_sep_append (c : Char) :
    ∀ (xs ys : List Char), c ∉ xs →
    splitOnChar c (xs ++ c :: ys) = xs :: splitOnChar c ys := by
  intro xs
  induction xs with
  | nil =>
    intro ys _
    simp only [List.nil_append, splitOnChar]
    rcases hs : splitOnChar c ys with _ | ⟨cur, more⟩
    · exact absurd hs (splitOnChar_ne_nil c ys)
    · simp
  | cons x rest ih =>
    intro ys h
    simp only [List.mem_cons] at h
    push_neg at h
    have hne : ¬ x = c := fun he => h.1 he.symm
    have hstep : splitOnChar c ((x :: rest) ++ c :: ys) =
        match splitOnChar c (rest ++ c :: ys) with
        | [] => [[]]
        | cur :: more => if x = c then [] :: cur :: more else (x :: cur) :: more := rfl
    rw [hstep, ih ys h.2]
    show (if x = c then [] :: rest :: splitOnChar c ys
      else (x :: rest) :: splitOnChar c ys) = (x :: rest) :: splitOnChar c ys
    rw [if_neg hne]

theorem splitOnChar_trailing (c : Char) :
    ∀ (xs : List Char), splitOnChar c (xs ++ [c]) = splitOnChar c xs ++ [[]] := by
  intro xs
  induction xs with
  | nil => simp [splitOnChar]
  | cons x rest ih =>
    have hstep : splitOnChar c ((x :: rest) ++ [c]) =
        match splitOnChar c (rest ++ [c]) with
        | [] => [[]]
        | cur :: more => if x = c then [] :: cur :: more else (x :: cur) :: more := rfl
    have hstep2 : splitOnChar c (x :: rest) =
        match splitOnChar c rest with
        | [] => [[]]
        | cur :: more => if x = c then [] :: cur :: more else (x :: cur) :: more := rfl
    rw [hstep, ih, hstep2]
    rcases hs : splitOnChar c rest with _ | ⟨cur, more⟩
    · exact absurd hs (splitOnChar_ne_nil c rest)
    · show (if x = c then [] :: cur :: (more ++ [[]]) else (x :: cur) :: (more ++ [[]])) =
        (if x = c then [] :: cur :: more else (x :: cur) :: more) ++ [[]]
      split_ifs <;> simp

theorem strAppend_data (a b : String) : (a ++ b).data = a.data ++ b.data := rfl

theorem strAppend_assoc (a b c : String) : a ++ b ++ c = a ++ (b ++ c) := by
  show (⟨(a.data ++ b.data) ++ c.data⟩ : String) = ⟨a.data ++ (b.data ++ c.data)⟩
  rw [List.append_assoc]

theorem joinWith_cons (sep : String) (l : String) (ls : List String) (h : ls ≠ []) :
    joinWith sep (l :: ls) = l ++ sep ++ joinWith sep ls := by
  cases ls with
  | nil => exact absurd rfl h
  | cons y ys => rfl

theorem endsNonWS_append (a b : String) (h : endsNonWS b) : endsNonWS (a ++ b) := by
  unfold endsNonWS at h ⊢
  rw [strAppend_data, List.reverse_append]
  rcases hb : b.data.reverse with _ | ⟨c, t⟩
  · rw [hb] at h
    exact absurd h (by simp)
  · rw [hb] at h
    simpa using h

theorem startNonWS_append (a b : String) (h : startNonWS a) : startNonWS (a ++ b) := by
  unfold startNonWS at h ⊢
  rw [strAppend_data]
  rcases ha : a.data with _ | ⟨c, t⟩
  · rw [ha] at h
    exact absurd h (by simp)
  · rw [ha] at h
    simpa using h

theorem endsNonWS_joinWith (sep : String) :
    ∀ (ls : List String), ls ≠ [] → (∀ l ∈ ls, endsNonWS l) →
    endsNonWS (joinWith sep ls) := by
  intro ls
  induction ls with
  | nil => intro h; exact absurd rfl h
  | cons l rest ih =>
    intro _ hall
    cases rest with
    | nil => exact hall l (List.mem_cons_self _ _)
    | cons y ys =>
      rw [joinWith_cons sep l (y :: ys) (by simp)]
      exact endsNonWS_append (l ++ sep) (joinWith sep (y :: ys))
        (ih (by simp) (fun z hz => hall z (List.mem_cons_of_mem l hz)))

theorem rstrip_id (s : String) (h : endsNonWS s) :
    (⟨(s.data.reverse.dropWhile isPyWS).reverse⟩ : String) = s := by
  unfold endsNonWS at h
  rcases hs : s.data.reverse with _ | ⟨c, t⟩
  · rw [hs] at h
    exact (h : False).elim
  · rw [hs] at h
    have hc : isPyWS c = false := h
    have hsd : s.data = (c :: t).reverse := by rw [← hs, List.reverse_reverse]
    rw [List.dropWhile_cons, if_neg (by simp [hc]), ← hsd]

theorem noNL_append (a b : String) (ha : noNL a) (hb : noNL b) : noNL (a ++ b) := by
  unfold noNL hasChar at ha hb ⊢
  rw [strAppend_data]
  simp only [List.elem_iff, List.mem_append, decide_eq_true_eq] at ha hb ⊢
  tauto

theorem noNL_joinWith (sep : String) (hsep : noNL sep) :
    ∀ (ls : List String), (∀ l ∈ ls, noNL l) → noNL (joinWith sep ls) := by
  intro ls
  induction ls with
  | nil =>
    intro _
    simp [noNL, hasChar, joinWith]
  | cons l rest ih =>
    intro hall
    cases rest with
    | nil => exact hall l (List.mem_cons_self _ _)
    | cons y ys =>
      rw [joinWith_cons sep l (y :: ys) (by simp)]
      exact noNL_append _ _ (noNL_append _ _ (hall l (List.mem_cons_self _ _)) hsep)
        (ih (fun z hz => hall z (List.mem_cons_of_mem l hz)))

theorem splitOnChar_joinWith :
    ∀ (ls : List String), ls ≠ [] → (∀ l ∈ ls, noNL l) →
    splitOnChar (Char.ofNat 10) (joinWith "\n" ls).data = ls.map String.data := by
  intro ls
  induction ls with
  | nil => intro h; exact absurd rfl h
  | cons l rest ih =>
    intro _ hall
    have hlnl : (Char.ofNat 10) ∉ l.data := by
      have := hall l (List.mem_cons_self _ _)
      unfold noNL hasChar at this
      simpa using this
    cases rest with
    | nil =>
      simp only [joinWith, List.map_cons, List.map_nil]
      exact splitOnChar_no_sep (Char.ofNat 10) l.data hlnl
    | cons y ys =>
      rw [joinWith_cons "\n" l (y :: ys) (by simp)]
      have hdata : (l ++ "\n" ++ joinWith "\n" (y :: ys)).data =
          l.data ++ (Char.ofNat 10) :: (joinWith "\n" (y :: ys)).data := by
        rw [strAppend_data, strAppend_data]
        simp [List.append_assoc]
      rw [hdata, splitOnChar_sep_append (Char.ofNat 10) l.data _ hlnl,
        ih (by simp) (fun z hz => hall z (List.mem_cons_of_mem l hz))]
      rfl

theorem mem_insertSorted (x t : String) :
    ∀ (l : List String), t ∈ insertSorted x l ↔ t = x ∨ t ∈ l := by
  intro l
  induction l with
  | nil => simp [insertSorted]
  | cons y ys ih =>
    simp only [insertSorted]
    split_ifs with hle
    · rw [List.mem_cons, ih, List.mem_cons]
      tauto
    · simp [List.mem_cons]

theorem foldl_insertSorted_mem (t : String) :
    ∀ (l acc : List String),
    t ∈ l.foldl (fun a x => insertSorted x a) acc ↔ t ∈ acc ∨ t ∈ l := by
  intro l
  induction l with
  | nil =>
    intro acc
    simp
  | cons x xs ih =>
    intro acc
    rw [List.foldl_cons, ih (insertSorted x acc), mem_insertSorted]
    simp [List.mem_cons]
    tauto

theorem mem_sortStrings {t : String} {l : List String} :
    t ∈ sortStrings l ↔ t ∈ l := by
  unfold sortStrings
  rw [foldl_insertSorted_mem]
  simp

/-- The lines `_format_cached_rule` produces for the cached row of `r`. -/
def ruleLines (r : MerchantRule) : List String :=
  ["[" ++ r.name ++ "]"] ++
  (if r.priority ≠ 50 then ["priority: " ++ toString r.priority] else []) ++
  r.letBindings.map (fun p => "let: " ++ (p.1 ++ " = " ++ p.2)) ++
  ["match: " ++ r.matchExpr] ++
  (if r.merchant ≠ "" ∧ r.merchant ≠ r.name then ["merchant: " ++ r.merchant] else []) ++
  (if r.category ≠ "" then ["category: " ++ r.category] else []) ++
  (if r.subcategory ≠ "" then ["subcategory: " ++ r.subcategory] else []) ++
  r.fields.map (fun p => "field: " ++ (p.1 ++ " = " ++ p.2)) ++
  (if ¬ r.tags.isEmpty then
    ["tags: " ++ joinWith ", " (sortStrings (sortStrings r.tags))] else [])

theorem formatCachedRule_lines (r : MerchantRule) (pos : Nat)
    (hp : r.priority ≠ 0) (hm : r.merchant ≠ "") :
    formatCachedRule (rowToRule (insertRuleRow pos r)) = joinWith "\n" (ruleLines r) := by
  have hprio : (rowToRule (insertRuleRow pos r)).priority = r.priority := by
    simp [rowToRule, insertRuleRow, hp]
  have hmer : (rowToRule (insertRuleRow pos r)).merchant = r.merchant := by
    simp [rowToRule, insertRuleRow, hm]
  have hname : (rowToRule (insertRuleRow pos r)).name = r.name := rfl
  have hme : (rowToRule (insertRuleRow pos r)).matchExpr = r.matchExpr := rfl
  have hcat : (rowToRule (insertRuleRow pos r)).category = r.category := rfl
  have hsub : (rowToRule (insertRuleRow pos r)).subcategory = r.subcategory := rfl
  have hlets : (rowToRule (insertRuleRow pos r)).letBindings = r.letBindings := rfl
  have hflds : (rowToRule (insertRuleRow pos r)).fields = r.fields := rfl
  have htags : (rowToRule (insertRuleRow pos r)).tags = sortStrings r.tags := rfl
  have htagsE : (sortStrings r.tags).isEmpty = r.tags.isEmpty := by
    rcases hrt : r.tags with _ | ⟨x, xs⟩
    · rfl
    · have : x ∈ sortStrings (x :: xs) := by
        rw [mem_sortStrings]
        exact List.mem_cons_self _ _
      rcases hs : sortStrings (x :: xs) with _ | ⟨y, ys⟩
      · rw [hs] at this
        exact absurd this (List.not_mem_nil x)
      · rfl
  unfold formatCachedRule
  rw [hprio, hmer, hname, hme, hcat, hsub, hlets, hflds, htags, htagsE]
  unfold ruleLines
  split_ifs <;> simp [List.append_assoc, strAppend_assoc]

/-- The line lists of the sections, separated by one blank line. -/
def blankJoinL : List (List String) → List String
  | [] => []
  | [s] => s
  | s :: rest => s ++ "" :: blankJoinL rest

theorem blankJoinL_ne : ∀ (secs : List (List String)), secs ≠ [] →
    (∀ s ∈ secs, s ≠ []) → blankJoinL secs ≠ [] := by
  intro secs
  cases secs with
  | nil => intro h; exact absurd rfl h
  | cons s rest =>
    intro _ hall
    cases rest with
    | nil => exact hall s (List.mem_cons_self _ _)
    | cons y ys =>
      show s ++ "" :: blankJoinL (y :: ys) ≠ []
      rcases hs : s with _ | ⟨a, as⟩
      · exact absurd rfl (hs ▸ hall s (List.mem_cons_self _ _))
      · simp

theorem blankJoinL_flat : ∀ (secs : List (List String)), secs ≠ [] →
    blankJoinL secs ++ [""] = secs.flatMap (fun ls => ls ++ [""]) := by
  intro secs
  induction secs with
  | nil => intro h; exact absurd rfl h
  | cons s rest ih =>
    intro _
    cases rest with
    | nil => simp [blankJoinL]
    | cons y ys =>
      show (s ++ "" :: blankJoinL (y :: ys)) ++ [""] = _
      rw [List.flatMap_cons, ← ih (by simp)]
      simp

theorem str_ext {a b : String} (h : a.data = b.data) : a = b := by
  cases a
  cases b
  exact congrArg String.mk h

theorem joinWith_append (sep : String) :
    ∀ (xs ys : List String), xs ≠ [] → ys ≠ [] →
    joinWith sep (xs ++ ys) = joinWith sep xs ++ sep ++ joinWith sep ys := by
  intro xs
  induction xs with
  | nil => intro ys h; exact absurd rfl h
  | cons x rest ih =>
    intro ys _ hy
    cases rest with
    | nil =>
      cases ys with
      | nil => exact absurd rfl hy
      | cons z zs => rfl
    | cons w ws =>
      rw [List.cons_append, joinWith_cons sep x ((w :: ws) ++ ys) (by simp),
        joinWith_cons sep x (w :: ws) (by simp), ih ys (by simp) hy]
      apply str_ext
      simp [strAppend_data, List.append_assoc]

theorem secs_flatten : ∀ (secs : List (List String)), secs ≠ [] →
    (∀ s ∈ secs, s ≠ []) →
    joinWith "\n\n" (secs.map (joinWith "\n")) = joinWith "\n" (blankJoinL secs) := by
  intro secs
  induction secs with
  | nil => intro h; exact absurd rfl h
  | cons s rest ih =>
    intro _ hall
    cases rest with
    | nil => rfl
    | cons y ys =>
      have hbne : blankJoinL (y :: ys) ≠ [] :=
        blankJoinL_ne (y :: ys) (by simp) (fun z hz => hall z (List.mem_cons_of_mem s hz))
      have hsne : s ≠ [] := hall s (List.mem_cons_self _ _)
      show joinWith "\n\n" (joinWith "\n" s :: (y :: ys).map (joinWith "\n")) =
        joinWith "\n" (s ++ "" :: blankJoinL (y :: ys))
      rw [joinWith_cons "\n\n" _ _ (by simp),
        ih (by simp) (fun z hz => hall z (List.mem_cons_of_mem s hz))]
      rw [joinWith_append "\n" s ("" :: blankJoinL (y :: ys)) hsne (by simp),
        joinWith_cons "\n" "" (blankJoinL (y :: ys)) hbne]
      apply str_ext
      simp [strAppend_data, List.append_assoc]

/-! ### C6 parse side: cache-safety predicates and line-shape lemmas -/

/-- A value that survives the round trip through a property line: already
stripped, free of newlines, and nonempty. -/
def valSafe (s : String) : Prop := pyStrip s = s ∧ noNL s = true ∧ s ≠ ""

/-- A `let:`/`field:` binding whose rendered line re-parses to itself and
whose expression passes load-time validation. -/
def pairAssign (pOk : String → Bool) (p : String × String) : Prop :=
  valSafe p.1 ∧ valSafe p.2 ∧ pyLower p.1 = p.1 ∧
    identAssignMatch (p.1 ++ " = " ++ p.2) = some (p.1, p.2) ∧ pOk p.2 = true

/-- A file-level variable whose rendered line re-parses to itself. -/
def varAssign (p : String × String) : Prop :=
  valSafe p.1 ∧ valSafe p.2 ∧ pyLower p.1 = p.1 ∧
    topAssignMatch (p.1 ++ " = " ++ p.2) = some (p.1, p.2) ∧
    strStarts p.1 "field." = false ∧
    strStarts (p.1 ++ " = " ++ p.2) "#" = false ∧
    strStarts (p.1 ++ " = " ++ p.2) "[" = false

/-- A transform directive whose rendered line re-parses to itself. -/
def transAssign (p : String × String) : Prop :=
  valSafe p.1 ∧ valSafe p.2 ∧
    topAssignMatch (p.1 ++ " = " ++ p.2) = some (p.1, p.2) ∧
    strStarts p.1 "field." = true ∧
    strStarts (p.1 ++ " = " ++ p.2) "#" = false ∧
    strStarts (p.1 ++ " = " ++ p.2) "[" = false

/-- The conditions under which one rule survives the cache round trip
behaviourally: values stripped/newline-free, a validated match expression,
a nonzero priority (`int(priority or 50)` on the read path turns `0` into
`50`), re-parseable binding lines, distinct field names, tag text that
re-splits to the sorted tag list, and no `transform:` directive (the cache
schema does not store transforms). -/
def ruleCacheSafe (pOk : String → Bool) (r : MerchantRule) : Prop :=
  valSafe r.name ∧ valSafe r.matchExpr ∧ pOk r.matchExpr = true ∧
  (r.category = "" ∨ valSafe r.category) ∧
  (r.subcategory = "" ∨ valSafe r.subcategory) ∧
  valSafe r.merchant ∧
  r.priority ≠ 0 ∧ parseIntPy (toString r.priority) = some r.priority ∧
  valSafe (toString r.priority) ∧
  (∀ p ∈ r.letBindings, pairAssign pOk p) ∧
  (∀ p ∈ r.fields, pairAssign pOk p) ∧
  (r.fields.map Prod.fst).Nodup ∧
  (r.tags ≠ [] → valSafe (joinWith ", " (sortStrings (sortStrings r.tags)))) ∧
  splitTags (joinWith ", " (sortStrings (sortStrings r.tags))) = sortStrings r.tags ∧
  (r.category ≠ "" ∨ r.tags ≠ []) ∧
  r.transform = ""

/-- Engine-level cache-safety: every rule safe, preamble lines
re-parseable, distinct variable names. -/
def engineCacheSafe (pOk : String → Bool) (eng : MerchantEngine) : Prop :=
  (∀ r ∈ eng.rules, ruleCacheSafe pOk r) ∧
  (∀ p ∈ eng.fileVars, varAssign p) ∧
  (∀ p ∈ eng.transforms, transAssign p) ∧
  (eng.fileVars.map Prod.fst).Nodup

theorem dropWhile_self_head {p : Char → Bool} {l : List Char} (h : l.dropWhile p = l) :
    ∀ c t, l = c :: t → p c = false := by
  intro c t he
  subst he
  by_contra hp
  rw [Bool.not_eq_false] at hp
  rw [List.dropWhile_cons, if_pos hp] at h
  have h1 : (t.dropWhile p).length ≤ t.length :=
    List.Sublist.length_le (List.IsSuffix.sublist (List.dropWhile_suffix p))
  have h2 := congrArg List.length h
  simp only [List.length_cons] at h2
  omega

theorem strip_parts {l : List Char} (h : pyStripList l = l) :
    l.dropWhile isPyWS = l ∧ l.reverse.dropWhile isPyWS = l.reverse := by
  unfold pyStripList at h
  have hlen := congrArg List.length h
  have h1 : (l.dropWhile isPyWS).length ≤ l.length :=
    List.Sublist.length_le (List.IsSuffix.sublist (List.dropWhile_suffix isPyWS))
  have h2 : ((l.dropWhile isPyWS).reverse.dropWhile isPyWS).length ≤
      (l.dropWhile isPyWS).reverse.length :=
    List.Sublist.length_le (List.IsSuffix.sublist (List.dropWhile_suffix isPyWS))
  simp only [List.length_reverse] at hlen h2
  have hd1 : (l.dropWhile isPyWS).length = l.length := by omega
  have hdrop : l.dropWhile isPyWS = l :=
    List.IsSuffix.eq_of_length (List.dropWhile_suffix isPyWS) hd1
  refine ⟨hdrop, ?_⟩
  rw [hdrop] at h
  have := congrArg List.reverse h
  simpa [List.reverse_reverse] using this

theorem valSafe_start {s : String} (h : valSafe s) : startNonWS s := by
  obtain ⟨hs, _, hne⟩ := h
  have hd := (strip_parts (congrArg String.data hs)).1
  unfold startNonWS
  rcases he : s.data with _ | ⟨c, t⟩
  · exact absurd (str_ext he) hne
  · exact dropWhile_self_head hd c t he

theorem valSafe_ends {s : String} (h : valSafe s) : endsNonWS s := by
  obtain ⟨hs, _, hne⟩ := h
  have hd := (strip_parts (congrArg String.data hs)).2
  unfold endsNonWS
  rcases he : s.data.reverse with _ | ⟨c, t⟩
  · rw [List.reverse_eq_nil_iff] at he
    exact absurd (str_ext he) hne
  · exact dropWhile_self_head hd c t he

theorem pyStrip_id {s : String} (h1 : startNonWS s) (h2 : endsNonWS s) :
    pyStrip s = s := by
  apply str_ext
  show pyStripList s.data = s.data
  unfold pyStripList
  rcases he : s.data with _ | ⟨c, t⟩
  · rfl
  · have hc : isPyWS c = false := by
      unfold startNonWS at h1
      rw [he] at h1
      exact h1
    rw [List.dropWhile_cons, if_neg (by simp [hc])]
    rcases hr : (c :: t).reverse with _ | ⟨d, u⟩
    · simp at hr
    · have hd : isPyWS d = false := by
        unfold endsNonWS at h2
        rw [he, hr] at h2
        exact h2
      rw [List.dropWhile_cons, if_neg (by simp [hd]), ← hr, List.reverse_reverse]

theorem pyStrip_cons_ws {c : Char} {l : List Char} (h : isPyWS c = true) :
    pyStrip ⟨c :: l⟩ = pyStrip ⟨l⟩ := by
  apply str_ext
  show pyStripList (c :: l) = pyStripList l
  unfold pyStripList
  rw [List.dropWhile_cons, if_pos h]

theorem splitAtChar_mk (q : Char) :
    ∀ (xs ys : List Char), q ∉ xs →
    splitAtChar q (xs ++ q :: ys) = some (xs, ys) := by
  intro xs
  induction xs with
  | nil =>
    intro ys _
    simp [splitAtChar]
  | cons x rest ih =>
    intro ys h
    simp only [List.mem_cons] at h
    push_neg at h
    simp only [List.cons_append, splitAtChar, List.append_eq]
    have hne : ¬ x = q := fun he => h.1 he.symm
    rw [if_neg hne, ih ys h.2]
    rfl

theorem splitFirst_mk (q : Char) (xs ys : List Char) (h : q ∉ xs) :
    splitFirst q ⟨xs ++ q :: ys⟩ = some (⟨xs⟩, ⟨ys⟩) := by
  unfold splitFirst
  show (splitAtChar q (xs ++ q :: ys)).map _ = _
  rw [splitAtChar_mk q xs ys h]
  rfl

theorem startNonWS_ne {s : String} (h : startNonWS s) : s ≠ "" := by
  intro he
  rw [he] at h
  exact (h : False).elim

theorem strStarts_head_false {s p : String} {c d : Char} {t : List Char}
    (hs : s.data = c :: t) (hp : p.data = [d]) (h : (d == c) = false) :
    strStarts s p = false := by
  unfold strStarts
  rw [hs, hp]
  show (d == c && List.isPrefixOf [] t) = false
  rw [h]
  rfl

theorem valSafe_assign {a b : String} (ha : valSafe a) (hb : valSafe b) :
    valSafe (a ++ " = " ++ b) := by
  refine ⟨?_, ?_, ?_⟩
  · exact pyStrip_id
      (startNonWS_append (a ++ " = ") b (startNonWS_append a " = " (valSafe_start ha)))
      (endsNonWS_append (a ++ " = ") b (valSafe_ends hb))
  · exact noNL_append (a ++ " = ") b
      (noNL_append a " = " ha.2.1 (by decide)) hb.2.1
  · exact startNonWS_ne
      (startNonWS_append (a ++ " = ") b (startNonWS_append a " = " (valSafe_start ha)))

theorem runParse_skip (pOk : String → Bool) {line : String} (rest : List String)
    (n : Nat) (cur : Option (RuleData × Nat)) (acc : EngAcc)
    (h : pyStrip line = "" ∨ strStarts (pyStrip line) "#" = true) :
    runParse pOk (line :: rest) n cur acc = runParse pOk rest (n + 1) cur acc := by
  simp only [runParse]
  rw [if_pos h]

theorem runParse_keyline (pOk : String → Bool) (key v : String) (rest : List String)
    (n hl : Nat) (rd rd2 : RuleData) (acc : EngAcc)
    (hknc : (Char.ofNat 58) ∉ key.data)
    (hkhead : ∃ c t, key.data = c :: t ∧ (Char.ofNat 35 == c) = false ∧
      (Char.ofNat 91 == c) = false ∧ isPyWS c = false)
    (hkstrip : pyStrip key = key)
    (hv : valSafe v)
    (happ : applyProperty (pyLower key) v rd n (key ++ ": " ++ v) = Except.ok rd2) :
    runParse pOk ((key ++ ": " ++ v) :: rest) n (some (rd, hl)) acc =
      runParse pOk rest (n + 1) (some (rd2, hl)) acc := by
  obtain ⟨c, t, hcd, hub1, hub2, hws⟩ := hkhead
  have hdata : (key ++ ": " ++ v).data = key.data ++ (Char.ofNat 58) :: (' ' :: v.data) := by
    rw [strAppend_data, strAppend_data]
    simp [List.append_assoc]
  have hlinedata : (key ++ ": " ++ v).data = c :: (t ++ (Char.ofNat 58) :: ' ' :: v.data) := by
    rw [hdata, hcd]
    rfl
  have hstart : startNonWS (key ++ ": " ++ v) := by
    unfold startNonWS
    rw [hlinedata]
    exact hws
  have hends : endsNonWS (key ++ ": " ++ v) := endsNonWS_append _ v (valSafe_ends hv)
  have hstrip : pyStrip (key ++ ": " ++ v) = key ++ ": " ++ v := pyStrip_id hstart hends
  have hne : (key ++ ": " ++ v) ≠ "" := startNonWS_ne hstart
  have hnh : strStarts (key ++ ": " ++ v) "#" = false :=
    strStarts_head_false hlinedata rfl hub1
  have hnb : strStarts (key ++ ": " ++ v) "[" = false :=
    strStarts_head_false hlinedata rfl hub2
  have hcol : hasChar (key ++ ": " ++ v) (Char.ofNat 58) = true := by
    unfold hasChar
    rw [hdata]
    simp [List.elem_iff]
  have hsp : splitFirst (Char.ofNat 58) (key ++ ": " ++ v) =
      some (key, ⟨' ' :: v.data⟩) := by
    have h0 := splitFirst_mk (Char.ofNat 58) key.data (' ' :: v.data) hknc
    have he : (⟨key.data ++ (Char.ofNat 58) :: ' ' :: v.data⟩ : String) =
        key ++ ": " ++ v := str_ext (by rw [hdata])
    rw [he] at h0
    exact h0
  have hpv : pyStrip (⟨' ' :: v.data⟩ : String) = v := by
    rw [pyStrip_cons_ws (by decide)]
    exact hv.1
  simp only [runParse]
  rw [hstrip]
  rw [if_neg (by
    rintro (ha | hb)
    · exact hne ha
    · rw [hnh] at hb
      exact absurd hb (by simp))]
  rw [if_neg (by
    rintro ⟨ha, _⟩
    rw [hnb] at ha
    exact absurd ha (by simp))]
  rw [if_neg (by
    rintro ⟨_, hb⟩
    simp at hb)]
  show (if hasChar (key ++ ": " ++ v) (Char.ofNat 58) = true then
      match splitFirst (Char.ofNat 58) (key ++ ": " ++ v) with
      | some (rawKey, rawValue) =>
        bind (applyProperty (pyLower (pyStrip rawKey)) (pyStrip rawValue) rd n
          (key ++ ": " ++ v))
          (fun rdx => runParse pOk rest (n + 1) (some (rdx, hl)) acc)
      | Option.none =>
        Except.error ⟨"Unexpected content in rule", n⟩
    else (Except.error ⟨"Unexpected content in rule", n⟩ :
      Except MerchantParseError EngAcc)) =
    runParse pOk rest (n + 1) (some (rd2, hl)) acc
  rw [if_pos hcol, hsp]
  show (bind (applyProperty (pyLower (pyStrip key)) (pyStrip (⟨' ' :: v.data⟩ : String))
      rd n (key ++ ": " ++ v))
      (fun rdx => runParse pOk rest (n + 1) (some (rdx, hl)) acc)) = _
  rw [hkstrip, hpv, happ, except_bind_ok]

theorem sortStrings_isEmpty (l : List String) :
    (sortStrings l).isEmpty = l.isEmpty := by
  rcases hl : l with _ | ⟨x, xs⟩
  · rfl
  · have hx : x ∈ sortStrings (x :: xs) := mem_sortStrings.mpr (List.mem_cons_self _ _)
    rcases hs : sortStrings (x :: xs) with _ | ⟨y, ys⟩
    · rw [hs] at hx
      exact absurd hx (List.not_mem_nil x)
    · rfl

/-- The `RuleData` record the parser accumulates from a regenerated rule
section. -/
def rdOf (r : MerchantRule) : RuleData :=
  { name := r.name,
    matchExpr := some r.matchExpr,
    category := if r.category ≠ "" then some r.category else Option.none,
    subcategory := if r.subcategory ≠ "" then some r.subcategory else Option.none,
    merchant := if r.merchant ≠ "" ∧ r.merchant ≠ r.name then some r.merchant
      else Option.none,
    transform := Option.none,
    tags := if ¬ r.tags.isEmpty then
      some (splitTags (joinWith ", " (sortStrings (sortStrings r.tags))))
      else Option.none,
    priority := if r.priority ≠ 50 then some r.priority else Option.none,
    letBindings := r.letBindings,
    fields := r.fields }

/-- The rule the parser rebuilds from a regenerated section: the original
rule with sorted tags, no transform, and a fresh line number. -/
def mkRe (r : MerchantRule) (hl : Nat) : MerchantRule :=
  { name := r.name, matchExpr := r.matchExpr, category := r.category,
    subcategory := r.subcategory, merchant := r.merchant,
    tags := sortStrings r.tags, priority := r.priority, lineNumber := hl,
    letBindings := r.letBindings, fields := r.fields, transform := "" }

/-- `reEq r r2`: `r2` is the round-tripped form of `r`. -/
def reEq (r r2 : MerchantRule) : Prop := ∃ hl, r2 = mkRe r hl

theorem addRule_rdOf (pOk : String → Bool) (r : MerchantRule) (hl : Nat)
    (hs : ruleCacheSafe pOk r) :
    addRule pOk (rdOf r) hl = Except.ok (mkRe r hl) := by
  obtain ⟨hname, hme, hpok, hcat, hsub, hmer, hp0, hpi, hps, hlets, hflds, hnd,
    htagv, htsplit, hcot, htr⟩ := hs
  unfold addRule rdOf
  simp only
  have hlf : (r.letBindings.find? (fun p => ¬ pOk p.2) = Option.none) := by
    rw [List.find?_eq_none]
    intro p hp
    simp [(hlets p hp).2.2.2.2]
  have hff : (r.fields.find? (fun p => ¬ pOk p.2) = Option.none) := by
    rw [List.find?_eq_none]
    intro p hp
    simp [(hflds p hp).2.2.2.2]
  have hcatargs : ((if r.category ≠ "" then some r.category else Option.none).getD "" =
      r.category) := by
    split_ifs with hc
    · rfl
    · push_neg at hc
      rw [hc]
      rfl
  have hsubargs : ((if r.subcategory ≠ "" then some r.subcategory else
      Option.none).getD "" = r.subcategory) := by
    split_ifs with hc
    · rfl
    · push_neg at hc
      rw [hc]
      rfl
  have htagsargs : ((if ¬ r.tags.isEmpty then
      some (splitTags (joinWith ", " (sortStrings (sortStrings r.tags))))
      else Option.none).getD [] = sortStrings r.tags) := by
    split_ifs with hc
    · rw [List.isEmpty_iff] at hc
      rw [hc]
      rfl
    · exact htsplit
  have hprioargs : ((if r.priority ≠ 50 then some r.priority else Option.none).getD 50 =
      r.priority) := by
    split_ifs with hc
    · rfl
    · push_neg at hc
      rw [hc]
      rfl
  have hcond : ¬ (¬ ((if r.category ≠ "" then some r.category else
      Option.none).getD "") ≠ "" ∧ ¬ ((if ¬ r.tags.isEmpty then
      some (splitTags (joinWith ", " (sortStrings (sortStrings r.tags))))
      else Option.none).getD []) ≠ []) := by
    rw [hcatargs, htagsargs]
    rcases hcot with hc | ht
    · intro hx
      exact hx.1 hc
    · intro hx
      refine hx.2 ?_
      intro hse
      have := sortStrings_isEmpty r.tags
      rw [hse] at this
      simp only [List.isEmpty_nil, Bool.true_eq] at this
      rw [List.isEmpty_iff] at this
      exact ht this
  rw [if_neg hcond, hlf, hff, if_neg (by simp [hpok])]
  rw [hcatargs, hsubargs, htagsargs, hprioargs]
  unfold MerchantRule.make mkRe
  have hmerargs : (if ((if r.merchant ≠ "" ∧ r.merchant ≠ r.name then some r.merchant
      else Option.none).getD "") = "" then r.name
      else ((if r.merchant ≠ "" ∧ r.merchant ≠ r.name then some r.merchant
        else Option.none).getD "")) = r.merchant := by
    by_cases hc : r.merchant ≠ "" ∧ r.merchant ≠ r.name
    · rw [if_pos hc]
      show (if r.merchant = "" then r.name else r.merchant) = r.merchant
      rw [if_neg hc.1]
    · rw [if_neg hc]
      push_neg at hc
      show (if "" = "" then r.name else "") = r.merchant
      rw [if_pos rfl]
      exact (hc hmer.2.2).symm
  rw [hmerargs]
  rfl

theorem reEq_of_safe {pOk : String → Bool} {r r2 : MerchantRule}
    (hs : ruleCacheSafe pOk r) (h : reEq r r2) : ruleBeh r r2 := by
  obtain ⟨hl, rfl⟩ := h
  refine ⟨rfl, rfl, rfl, rfl, rfl, rfl, rfl, rfl, ?_, ?_⟩
  · exact hs.2.2.2.2.2.2.2.2.2.2.2.2.2.2.2.symm
  · intro t
    exact mem_sortStrings

theorem keyline_match (pOk : String → Bool) (v : String) (rest : List String)
    (n hl : Nat) (rd : RuleData) (acc : EngAcc) (hv : valSafe v) :
    runParse pOk (("match: " ++ v) :: rest) n (some (rd, hl)) acc =
      runParse pOk rest (n + 1) (some ({ rd with matchExpr := some v }, hl)) acc :=
  runParse_keyline pOk "match" v rest n hl rd _ acc (by decide)
    ⟨Char.ofNat 109, "atch".data, by decide, by decide, by decide, by decide⟩
    (by decide) hv
    (by
      rw [(by decide : pyLower "match" = "match")]
      rfl)

theorem keyline_category (pOk : String → Bool) (v : String) (rest : List String)
    (n hl : Nat) (rd : RuleData) (acc : EngAcc) (hv : valSafe v) :
    runParse pOk (("category: " ++ v) :: rest) n (some (rd, hl)) acc =
      runParse pOk rest (n + 1) (some ({ rd with category := some v }, hl)) acc :=
  runParse_keyline pOk "category" v rest n hl rd _ acc (by decide)
    ⟨Char.ofNat 99, "ategory".data, by decide, by decide, by decide, by decide⟩
    (by decide) hv
    (by
      rw [(by decide : pyLower "category" = "category")]
      rfl)

theorem keyline_subcategory (pOk : String → Bool) (v : String) (rest : List String)
    (n hl : Nat) (rd : RuleData) (acc : EngAcc) (hv : valSafe v) :
    runParse pOk (("subcategory: " ++ v) :: rest) n (some (rd, hl)) acc =
      runParse pOk rest (n + 1) (some ({ rd with subcategory := some v }, hl)) acc :=
  runParse_keyline pOk "subcategory" v rest n hl rd _ acc (by decide)
    ⟨Char.ofNat 115, "ubcategory".data, by decide, by decide, by decide, by decide⟩
    (by decide) hv
    (by
      rw [(by decide : pyLower "subcategory" = "subcategory")]
      rfl)

theorem keyline_merchant (pOk : String → Bool) (v : String) (rest : List String)
    (n hl : Nat) (rd : RuleData) (acc : EngAcc) (hv : valSafe v) :
    runParse pOk (("merchant: " ++ v) :: rest) n (some (rd, hl)) acc =
      runParse pOk rest (n + 1) (some ({ rd with merchant := some v }, hl)) acc :=
  runParse_keyline pOk "merchant" v rest n hl rd _ acc (by decide)
    ⟨Char.ofNat 109, "erchant".data, by decide, by decide, by decide, by decide⟩
    (by decide) hv
    (by
      rw [(by decide : pyLower "merchant" = "merchant")]
      rfl)

theorem keyline_tags (pOk : String → Bool) (v : String) (rest : List String)
    (n hl : Nat) (rd : RuleData) (acc : EngAcc) (hv : valSafe v) :
    runParse pOk (("tags: " ++ v) :: rest) n (some (rd, hl)) acc =
      runParse pOk rest (n + 1) (some ({ rd with tags := some (splitTags v) }, hl)) acc :=
  runParse_keyline pOk "tags" v rest n hl rd _ acc (by decide)
    ⟨Char.ofNat 116, "ags".data, by decide, by decide, by decide, by decide⟩
    (by decide) hv
    (by
      rw [(by decide : pyLower "tags" = "tags")]
      rfl)

theorem keyline_priority (pOk : String → Bool) (p : Int) (rest : List String)
    (n hl : Nat) (rd : RuleData) (acc : EngAcc)
    (hvp : valSafe (toString p)) (hpi : parseIntPy (toString p) = some p) :
    runParse pOk (("priority: " ++ toString p) :: rest) n (some (rd, hl)) acc =
      runParse pOk rest (n + 1) (some ({ rd with priority := some p }, hl)) acc :=
  runParse_keyline pOk "priority" (toString p) rest n hl rd _ acc (by decide)
    ⟨Char.ofNat 112, "riority".data, by decide, by decide, by decide, by decide⟩
    (by decide) hvp
    (by
      rw [(by decide : pyLower "priority" = "priority")]
      show (match parseIntPy (toString p) with
        | some n1 => Except.ok { rd with priority := some n1 }
        | Option.none => (Except.error ⟨"Invalid priority value: " ++ toString p ++
            " (must be integer)", n⟩ : Except MerchantParseError RuleData)) =
        Except.ok { rd with priority := some p }
      rw [hpi])

theorem keyline_let (pOk : String → Bool) (lv le : String) (rest : List String)
    (n hl : Nat) (rd : RuleData) (acc : EngAcc) (hpa : pairAssign pOk (lv, le)) :
    runParse pOk (("let: " ++ (lv ++ " = " ++ le)) :: rest) n (some (rd, hl)) acc =
      runParse pOk rest (n + 1)
        (some ({ rd with letBindings := rd.letBindings ++ [(lv, le)] }, hl)) acc :=
  runParse_keyline pOk "let" (lv ++ " = " ++ le) rest n hl rd _ acc (by decide)
    ⟨Char.ofNat 108, "et".data, by decide, by decide, by decide, by decide⟩
    (by decide) (valSafe_assign hpa.1 hpa.2.1)
    (by
      rw [(by decide : pyLower "let" = "let")]
      show (match identAssignMatch (lv ++ " = " ++ le) with
        | Option.none => (Except.error ⟨"Invalid let syntax. Expected: let: name = expression",
            n⟩ : Except MerchantParseError RuleData)
        | some (nm, e) =>
          Except.ok { rd with letBindings := rd.letBindings ++ [(pyLower nm, e)] }) =
        Except.ok { rd with letBindings := rd.letBindings ++ [(lv, le)] }
      rw [hpa.2.2.2.1]
      show Except.ok { rd with letBindings := rd.letBindings ++ [(pyLower lv, le)] } = _
      rw [hpa.2.2.1])

theorem keyline_field (pOk : String → Bool) (fv fe : String) (rest : List String)
    (n hl : Nat) (rd : RuleData) (acc : EngAcc) (hpa : pairAssign pOk (fv, fe)) :
    runParse pOk (("field: " ++ (fv ++ " = " ++ fe)) :: rest) n (some (rd, hl)) acc =
      runParse pOk rest (n + 1)
        (some ({ rd with fields := setAssoc rd.fields fv fe }, hl)) acc :=
  runParse_keyline pOk "field" (fv ++ " = " ++ fe) rest n hl rd _ acc (by decide)
    ⟨Char.ofNat 102, "ield".data, by decide, by decide, by decide, by decide⟩
    (by decide) (valSafe_assign hpa.1 hpa.2.1)
    (by
      rw [(by decide : pyLower "field" = "field")]
      show (match identAssignMatch (fv ++ " = " ++ fe) with
        | Option.none => (Except.error ⟨"Invalid field syntax. Expected: field: name = expression",
            n⟩ : Except MerchantParseError RuleData)
        | some (nm, e) =>
          Except.ok { rd with fields := setAssoc rd.fields (pyLower nm) e }) =
        Except.ok { rd with fields := setAssoc rd.fields fv fe }
      rw [hpa.2.2.2.1]
      show Except.ok { rd with fields := setAssoc rd.fields (pyLower fv) fe } = _
      rw [hpa.2.2.1])

theorem runParse_letLines (pOk : String → Bool) :
    ∀ (lets : List (String × String)) (rest : List String) (n hl : Nat)
      (rd rd2 : RuleData) (acc : EngAcc),
    (∀ p ∈ lets, pairAssign pOk p) →
    rd2 = { rd with letBindings := rd.letBindings ++ lets } →
    ∃ m, runParse pOk ((lets.map (fun p => "let: " ++ (p.1 ++ " = " ++ p.2))) ++ rest) n
      (some (rd, hl)) acc = runParse pOk rest m (some (rd2, hl)) acc := by
  intro lets
  induction lets with
  | nil =>
    intro rest n hl rd rd2 acc _ hrd
    refine ⟨n, ?_⟩
    rw [hrd]
    simp only [List.append_nil, List.map_nil, List.nil_append]
  | cons p ps ih =>
    intro rest n hl rd rd2 acc hall hrd
    obtain ⟨lv, le⟩ := p
    rw [List.map_cons, List.cons_append,
      keyline_let pOk lv le _ n hl rd acc (hall (lv, le) (List.mem_cons_self _ _))]
    refine ih _ (n + 1) hl _ rd2 acc (fun q hq => hall q (List.mem_cons_of_mem _ hq)) ?_
    rw [hrd]
    simp

theorem runParse_fieldLines (pOk : String → Bool) :
    ∀ (flds : List (String × String)) (rest : List String) (n hl : Nat)
      (rd rd2 : RuleData) (acc : EngAcc),
    (∀ p ∈ flds, pairAssign pOk p) →
    (flds.map Prod.fst).Nodup →
    (∀ p ∈ flds, p.1 ∉ rd.fields.map Prod.fst) →
    rd2 = { rd with fields := rd.fields ++ flds } →
    ∃ m, runParse pOk ((flds.map (fun p => "field: " ++ (p.1 ++ " = " ++ p.2))) ++ rest) n
      (some (rd, hl)) acc = runParse pOk rest m (some (rd2, hl)) acc := by
  intro flds
  induction flds with
  | nil =>
    intro rest n hl rd rd2 acc _ _ _ hrd
    refine ⟨n, ?_⟩
    rw [hrd]
    simp only [List.append_nil, List.map_nil, List.nil_append]
  | cons p ps ih =>
    intro rest n hl rd rd2 acc hall hnd hfresh hrd
    obtain ⟨fv, fe⟩ := p
    rw [List.map_cons, List.cons_append,
      keyline_field pOk fv fe _ n hl rd acc (hall (fv, fe) (List.mem_cons_self _ _))]
    rw [setAssoc_fresh rd.fields fv fe (hfresh (fv, fe) (List.mem_cons_self _ _))]
    refine ih _ (n + 1) hl _ rd2 acc (fun q hq => hall q (List.mem_cons_of_mem _ hq))
      (List.nodup_cons.mp hnd).2 ?_ ?_
    · intro q hq
      simp only [List.map_append, List.mem_append, List.map_cons, List.map_nil]
      rintro (hin | hin)
      · exact hfresh q (List.mem_cons_of_mem _ hq) hin
      · simp only [List.mem_cons, List.not_mem_nil, or_false] at hin
        exact (List.nodup_cons.mp hnd).1 (hin ▸ List.mem_map.mpr ⟨q, hq, rfl⟩)
    · rw [hrd]
      simp

/-- The property lines of a regenerated rule section (its body after the
`[name]` header). -/
def propLines (r : MerchantRule) : List String :=
  (if r.priority ≠ 50 then ["priority: " ++ toString r.priority] else []) ++
  r.letBindings.map (fun p => "let: " ++ (p.1 ++ " = " ++ p.2)) ++
  ["match: " ++ r.matchExpr] ++
  (if r.merchant ≠ "" ∧ r.merchant ≠ r.name then ["merchant: " ++ r.merchant] else []) ++
  (if r.category ≠ "" then ["category: " ++ r.category] else []) ++
  (if r.subcategory ≠ "" then ["subcategory: " ++ r.subcategory] else []) ++
  r.fields.map (fun p => "field: " ++ (p.1 ++ " = " ++ p.2)) ++
  (if ¬ r.tags.isEmpty then
    ["tags: " ++ joinWith ", " (sortStrings (sortStrings r.tags))] else [])

theorem ruleLines_eq (r : MerchantRule) :
    ruleLines r = ("[" ++ r.name ++ "]") :: propLines r := by
  unfold ruleLines propLines
  simp only [List.append_assoc, List.singleton_append, List.cons_append,
    List.nil_append]

theorem steps_append (pOk : String → Bool) {A B : List String}
    {c1 c2 c3 : Option (RuleData × Nat)} {acc : EngAcc}
    (hA : ∀ rest n, ∃ m, runParse pOk (A ++ rest) n c1 acc =
      runParse pOk rest m c2 acc)
    (hB : ∀ rest n, ∃ m, runParse pOk (B ++ rest) n c2 acc =
      runParse pOk rest m c3 acc) :
    ∀ rest n, ∃ m, runParse pOk ((A ++ B) ++ rest) n c1 acc =
      runParse pOk rest m c3 acc := by
  intro rest n
  rw [List.append_assoc]
  obtain ⟨m1, e1⟩ := hA (B ++ rest) n
  obtain ⟨m2, e2⟩ := hB rest m1
  exact ⟨m2, e1.trans e2⟩

def rdS1 (r : MerchantRule) : RuleData :=
  { name := r.name,
    priority := if r.priority ≠ 50 then some r.priority else Option.none }

def rdS2 (r : MerchantRule) : RuleData :=
  { rdS1 r with letBindings := r.letBindings }

def rdS3 (r : MerchantRule) : RuleData :=
  { rdS2 r with matchExpr := some r.matchExpr }

def rdS4 (r : MerchantRule) : RuleData :=
  { rdS3 r with
    merchant := if r.merchant ≠ "" ∧ r.merchant ≠ r.name then some r.merchant
      else Option.none }

def rdS5 (r : MerchantRule) : RuleData :=
  { rdS4 r with
    category := if r.category ≠ "" then some r.category else Option.none }

def rdS6 (r : MerchantRule) : RuleData :=
  { rdS5 r with
    subcategory := if r.subcategory ≠ "" then some r.subcategory else Option.none }

def rdS7 (r : MerchantRule) : RuleData :=
  { rdS6 r with fields := r.fields }

def rdS8 (r : MerchantRule) : RuleData :=
  { rdS7 r with
    tags := if ¬ r.tags.isEmpty then
      some (splitTags (joinWith ", " (sortStrings (sortStrings r.tags))))
      else Option.none }

theorem runParse_propLines (pOk : String → Bool) (r : MerchantRule)
    (hs : ruleCacheSafe pOk r) (rest : List String) (n hl : Nat) (acc : EngAcc) :
    ∃ m, runParse pOk (propLines r ++ rest) n
        (some (({ name := r.name } : RuleData), hl)) acc =
      runParse pOk rest m (some (rdOf r, hl)) acc := by
  obtain ⟨hname, hme, hpok, hcat, hsub, hmer, hp0, hpi, hps, hlets, hflds, hnd,
    htagv, htsplit, hcot, htr⟩ := hs
  have s1 : ∀ rest2 m, ∃ k, runParse pOk
      ((if r.priority ≠ 50 then ["priority: " ++ toString r.priority] else []) ++ rest2) m
      (some (({ name := r.name } : RuleData), hl)) acc =
      runParse pOk rest2 k (some (rdS1 r, hl)) acc := by
    intro rest2 m
    unfold rdS1
    by_cases hc : r.priority ≠ 50
    · rw [if_pos hc, if_pos hc, List.singleton_append]
      exact ⟨m + 1, keyline_priority pOk r.priority rest2 m hl _ acc hps hpi⟩
    · rw [if_neg hc, if_neg hc, List.nil_append]
      exact ⟨m, rfl⟩
  have s2 : ∀ rest2 m, ∃ k, runParse pOk
      ((r.letBindings.map (fun p => "let: " ++ (p.1 ++ " = " ++ p.2))) ++ rest2) m
      (some (rdS1 r, hl)) acc =
      runParse pOk rest2 k (some (rdS2 r, hl)) acc := by
    intro rest2 m
    exact runParse_letLines pOk r.letBindings rest2 m hl _ _ acc hlets rfl
  have s3 : ∀ rest2 m, ∃ k, runParse pOk
      ((["match: " ++ r.matchExpr] : List String) ++ rest2) m
      (some (rdS2 r, hl)) acc =
      runParse pOk rest2 k (some (rdS3 r, hl)) acc := by
    intro rest2 m
    rw [List.singleton_append]
    exact ⟨m + 1, keyline_match pOk r.matchExpr rest2 m hl _ acc hme⟩
  have s4 : ∀ rest2 m, ∃ k, runParse pOk
      ((if r.merchant ≠ "" ∧ r.merchant ≠ r.name then ["merchant: " ++ r.merchant]
        else []) ++ rest2) m
      (some (rdS3 r, hl)) acc =
      runParse pOk rest2 k (some (rdS4 r, hl)) acc := by
    intro rest2 m
    unfold rdS4
    by_cases hc : r.merchant ≠ "" ∧ r.merchant ≠ r.name
    · rw [if_pos hc, if_pos hc, List.singleton_append]
      exact ⟨m + 1, keyline_merchant pOk r.merchant rest2 m hl _ acc hmer⟩
    · rw [if_neg hc, if_neg hc, List.nil_append]
      exact ⟨m, rfl⟩
  have s5 : ∀ rest2 m, ∃ k, runParse pOk
      ((if r.category ≠ "" then ["category: " ++ r.category] else []) ++ rest2) m
      (some (rdS4 r, hl)) acc =
      runParse pOk rest2 k (some (rdS5 r, hl)) acc := by
    intro rest2 m
    unfold rdS5
    by_cases hc : r.category ≠ ""
    · rw [if_pos hc, if_pos hc, List.singleton_append]
      exact ⟨m + 1, keyline_category pOk r.category rest2 m hl _ acc
        (hcat.resolve_left hc)⟩
    · rw [if_neg hc, if_neg hc, List.nil_append]
      exact ⟨m, rfl⟩
  have s6 : ∀ rest2 m, ∃ k, runParse pOk
      ((if r.subcategory ≠ "" then ["subcategory: " ++ r.subcategory] else []) ++
        rest2) m
      (some (rdS5 r, hl)) acc =
      runParse pOk rest2 k (some (rdS6 r, hl)) acc := by
    intro rest2 m
    unfold rdS6
    by_cases hc : r.subcategory ≠ ""
    · rw [if_pos hc, if_pos hc, List.singleton_append]
      exact ⟨m + 1, keyline_subcategory pOk r.subcategory rest2 m hl _ acc
        (hsub.resolve_left hc)⟩
    · rw [if_neg hc, if_neg hc, List.nil_append]
      exact ⟨m, rfl⟩
  have s7 : ∀ rest2 m, ∃ k, runParse pOk
      ((r.fields.map (fun p => "field: " ++ (p.1 ++ " = " ++ p.2))) ++ rest2) m
      (some (rdS6 r, hl)) acc =
      runParse pOk rest2 k (some (rdS7 r, hl)) acc := by
    intro rest2 m
    refine runParse_fieldLines pOk r.fields rest2 m hl _ _ acc hflds hnd ?_ rfl
    intro p hp
    show p.1 ∉ ([] : List (String × String)).map Prod.fst
    simp
  have s8 : ∀ rest2 m, ∃ k, runParse pOk
      ((if ¬ r.tags.isEmpty then
        ["tags: " ++ joinWith ", " (sortStrings (sortStrings r.tags))] else []) ++
        rest2) m
      (some (rdS7 r, hl)) acc =
      runParse pOk rest2 k (some (rdS8 r, hl)) acc := by
    intro rest2 m
    unfold rdS8
    by_cases hc : ¬ r.tags.isEmpty
    · have hne : r.tags ≠ [] := fun he => hc (by rw [he]; rfl)
      rw [if_pos hc, if_pos hc, List.singleton_append]
      exact ⟨m + 1, keyline_tags pOk (joinWith ", " (sortStrings (sortStrings r.tags)))
        rest2 m hl _ acc (htagv hne)⟩
    · rw [if_neg hc, if_neg hc, List.nil_append]
      exact ⟨m, rfl⟩
  have t2 := steps_append pOk s1 s2
  have t3 := steps_append pOk t2 s3
  have t4 := steps_append pOk t3 s4
  have t5 := steps_append pOk t4 s5
  have t6 := steps_append pOk t5 s6
  have t7 := steps_append pOk t6 s7
  have t8 := steps_append pOk t7 s8
  exact t8 rest n

theorem header_facts (nm : String) (hn : valSafe nm) :
    ("[" ++ nm ++ "]").data = '[' :: (nm.data ++ [']']) ∧
    pyStrip ("[" ++ nm ++ "]") = ("[" ++ nm ++ "]") ∧
    ("[" ++ nm ++ "]") ≠ "" ∧
    strStarts ("[" ++ nm ++ "]") "#" = false ∧
    strStarts ("[" ++ nm ++ "]") "[" = true ∧
    strEnds ("[" ++ nm ++ "]") "]" = true ∧
    pyStrip (innerSlice ("[" ++ nm ++ "]")) = nm := by
  have hdata : ("[" ++ nm ++ "]").data = '[' :: (nm.data ++ [']']) := by
    rw [strAppend_data, strAppend_data]
    simp [List.append_assoc]
  have hstart : startNonWS ("[" ++ nm ++ "]") := by
    unfold startNonWS
    rw [hdata]
    show isPyWS '[' = false
    decide
  have hends : endsNonWS ("[" ++ nm ++ "]") :=
    endsNonWS_append ("[" ++ nm) "]" (by
      show isPyWS ']' = false
      decide)
  have hstrip : pyStrip ("[" ++ nm ++ "]") = ("[" ++ nm ++ "]") :=
    pyStrip_id hstart hends
  have hne : ("[" ++ nm ++ "]") ≠ "" := startNonWS_ne hstart
  have hnh : strStarts ("[" ++ nm ++ "]") "#" = false :=
    strStarts_head_false hdata rfl (by decide)
  have hbr : strStarts ("[" ++ nm ++ "]") "[" = true := by
    unfold strStarts
    rw [hdata]
    simp [List.isPrefixOf]
  have hbe : strEnds ("[" ++ nm ++ "]") "]" = true := by
    unfold strEnds
    rw [hdata]
    simp [List.isPrefixOf]
  have hin : innerSlice ("[" ++ nm ++ "]") = nm := by
    unfold innerSlice
    rw [hdata]
    show (⟨(nm.data ++ [']']).dropLast⟩ : String) = nm
    exact str_ext List.dropLast_concat
  refine ⟨hdata, hstrip, hne, hnh, hbr, hbe, ?_⟩
  rw [hin]
  exact hn.1

theorem runParse_header (pOk : String → Bool) (nm : String) (rest : List String)
    (n hl : Nat) (rdP : RuleData) (rP : MerchantRule) (acc : EngAcc)
    (hn : valSafe nm)
    (hadd : addRule pOk rdP hl = Except.ok rP) :
    runParse pOk (("[" ++ nm ++ "]") :: rest) n (some (rdP, hl)) acc =
      runParse pOk rest (n + 1) (some (({ name := nm } : RuleData), n))
        { acc with rules := acc.rules ++ [rP] } := by
  obtain ⟨hdata, hstrip, hne, hnh, hbr, hbe, hinner⟩ := header_facts nm hn
  simp only [runParse]
  rw [hstrip]
  rw [if_neg (by
    rintro (ha | hb)
    · exact hne ha
    · rw [hnh] at hb
      exact absurd hb (by simp))]
  rw [if_pos ⟨hbr, hbe⟩]
  rw [hinner]
  rw [hadd, except_bind_ok]
  rw [except_bind_ok]
  rw [if_neg hn.2.2]

theorem runParse_header0 (pOk : String → Bool) (nm : String) (rest : List String)
    (n : Nat) (acc : EngAcc) (hn : valSafe nm) :
    runParse pOk (("[" ++ nm ++ "]") :: rest) n Option.none acc =
      runParse pOk rest (n + 1) (some (({ name := nm } : RuleData), n)) acc := by
  obtain ⟨hdata, hstrip, hne, hnh, hbr, hbe, hinner⟩ := header_facts nm hn
  simp only [runParse]
  rw [hstrip]
  rw [if_neg (by
    rintro (ha | hb)
    · exact hne ha
    · rw [hnh] at hb
      exact absurd hb (by simp))]
  rw [if_pos ⟨hbr, hbe⟩]
  rw [hinner]
  rw [except_bind_ok]
  rw [if_neg hn.2.2]

theorem runParse_varline (pOk : String → Bool) (nm e : String) (rest : List String)
    (n : Nat) (acc : EngAcc) (hva : varAssign (nm, e)) :
    runParse pOk ((nm ++ " = " ++ e) :: rest) n Option.none acc =
      runParse pOk rest (n + 1) Option.none
        { acc with fileVars := setAssoc acc.fileVars nm e } := by
  obtain ⟨h1, h2, hlow, htop, hnf, hh, hb⟩ := hva
  have hline := valSafe_assign h1 h2
  have hstrip : pyStrip (nm ++ " = " ++ e) = nm ++ " = " ++ e := hline.1
  have hne : (nm ++ " = " ++ e) ≠ "" := hline.2.2
  have heq : hasChar (nm ++ " = " ++ e) '=' = true := by
    unfold hasChar
    have hdata : (nm ++ " = " ++ e).data = nm.data ++ (' ' :: '=' :: ' ' :: e.data) := by
      rw [strAppend_data, strAppend_data]
      simp [List.append_assoc]
    rw [hdata]
    simp [List.elem_iff]
  simp only [runParse]
  rw [hstrip]
  rw [if_neg (by
    rintro (ha | hbb)
    · exact hne ha
    · rw [hh] at hbb
      exact absurd hbb (by simp))]
  rw [if_neg (by
    rintro ⟨ha, _⟩
    rw [hb] at ha
    exact absurd ha (by simp))]
  rw [if_pos ⟨heq, rfl⟩]
  rw [htop]
  show (if strStarts nm "field." = true then
      runParse pOk rest (n + 1) Option.none
        { acc with transforms := acc.transforms ++ [(nm, e)] }
    else
      runParse pOk rest (n + 1) Option.none
        { acc with fileVars := setAssoc acc.fileVars (pyLower nm) e }) = _
  rw [hnf, if_neg (by simp), hlow]

theorem runParse_transline (pOk : String → Bool) (nm e : String) (rest : List String)
    (n : Nat) (acc : EngAcc) (hta : transAssign (nm, e)) :
    runParse pOk ((nm ++ " = " ++ e) :: rest) n Option.none acc =
      runParse pOk rest (n + 1) Option.none
        { acc with transforms := acc.transforms ++ [(nm, e)] } := by
  obtain ⟨h1, h2, htop, hnf, hh, hb⟩ := hta
  have hline := valSafe_assign h1 h2
  have hstrip : pyStrip (nm ++ " = " ++ e) = nm ++ " = " ++ e := hline.1
  have hne : (nm ++ " = " ++ e) ≠ "" := hline.2.2
  have heq : hasChar (nm ++ " = " ++ e) '=' = true := by
    unfold hasChar
    have hdata : (nm ++ " = " ++ e).data = nm.data ++ (' ' :: '=' :: ' ' :: e.data) := by
      rw [strAppend_data, strAppend_data]
      simp [List.append_assoc]
    rw [hdata]
    simp [List.elem_iff]
  simp only [runParse]
  rw [hstrip]
  rw [if_neg (by
    rintro (ha | hbb)
    · exact hne ha
    · rw [hh] at hbb
      exact absurd hbb (by simp))]
  rw [if_neg (by
    rintro ⟨ha, _⟩
    rw [hb] at ha
    exact absurd ha (by simp))]
  rw [if_pos ⟨heq, rfl⟩]
  rw [htop]
  show (if strStarts nm "field." = true then
      runParse pOk rest (n + 1) Option.none
        { acc with transforms := acc.transforms ++ [(nm, e)] }
    else
      runParse pOk rest (n + 1) Option.none
        { acc with fileVars := setAssoc acc.fileVars (pyLower nm) e }) = _
  rw [hnf, if_pos rfl]

theorem runParse_preVars (pOk : String → Bool) :
    ∀ (vs : List (String × String)) (rest : List String) (n : Nat)
      (acc acc2 : EngAcc),
    (∀ p ∈ vs, varAssign p) →
    (vs.map Prod.fst).Nodup →
    (∀ p ∈ vs, p.1 ∉ acc.fileVars.map Prod.fst) →
    acc2 = { acc with fileVars := acc.fileVars ++ vs } →
    ∃ m, runParse pOk ((vs.map (fun p => p.1 ++ " = " ++ p.2)) ++ rest) n
      Option.none acc = runParse pOk rest m Option.none acc2 := by
  intro vs
  induction vs with
  | nil =>
    intro rest n acc acc2 _ _ _ hacc
    refine ⟨n, ?_⟩
    rw [hacc]
    simp only [List.append_nil, List.map_nil, List.nil_append]
  | cons p ps ih =>
    intro rest n acc acc2 hall hnd hfresh hacc
    obtain ⟨nm, e⟩ := p
    rw [List.map_cons, List.cons_append,
      runParse_varline pOk nm e _ n acc (hall (nm, e) (List.mem_cons_self _ _))]
    rw [setAssoc_fresh acc.fileVars nm e (hfresh (nm, e) (List.mem_cons_self _ _))]
    refine ih _ (n + 1) _ acc2 (fun q hq => hall q (List.mem_cons_of_mem _ hq))
      (List.nodup_cons.mp hnd).2 ?_ ?_
    · intro q hq
      simp only [List.map_append, List.mem_append, List.map_cons, List.map_nil]
      rintro (hin | hin)
      · exact hfresh q (List.mem_cons_of_mem _ hq) hin
      · simp only [List.mem_cons, List.not_mem_nil, or_false] at hin
        exact (List.nodup_cons.mp hnd).1 (hin ▸ List.mem_map.mpr ⟨q, hq, rfl⟩)
    · rw [hacc]
      simp

theorem runParse_preTrans (pOk : String → Bool) :
    ∀ (ts : List (String × String)) (rest : List String) (n : Nat)
      (acc acc2 : EngAcc),
    (∀ p ∈ ts, transAssign p) →
    acc2 = { acc with transforms := acc.transforms ++ ts } →
    ∃ m, runParse pOk ((ts.map (fun p => p.1 ++ " = " ++ p.2)) ++ rest) n
      Option.none acc = runParse pOk rest m Option.none acc2 := by
  intro ts
  induction ts with
  | nil =>
    intro rest n acc acc2 _ hacc
    refine ⟨n, ?_⟩
    rw [hacc]
    simp only [List.append_nil, List.map_nil, List.nil_append]
  | cons p ps ih =>
    intro rest n acc acc2 hall hacc
    obtain ⟨nm, e⟩ := p
    rw [List.map_cons, List.cons_append,
      runParse_transline pOk nm e _ n acc (hall (nm, e) (List.mem_cons_self _ _))]
    refine ih _ (n + 1) _ acc2 (fun q hq => hall q (List.mem_cons_of_mem _ hq)) ?_
    rw [hacc]
    simp

theorem runParse_preamble (pOk : String → Bool) (eng : MerchantEngine)
    (hv : ∀ p ∈ eng.fileVars, varAssign p)
    (ht : ∀ p ∈ eng.transforms, transAssign p)
    (hnd : (eng.fileVars.map Prod.fst).Nodup)
    (rest : List String) (n : Nat) :
    ∃ m, runParse pOk ((cachePreamble eng ++ [""]) ++ rest) n Option.none {} =
      runParse pOk rest m Option.none
        { rules := [], fileVars := eng.fileVars, transforms := eng.transforms } := by
  unfold cachePreamble
  rw [List.append_assoc, List.append_assoc]
  obtain ⟨m1, e1⟩ := runParse_preVars pOk eng.fileVars
    (eng.transforms.map (fun p => p.1 ++ " = " ++ p.2) ++ ([""] ++ rest)) n {}
    { rules := [], fileVars := eng.fileVars, transforms := [] }
    hv hnd (by simp) (by simp)
  rw [e1]
  obtain ⟨m2, e2⟩ := runParse_preTrans pOk eng.transforms ([""] ++ rest) m1
    { rules := [], fileVars := eng.fileVars, transforms := [] }
    { rules := [], fileVars := eng.fileVars, transforms := eng.transforms }
    ht (by simp)
  rw [e2]
  rw [List.singleton_append,
    runParse_skip pOk rest m2 Option.none _ (Or.inl (by decide))]
  exact ⟨m2 + 1, rfl⟩

theorem runParse_sections (pOk : String → Bool) :
    ∀ (rules : List MerchantRule) (n hl : Nat) (rdP : RuleData)
      (rP : MerchantRule) (acc : EngAcc),
    (∀ r ∈ rules, ruleCacheSafe pOk r) →
    addRule pOk rdP hl = Except.ok rP →
    ∃ rules2, List.Forall₂ reEq rules rules2 ∧
      runParse pOk ((rules.map ruleLines).flatMap (fun ls => ls ++ [""])) n
        (some (rdP, hl)) acc =
        Except.ok { acc with rules := (acc.rules ++ [rP]) ++ rules2 } := by
  intro rules
  induction rules with
  | nil =>
    intro n hl rdP rP acc _ hadd
    refine ⟨[], List.Forall₂.nil, ?_⟩
    simp only [List.map_nil, List.flatMap_nil]
    simp only [runParse]
    rw [hadd, except_bind_ok]
    simp
  | cons r rs ih =>
    intro n hl rdP rP acc hall hadd
    have hsr := hall r (List.mem_cons_self _ _)
    rw [List.map_cons, List.flatMap_cons, ruleLines_eq, List.cons_append,
      List.cons_append]
    rw [runParse_header pOk r.name _ n hl rdP rP acc hsr.1 hadd]
    rw [List.append_assoc]
    obtain ⟨m1, e1⟩ := runParse_propLines pOk r hsr
      ([""] ++ (rs.map ruleLines).flatMap (fun ls => ls ++ [""])) (n + 1) n
      { acc with rules := acc.rules ++ [rP] }
    rw [e1]
    rw [List.singleton_append, runParse_skip pOk
      ((rs.map ruleLines).flatMap (fun ls => ls ++ [""])) m1
      (some (rdOf r, n)) { acc with rules := acc.rules ++ [rP] }
      (Or.inl (by decide))]
    obtain ⟨rules2, hf, e2⟩ := ih (m1 + 1) n (rdOf r) (mkRe r n)
      { acc with rules := acc.rules ++ [rP] }
      (fun q hq => hall q (List.mem_cons_of_mem _ hq))
      (addRule_rdOf pOk r n hsr)
    refine ⟨mkRe r n :: rules2, List.Forall₂.cons ⟨n, rfl⟩ hf, ?_⟩
    rw [e2]
    simp [List.append_assoc]

theorem runParse_sections0 (pOk : String → Bool) (rules : List MerchantRule)
    (n : Nat) (acc : EngAcc) (hall : ∀ r ∈ rules, ruleCacheSafe pOk r) :
    ∃ rules2, List.Forall₂ reEq rules rules2 ∧
      runParse pOk ((rules.map ruleLines).flatMap (fun ls => ls ++ [""])) n
        Option.none acc = Except.ok { acc with rules := acc.rules ++ rules2 } := by
  cases rules with
  | nil =>
    refine ⟨[], List.Forall₂.nil, ?_⟩
    simp only [List.map_nil, List.flatMap_nil]
    simp only [runParse]
    simp
  | cons r rs =>
    have hsr := hall r (List.mem_cons_self _ _)
    rw [List.map_cons, List.flatMap_cons, ruleLines_eq, List.cons_append,
      List.cons_append]
    rw [runParse_header0 pOk r.name _ n acc hsr.1]
    rw [List.append_assoc]
    obtain ⟨m1, e1⟩ := runParse_propLines pOk r hsr
      ([""] ++ (rs.map ruleLines).flatMap (fun ls => ls ++ [""])) (n + 1) n acc
    rw [e1]
    rw [List.singleton_append, runParse_skip pOk
      ((rs.map ruleLines).flatMap (fun ls => ls ++ [""])) m1
      (some (rdOf r, n)) acc (Or.inl (by decide))]
    obtain ⟨rules2, hf, e2⟩ := runParse_sections pOk rs (m1 + 1) n (rdOf r)
      (mkRe r n) acc (fun q hq => hall q (List.mem_cons_of_mem _ hq))
      (addRule_rdOf pOk r n hsr)
    refine ⟨mkRe r n :: rules2, List.Forall₂.cons ⟨n, rfl⟩ hf, ?_⟩
    rw [e2]
    simp [List.append_assoc]

theorem mem_append_forall {α : Type} {P : α → Prop} {xs ys : List α}
    (h1 : ∀ l ∈ xs, P l) (h2 : ∀ l ∈ ys, P l) : ∀ l ∈ xs ++ ys, P l := by
  intro l hl
  rcases List.mem_append.mp hl with h | h
  · exact h1 l h
  · exact h2 l h

theorem mem_ite_singleton_forall {α : Type} {P : α → Prop} {c : Prop}
    [Decidable c] {x : α} (h : c → P x) :
    ∀ l ∈ (if c then [x] else ([] : List α)), P l := by
  intro l hl
  split_ifs at hl with hc
  · have he := List.mem_singleton.mp hl
    subst he
    exact h hc
  · exact absurd hl (List.not_mem_nil l)

theorem mem_ite_nil_forall {α : Type} {P : α → Prop} {c : Prop}
    [Decidable c] {x : α} (h : ¬ c → P x) :
    ∀ l ∈ (if c then ([] : List α) else [x]), P l := by
  intro l hl
  split_ifs at hl with hc
  · exact absurd hl (List.not_mem_nil l)
  · have he := List.mem_singleton.mp hl
    subst he
    exact h hc

theorem mem_map_forall {α β : Type} {P : β → Prop} {f : α → β} {xs : List α}
    (h : ∀ p ∈ xs, P (f p)) : ∀ l ∈ xs.map f, P l := by
  intro l hl
  obtain ⟨p, hp, rfl⟩ := List.mem_map.mp hl
  exact h p hp

/-- A rendered line: newline-free and ending in a non-whitespace character. -/
def lineSafe (l : String) : Prop := noNL l = true ∧ endsNonWS l

theorem lineSafe_keyval (a : String) (ha : noNL a = true) {v : String}
    (hv : valSafe v) : lineSafe (a ++ v) :=
  ⟨noNL_append a v ha hv.2.1, endsNonWS_append a v (valSafe_ends hv)⟩

theorem lineSafe_of_valSafe {s : String} (h : valSafe s) : lineSafe s :=
  ⟨h.2.1, valSafe_ends h⟩

theorem lineSafe_header {nm : String} (hn : valSafe nm) :
    lineSafe ("[" ++ nm ++ "]") :=
  ⟨noNL_append ("[" ++ nm) "]" (noNL_append "[" nm (by decide) hn.2.1) (by decide),
    endsNonWS_append ("[" ++ nm) "]" (by
      show isPyWS ']' = false
      decide)⟩

theorem ruleLines_safe (pOk : String → Bool) (r : MerchantRule)
    (hs : ruleCacheSafe pOk r) : ∀ l ∈ ruleLines r, lineSafe l := by
  obtain ⟨hname, hme, hpok, hcat, hsub, hmer, hp0, hpi, hps, hlets, hflds, hnd,
    htagv, htsplit, hcot, htr⟩ := hs
  unfold ruleLines
  refine mem_append_forall (mem_append_forall (mem_append_forall (mem_append_forall
    (mem_append_forall (mem_append_forall (mem_append_forall (mem_append_forall
    ?_ ?_) ?_) ?_) ?_) ?_) ?_) ?_) ?_
  · intro l hl
    have he := List.mem_singleton.mp hl
    subst he
    exact lineSafe_header hname
  · exact mem_ite_singleton_forall (fun _ => lineSafe_keyval "priority: " (by decide) hps)
  · exact mem_map_forall (fun p hp =>
      lineSafe_keyval "let: " (by decide)
        (valSafe_assign (hlets p hp).1 (hlets p hp).2.1))
  · intro l hl
    have he := List.mem_singleton.mp hl
    subst he
    exact lineSafe_keyval "match: " (by decide) hme
  · exact mem_ite_singleton_forall (fun _ => lineSafe_keyval "merchant: " (by decide) hmer)
  · exact mem_ite_singleton_forall (fun hc =>
      lineSafe_keyval "category: " (by decide) (hcat.resolve_left hc))
  · exact mem_ite_singleton_forall (fun hc =>
      lineSafe_keyval "subcategory: " (by decide) (hsub.resolve_left hc))
  · exact mem_map_forall (fun p hp =>
      lineSafe_keyval "field: " (by decide)
        (valSafe_assign (hflds p hp).1 (hflds p hp).2.1))
  · exact mem_ite_singleton_forall (fun hc =>
      lineSafe_keyval "tags: " (by decide)
        (htagv (fun he => hc (by rw [he]; rfl))))

theorem ruleLines_ne (r : MerchantRule) : ruleLines r ≠ [] := by
  rw [ruleLines_eq]
  simp

theorem cachePreamble_safe (pOk : String → Bool) (eng : MerchantEngine)
    (hsafe : engineCacheSafe pOk eng) : ∀ l ∈ cachePreamble eng, lineSafe l := by
  unfold cachePreamble
  refine mem_append_forall ?_ ?_
  · exact mem_map_forall (fun p hp =>
      lineSafe_of_valSafe (valSafe_assign (hsafe.2.1 p hp).1 (hsafe.2.1 p hp).2.1))
  · exact mem_map_forall (fun p hp =>
      lineSafe_of_valSafe (valSafe_assign (hsafe.2.2.1 p hp).1 (hsafe.2.2.1 p hp).2.1))

theorem mem_blankJoinL : ∀ (secs : List (List String)) (l : String),
    l ∈ blankJoinL secs → l = "" ∨ ∃ s ∈ secs, l ∈ s := by
  intro secs
  induction secs with
  | nil =>
    intro l hl
    exact absurd hl (List.not_mem_nil l)
  | cons s rest ih =>
    intro l hl
    cases rest with
    | nil =>
      exact Or.inr ⟨s, List.mem_cons_self _ _, hl⟩
    | cons y ys =>
      have hl2 : l ∈ s ++ "" :: blankJoinL (y :: ys) := hl
      rcases List.mem_append.mp hl2 with h | h
      · exact Or.inr ⟨s, List.mem_cons_self _ _, h⟩
      · rcases List.mem_cons.mp h with h | h
        · exact Or.inl h
        · rcases ih l h with h | ⟨z, hz, hlz⟩
          · exact Or.inl h
          · exact Or.inr ⟨z, List.mem_cons_of_mem s hz, hlz⟩

theorem mapMkData : ∀ (ls : List String),
    (ls.map String.data).map (fun l => (⟨l⟩ : String)) = ls := by
  intro ls
  induction ls with
  | nil => rfl
  | cons a as ih =>
    simp only [List.map_cons]
    rw [ih]

theorem map_format (pOk : String → Bool) (rules : List MerchantRule)
    (h : ∀ r ∈ rules, ruleCacheSafe pOk r) :
    (getRules (cacheRules rules)).map formatCachedRule =
      rules.map (fun r => joinWith "\n" (ruleLines r)) := by
  refine List.ext_getElem (by simp [getRules, cacheRules]) ?_
  intro i h1 h2
  have h3 : i < rules.length := by simpa using h2
  simp only [getRules, List.getElem_map]
  have hlen : i < (cacheRules rules).length := by
    rw [length_cacheRules]
    exact h3
  have hg : (cacheRules rules)[i] = insertRuleRow i (rules.get ⟨i, h3⟩) := by
    have := get_cacheRules rules i hlen h3
    simpa [List.get_eq_getElem] using this
  rw [hg]
  have hmem : rules.get ⟨i, h3⟩ ∈ rules := List.get_mem _ _ _
  have hsr := h _ hmem
  rw [formatCachedRule_lines (rules.get ⟨i, h3⟩) i hsr.2.2.2.2.2.2.1 hsr.2.2.2.2.2.1.2.2]
  simp [List.get_eq_getElem]

/-- The sections of the regenerated file, as line lists. -/
def secLinesOf (eng : MerchantEngine) : List (List String) :=
  (if (cachePreamble eng).isEmpty then [] else [cachePreamble eng]) ++
    eng.rules.map ruleLines

theorem regen_lines (pOk : String → Bool) (eng : MerchantEngine)
    (hsafe : engineCacheSafe pOk eng) (hne : secLinesOf eng ≠ []) :
    (splitOnChar (Char.ofNat 10) (regenerateRulesFile eng).data).map
        (fun l => (⟨l⟩ : String)) =
      (secLinesOf eng).flatMap (fun ls => ls ++ [""]) := by
  have hall_ne : ∀ s ∈ secLinesOf eng, s ≠ [] := by
    unfold secLinesOf
    refine mem_append_forall ?_ ?_
    · refine mem_ite_nil_forall ?_
      intro hc he
      exact hc (by rw [he]; rfl)
    · exact mem_map_forall (fun r _ => ruleLines_ne r)
  have hall_safe : ∀ s ∈ secLinesOf eng, ∀ l ∈ s, lineSafe l := by
    unfold secLinesOf
    refine mem_append_forall ?_ ?_
    · exact mem_ite_nil_forall (fun _ => cachePreamble_safe pOk eng hsafe)
    · exact mem_map_forall (fun r hr => ruleLines_safe pOk r (hsafe.1 r hr))
  have hsecs : (if (cachePreamble eng).isEmpty then [] else
      [joinWith "\n" (cachePreamble eng)]) ++
      (getRules (cacheRules eng.rules)).map formatCachedRule =
      (secLinesOf eng).map (joinWith "\n") := by
    rw [map_format pOk eng.rules hsafe.1]
    unfold secLinesOf
    by_cases hp : (cachePreamble eng).isEmpty
    · rw [if_pos hp, if_pos hp]
      simp [List.map_map, Function.comp]
    · rw [if_neg hp, if_neg hp]
      simp [List.map_map, Function.comp]
  have hends : endsNonWS (joinWith "\n\n" ((secLinesOf eng).map (joinWith "\n"))) := by
    refine endsNonWS_joinWith "\n\n" _ ?_ ?_
    · intro he
      exact hne (List.map_eq_nil_iff.mp he)
    · exact mem_map_forall (fun s hs =>
        endsNonWS_joinWith "\n" s (hall_ne s hs) (fun l hl => (hall_safe s hs l hl).2))
  have hS : joinWith "\n\n" ((secLinesOf eng).map (joinWith "\n")) =
      joinWith "\n" (blankJoinL (secLinesOf eng)) := secs_flatten _ hne hall_ne
  have hbne : blankJoinL (secLinesOf eng) ≠ [] := blankJoinL_ne _ hne hall_ne
  have hC : regenerateRulesFile eng =
      joinWith "\n" (blankJoinL (secLinesOf eng)) ++ "\n" := by
    show (⟨((joinWith "\n\n" ((if (cachePreamble eng).isEmpty then [] else
      [joinWith "\n" (cachePreamble eng)]) ++
      (getRules (cacheRules eng.rules)).map
        formatCachedRule)).data.reverse.dropWhile isPyWS).reverse⟩ : String) ++
      "\n" = _
    rw [hsecs, hS, rstrip_id _ (hS ▸ hends)]
  have hC2 : regenerateRulesFile eng =
      joinWith "\n" (blankJoinL (secLinesOf eng) ++ [""]) := by
    rw [hC, joinWith_append "\n" _ [""] hbne (by simp)]
    apply str_ext
    simp [strAppend_data, joinWith]
  have hnoNL : ∀ l ∈ blankJoinL (secLinesOf eng) ++ [""], noNL l = true := by
    refine mem_append_forall ?_ ?_
    · intro l hl
      rcases mem_blankJoinL _ l hl with h | ⟨s, hs, hls⟩
      · rw [h]
        decide
      · exact (hall_safe s hs l hls).1
    · intro l hl
      have he := List.mem_singleton.mp hl
      rw [he]
      decide
  rw [hC2, splitOnChar_joinWith (blankJoinL (secLinesOf eng) ++ [""])
    (by simp) hnoNL]
  rw [mapMkData]
  exact blankJoinL_flat _ hne

theorem preamble_empty {eng : MerchantEngine}
    (hp : (cachePreamble eng).isEmpty = true) :
    eng.fileVars = [] ∧ eng.transforms = [] := by
  rw [List.isEmpty_iff] at hp
  unfold cachePreamble at hp
  rcases List.append_eq_nil.mp hp with ⟨h1, h2⟩
  exact ⟨List.map_eq_nil_iff.mp h1, List.map_eq_nil_iff.mp h2⟩

theorem forall2_reEq_beh (pOk : String → Bool) :
    ∀ (rs rs2 : List MerchantRule),
    (∀ r ∈ rs, ruleCacheSafe pOk r) → List.Forall₂ reEq rs rs2 →
    List.Forall₂ ruleBeh rs rs2 := by
  intro rs
  induction rs with
  | nil =>
    intro rs2 _ h
    cases h
    exact List.Forall₂.nil
  | cons r rest ih =>
    intro rs2 hall h
    cases h with
    | cons he hrest =>
      exact List.Forall₂.cons
        (reEq_of_safe (hall r (List.mem_cons_self _ _)) he)
        (ih _ (fun q hq => hall q (List.mem_cons_of_mem _ hq)) hrest)

/-- C6 (amended): for an engine whose preamble lines and rules are
cache-safe — values stripped and newline-free, nonzero priorities, no
`transform:` directives, re-parseable binding lines — re-parsing the
regenerated rules file succeeds; it reproduces the file variables, the
transform directives and the match mode exactly, rebuilds each rule up to
sorted tags, a cleared transform and a fresh line number, and the
resulting engine produces behaviourally identical match results (all
fields equal, tags as a set) for every transaction under both match
modes. -/
theorem cache_round_trip_preserves_matching (pOk : String → Bool)
    (eng : MerchantEngine) (hsafe : engineCacheSafe pOk eng) :
    ∃ eng2, parseMerchants pOk (regenerateRulesFile eng) eng.matchMode =
        Except.ok eng2 ∧
      eng2.fileVars = eng.fileVars ∧ eng2.transforms = eng.transforms ∧
      eng2.matchMode = eng.matchMode ∧
      List.Forall₂ reEq eng.rules eng2.rules ∧
      (∀ ev, resultRel (engineMatch ev eng) (engineMatch ev eng2)) := by
  by_cases hnil : secLinesOf eng = []
  · have hpair : (if (cachePreamble eng).isEmpty then [] else
        [cachePreamble eng]) = ([] : List (List String)) ∧
        eng.rules.map ruleLines = [] := by
      unfold secLinesOf at hnil
      exact List.append_eq_nil.mp hnil
    have hrules : eng.rules = [] := List.map_eq_nil_iff.mp hpair.2
    have hpre : (cachePreamble eng).isEmpty = true := by
      by_contra hq
      have := hpair.1
      rw [if_neg hq] at this
      exact absurd this (by simp)
    obtain ⟨hfv, htf⟩ := preamble_empty hpre
    have hcontent : regenerateRulesFile eng = "\n" := by
      show (⟨((joinWith "\n\n" ((if (cachePreamble eng).isEmpty then [] else
        [joinWith "\n" (cachePreamble eng)]) ++
        (getRules (cacheRules eng.rules)).map
          formatCachedRule)).data.reverse.dropWhile isPyWS).reverse⟩ : String) ++
        "\n" = "\n"
      rw [if_pos hpre, hrules]
      rfl
    refine ⟨{ rules := [], fileVars := [], transforms := [],
              matchMode := eng.matchMode }, ?_, hfv.symm, htf.symm, rfl, ?_, ?_⟩
    · unfold parseMerchants parseRules
      rw [hcontent]
      rfl
    · rw [hrules]
      exact List.Forall₂.nil
    · intro ev
      exact engineMatch_beh ev ⟨hfv.symm, rfl, by
        rw [hrules]
        exact List.Forall₂.nil⟩
  · have hlines := regen_lines pOk eng hsafe hnil
    have hacc : ∃ rules2, List.Forall₂ reEq eng.rules rules2 ∧
        parseRules pOk (regenerateRulesFile eng) = Except.ok
          { rules := rules2, fileVars := eng.fileVars,
            transforms := eng.transforms } := by
      unfold parseRules
      rw [hlines]
      unfold secLinesOf
      rw [List.flatMap_append]
      by_cases hp : (cachePreamble eng).isEmpty
      · rw [if_pos hp]
        obtain ⟨hfv, htf⟩ := preamble_empty hp
        simp only [List.flatMap_nil, List.nil_append]
        obtain ⟨rules2, hf, e⟩ := runParse_sections0 pOk eng.rules 1 {} hsafe.1
        refine ⟨rules2, hf, ?_⟩
        rw [e, hfv, htf]
        rfl
      · rw [if_neg hp]
        simp only [List.flatMap_cons, List.flatMap_nil, List.append_nil]
        obtain ⟨m, e1⟩ := runParse_preamble pOk eng hsafe.2.1 hsafe.2.2.1
          hsafe.2.2.2 ((eng.rules.map ruleLines).flatMap (fun ls => ls ++ [""])) 1
        rw [e1]
        obtain ⟨rules2, hf, e2⟩ := runParse_sections0 pOk eng.rules m
          { rules := [], fileVars := eng.fileVars, transforms := eng.transforms }
          hsafe.1
        refine ⟨rules2, hf, ?_⟩
        rw [e2]
        rfl
    obtain ⟨rules2, hf, hok⟩ := hacc
    refine ⟨{ rules := rules2, fileVars := eng.fileVars,
              transforms := eng.transforms, matchMode := eng.matchMode },
      ?_, rfl, rfl, rfl, hf, ?_⟩
    · unfold parseMerchants
      rw [hok]
      rfl
    · intro ev
      exact engineMatch_beh ev ⟨rfl, rfl,
        forall2_reEq_beh pOk eng.rules rules2 hsafe.1 hf⟩

instance valSafe_dec (s : String) : Decidable (valSafe s) := by
  unfold valSafe
  infer_instance

instance pairAssign_dec (pOk : String → Bool) (p : String × String) :
    Decidable (pairAssign pOk p) := by
  unfold pairAssign
  infer_instance

instance varAssign_dec (p : String × String) : Decidable (varAssign p) := by
  unfold varAssign
  infer_instance

instance transAssign_dec (p : String × String) : Decidable (transAssign p) := by
  unfold transAssign
  infer_instance

instance ruleCacheSafe_dec (pOk : String → Bool) (r : MerchantRule) :
    Decidable (ruleCacheSafe pOk r) := by
  unfold ruleCacheSafe
  infer_instance

instance engineCacheSafe_dec (pOk : String → Bool) (eng : MerchantEngine) :
    Decidable (engineCacheSafe pOk eng) := by
  unfold engineCacheSafe
  infer_instance

/-- A rule carrying a `transform:` directive, for the cache round trip. -/
def rC6 : MerchantRule :=
  { name := "coffee", matchExpr := "true", category := "food",
    subcategory := "", merchant := "coffee", tags := [], priority := 50,
    lineNumber := 1, letBindings := [], fields := [], transform := "note" }

def engC6 : MerchantEngine :=
  { rules := [rC6], fileVars := [], transforms := [],
    matchMode := "first_match" }

/-- The engine read back from `engC6`'s regenerated rules file: the
transform is gone (the cache schema has no column for it and
`_format_cached_rule` writes no `transform:` line). -/
def engC6R : MerchantEngine :=
  { rules := [{ rC6 with transform := "" }], fileVars := [], transforms := [],
    matchMode := "first_match" }

def evC6 : EvalFn := fun e _ =>
  if e = "true" then some (Value.bool true)
  else if e = "note" then some (Value.str "NEW")
  else Option.none

/-- C6 counterexample: the cache round trip is not faithful. A rule with a
`transform:` directive regenerates to a file without it, which parses
back to a rule whose transform is empty, so the same transaction gets a
transform description before caching and none after. -/
theorem transform_lost_in_cache :
    parseMerchants (fun _ => true) (regenerateRulesFile engC6) "first_match" =
      Except.ok engC6R ∧
    (engineMatch evC6 engC6).transformDescription = "NEW" ∧
    (engineMatch evC6 engC6R).transformDescription = "" := by
  refine ⟨rfl, rfl, rfl⟩

/-- A cache-safe engine exercising preamble variables, transforms, let
bindings, fields, tags and a non-default priority. -/
def engC6W : MerchantEngine :=
  { rules := [{ name := "shop", matchExpr := "amount", category := "retail",
                subcategory := "clothes", merchant := "Shop Inc",
                tags := ["b", "a"], priority := 60, lineNumber := 3,
                letBindings := [("x", "amount")], fields := [("note", "x")],
                transform := "" }],
    fileVars := [("base", "100")], transforms := [("field.note", "x")],
    matchMode := "first_match" }

theorem cache_round_trip_preserves_matching_witness :
    engineCacheSafe (fun _ => true) engC6W ∧
    ∃ eng2, parseMerchants (fun _ => true) (regenerateRulesFile engC6W)
        engC6W.matchMode = Except.ok eng2 ∧
      eng2.fileVars = engC6W.fileVars ∧ eng2.transforms = engC6W.transforms ∧
      eng2.matchMode = engC6W.matchMode ∧
      List.Forall₂ reEq engC6W.rules eng2.rules ∧
      (∀ ev, resultRel (engineMatch ev engC6W) (engineMatch ev eng2)) :=
  ⟨by decide,
    cache_round_trip_preserves_matching (fun _ => true) engC6W (by decide)⟩

end Tally
